import Mathlib

/-!
# Gobrot: escape-time evaluator, colour packing, gradient expansion and renderer

Shallow embedding of `internal/brot/main.go` and of the legacy renderer of `mandelbrot.go`.

* `float64` is embedded twice. Where a statement does not depend on the value of a floating
  point result, or is worded for exact arithmetic, `float64` values are exact rationals
  (`ℚ`), and a non-finite value that the code can produce (`math.Log 0`, `1.0 / 0`) is kept
  explicit in `F64`. Where the value matters, the operations are those of IEEE 754
  binary64: the exact result rounded to nearest, ties to even, with subnormals and overflow
  to an infinity (`round64`). Every operation is rounded on its own, as in a default amd64
  build (no fused multiply-add). The sign of a zero is not kept: no comparison, sum or
  product of the code observes it, and every divisor of the code is a converted integer, a
  literal or a difference.
* Go `int` is `Int`; `uint32` is a `Nat` reduced modulo `2 ^ 32` after every
  operation; `uint8` channels are `Fin 256`.
* `math.Cos`, `math.Log`, `math.Pi`, the conversions of non-representable floats and the
  palette registry are parameters; the cosine of Go's standard library is given as one
  instance.
* The row tasks of `Render` are embedded as a step function driven by a schedule.
-/

namespace Gobrot

/-! ## Escape-time evaluator -/

/-- The `for i := 0; i < maxIter; i++` loop of `mandelIteration`, started at
loop counter `i` with current iterate `(x, y)`, in exact arithmetic (`mandelLoop64` is the
same loop in binary64).  `fuel` bounds the number of
loop bodies that may still be executed; `none` means the bound was hit. -/
def mandelLoop (cx cy : ℚ) (maxIter : Int) : Nat → Int → ℚ → ℚ → Option (ℚ × Int)
  | 0, i, x, y =>
    if i < maxIter then none
    else some ((x * x + y * y) / 2, maxIter)
  | fuel + 1, i, x, y =>
    if i < maxIter then
      let xy := x * y
      let xx := x * x
      let yy := y * y
      if xx + yy > 4 then some (xx + yy, i)
      else mandelLoop cx cy maxIter fuel (i + 1) (xx - yy + cx) (2 * xy + cy)
    else some ((x * x + y * y) / 2, maxIter)

/-- Embedding of `mandelIteration(cx, cy, maxIter)`: the loop is started at `i = 0`,
`x = y = 0` and is given `maxIter` loop bodies. -/
def mandelIteration (cx cy : ℚ) (maxIter : Int) : Option (ℚ × Int) :=
  mandelLoop cx cy maxIter maxIter.toNat 0 0 0

/-- The quadratic orbit `z_0 = 0`, `z_{k+1} = z_k ^ 2 + c` of `c = cx + cy·i`,
as pairs (real part, imaginary part). -/
def orbit (cx cy : ℚ) : Nat → ℚ × ℚ
  | 0 => (0, 0)
  | k + 1 =>
    ((orbit cx cy k).1 * (orbit cx cy k).1 - (orbit cx cy k).2 * (orbit cx cy k).2 + cx,
      2 * ((orbit cx cy k).1 * (orbit cx cy k).2) + cy)

/-- Squared magnitude `|z|^2` of a point of the plane. -/
def normSq (z : ℚ × ℚ) : ℚ := z.1 * z.1 + z.2 * z.2

/-! ## Machine integers and colours -/

/-- Reduction of a natural number to a `uint32` value. -/
def u32 (n : Nat) : Nat := n % 2 ^ 32

/-- The type `color.RGBA` of Go's `image/color`: four `uint8` channels. -/
structure RGBA where
  R : Fin 256
  G : Fin 256
  B : Fin 256
  A : Fin 256
  deriving DecidableEq, Repr

/-- The method `color.RGBA.RGBA()` of Go's `image/color`: every channel `v` is widened to
16 bits as `v | v << 8` and returned as a `uint32`. -/
def RGBA.RGBA (c : RGBA) : Nat × Nat × Nat × Nat :=
  (u32 (c.R.val ||| u32 (c.R.val <<< 8)), u32 (c.G.val ||| u32 (c.G.val <<< 8)),
    u32 (c.B.val ||| u32 (c.B.val <<< 8)), u32 (c.A.val ||| u32 (c.A.val <<< 8)))

/-- Embedding of `rgbaToUint`. -/
def rgbaToUint (color : RGBA) : Nat :=
  let r := color.RGBA.1
  let g := color.RGBA.2.1
  let b := color.RGBA.2.2.1
  let a := color.RGBA.2.2.2
  let r := r / 0xff
  let g := g / 0xff
  let b := b / 0xff
  let a := a / 0xff
  u32 (r <<< 24) ||| u32 (g <<< 16) ||| u32 (b <<< 8) ||| a

/-- Embedding of `uint32ToRgba`; the conversion `uint8(v)` is `Fin.ofNat v`. -/
def uint32ToRgba (col : Nat) : RGBA :=
  let r := (col >>> 24) &&& 0xff
  let g := (col >>> 16) &&& 0xff
  let b := (col >>> 8) &&& 0xff
  let a := 0xff
  { R := Fin.ofNat r, G := Fin.ofNat g, B := Fin.ofNat b, A := Fin.ofNat a }

/-- Embedding of `linearInterpolation` on `uint32` operands: `c1*(1-mu) + c2*mu`, every
operation wrapping modulo `2 ^ 32`. -/
def linearInterpolation (c1 c2 mu : Nat) : Nat :=
  u32 (u32 (c1 * u32 (1 + (2 ^ 32 - u32 mu))) + u32 (c2 * mu))

/-- Byte `i` of a packed colour (`0` is the least significant byte, the A channel;
`3` the most significant, the R channel). -/
def channel (i : Fin 4) (c : Nat) : Nat := c / 2 ^ (8 * i.val) % 256

/-! ## Floating point at the boundary -/

/-- A `float64` value where the code can leave the finite range: a finite value
(idealised as a rational), an infinity, or NaN. -/
inductive F64 where
  | fin (q : ℚ)
  | posInf
  | negInf
  | nan
  deriving DecidableEq

/-- What the code takes from outside the repository: the functions `math.Cos` and
`math.Log` (on finite, positive arguments for `Log`) and the constant `math.Pi` of Go's
`math`, and the results of the conversions `int(f)` and `uint32(f)` for a float `f` that
the target type cannot represent, which the Go specification leaves to the
implementation. -/
structure FloatEnv where
  Cos : ℚ → ℚ
  Log : ℚ → ℚ
  Pi : ℚ
  intOf : F64 → Int
  uint32Of : F64 → Nat

/-- The conversion `int(f)` of the amd64 implementation of Go, over an environment
`base`: `int(f)` compiles to `CVTTSD2SQ`, whose result for NaN, an infinity or an
out-of-range value is the "integer indefinite" `0x8000000000000000`, that is `-2 ^ 63`. -/
def amd64 (base : FloatEnv) : FloatEnv :=
  { base with intOf := fun _ => -2 ^ 63 }

/-- Truncation of a rational toward zero. -/
def trunc (q : ℚ) : Int := q.num.tdiv q.den

/-- The conversion `int(f)` of a `float64` to Go's 64-bit `int`. -/
def toInt (env : FloatEnv) : F64 → Int
  | .fin q => if -2 ^ 63 ≤ trunc q ∧ trunc q < 2 ^ 63 then trunc q else env.intOf (.fin q)
  | f => env.intOf f

/-- The conversion `uint32(f)` of a `float64`. -/
def toUint32 (env : FloatEnv) : F64 → Nat
  | .fin q => if 0 ≤ trunc q ∧ trunc q < 2 ^ 32 then (trunc q).toNat else u32 (env.uint32Of (.fin q))
  | f => u32 (env.uint32Of f)

/-- The function `math.Log` on a finite argument: `Log 0 = -Inf`, `Log x = NaN` for `x < 0`. -/
def mathLog (env : FloatEnv) (x : ℚ) : F64 :=
  if 0 < x then .fin (env.Log x) else if x = 0 then .negInf else .nan

/-- The function `math.Abs`. -/
def mathAbs : F64 → F64
  | .fin q => .fin |q|
  | .posInf => .posInf
  | .negInf => .posInf
  | .nan => .nan

/-- Sum of a finite value and a `float64`. -/
def F64.addFin (a : ℚ) : F64 → F64
  | .fin q => .fin (a + q)
  | f => f

/-! ## Binary64 arithmetic

A finite `float64` is the rational it denotes; the `float64` values among the rationals are
the fixed points of `round64`. An operation of Go on finite operands is the exact operation
followed by `round64`. -/

/-- Floor of the base-2 logarithm of `n` by repeated halving (0 for `n < 2`); `fuel` bounds
the number of halvings. -/
def log2Fuel : Nat → Nat → Nat
  | 0, _ => 0
  | fuel + 1, n => if n < 2 then 0 else log2Fuel fuel (n / 2) + 1

/-- The binary exponent of a non-zero rational: the `e` with `2 ^ e ≤ |q| < 2 ^ (e + 1)`. -/
def ilog2 (q : ℚ) : Int :=
  if (2 : ℚ) ^ ((log2Fuel q.num.natAbs q.num.natAbs : Int) - (log2Fuel q.den q.den : Int)) ≤ |q|
  then (log2Fuel q.num.natAbs q.num.natAbs : Int) - (log2Fuel q.den q.den : Int)
  else (log2Fuel q.num.natAbs q.num.natAbs : Int) - (log2Fuel q.den q.den : Int) - 1

/-- Rounding to the nearest integer, ties to the even one. -/
def roundHalfEven (x : ℚ) : Int :=
  if x - ⌊x⌋ < 1 / 2 then ⌊x⌋
  else if 1 / 2 < x - ⌊x⌋ then ⌊x⌋ + 1
  else if ⌊x⌋ % 2 = 0 then ⌊x⌋ else ⌊x⌋ + 1

/-- The exponent of the last place of the binary64 values around `q`: 52 below the binary
exponent of `q`, and never below that of the subnormal range. -/
def quantum (q : ℚ) : Int := max (ilog2 q) (-1022) - 52

/-- Rounding to the nearest multiple of the last place, ties to even, the exponent range
unbounded above. -/
def roundQ (q : ℚ) : ℚ := (roundHalfEven (q / 2 ^ quantum q) : ℚ) * 2 ^ quantum q

/-- Rounding of an exact result to binary64 in the default mode (nearest, ties to even):
a result that rounds to magnitude `2 ^ 1024` or more becomes an infinity. -/
def round64 (q : ℚ) : F64 :=
  if (2 : ℚ) ^ (1024 : Int) ≤ roundQ q then .posInf
  else if roundQ q ≤ -(2 : ℚ) ^ (1024 : Int) then .negInf
  else .fin (roundQ q)

/-- An infinity of the sign of `q`; NaN for `q = 0`. -/
def F64.infOfSign (q : ℚ) : F64 :=
  if 0 < q then .posInf else if q < 0 then .negInf else .nan

/-- Negation `-a`. -/
def F64.neg : F64 → F64
  | .fin q => .fin (-q)
  | .posInf => .negInf
  | .negInf => .posInf
  | .nan => .nan

/-- The binary64 sum `a + b`. -/
def F64.add : F64 → F64 → F64
  | .fin a, .fin b => round64 (a + b)
  | .nan, _ => .nan
  | _, .nan => .nan
  | .posInf, .negInf => .nan
  | .negInf, .posInf => .nan
  | .posInf, _ => .posInf
  | _, .posInf => .posInf
  | .negInf, _ => .negInf
  | _, .negInf => .negInf

/-- The binary64 difference `a - b`. -/
def F64.sub : F64 → F64 → F64
  | .fin a, .fin b => round64 (a - b)
  | a, b => F64.add a (F64.neg b)

/-- The binary64 product `a * b`. -/
def F64.mul : F64 → F64 → F64
  | .fin a, .fin b => round64 (a * b)
  | .nan, _ => .nan
  | _, .nan => .nan
  | .fin a, .posInf => F64.infOfSign a
  | .fin a, .negInf => F64.infOfSign (-a)
  | .posInf, .fin b => F64.infOfSign b
  | .negInf, .fin b => F64.infOfSign (-b)
  | .posInf, .posInf => .posInf
  | .posInf, .negInf => .negInf
  | .negInf, .posInf => .negInf
  | .negInf, .negInf => .posInf

/-- The binary64 quotient `a / b`; a zero divisor counts as `+0`. -/
def F64.div : F64 → F64 → F64
  | .fin a, .fin b => if b = 0 then F64.infOfSign a else round64 (a / b)
  | .nan, _ => .nan
  | _, .nan => .nan
  | .fin _, _ => .fin 0
  | .posInf, .fin b => if 0 ≤ b then .posInf else .negInf
  | .negInf, .fin b => if 0 ≤ b then .negInf else .posInf
  | _, _ => .nan

/-- The comparison `a < b` of two `float64` values (false when either is NaN). -/
def F64.lt : F64 → F64 → Bool
  | .fin a, .fin b => decide (a < b)
  | .fin _, .posInf => true
  | .negInf, .fin _ => true
  | .negInf, .posInf => true
  | _, _ => false

/-- The comparison `a <= b` of two `float64` values (false when either is NaN). -/
def F64.le : F64 → F64 → Bool
  | .fin a, .fin b => decide (a ≤ b)
  | .nan, _ => false
  | _, .nan => false
  | .negInf, _ => true
  | _, .posInf => true
  | _, _ => false

/-- The conversion `float64(i)` of an integer. -/
def F64.ofInt (i : Int) : F64 := round64 (i : ℚ)

/-! ## Escape-time evaluator in binary64 -/

/-- The loop of `mandelIteration` in binary64. -/
def mandelLoop64 (cx cy : F64) (maxIter : Int) : Nat → Int → F64 → F64 → Option (F64 × Int)
  | 0, i, x, y =>
    if i < maxIter then none
    else some (F64.div (F64.add (F64.mul x x) (F64.mul y y)) (.fin 2), maxIter)
  | fuel + 1, i, x, y =>
    if i < maxIter then
      let xy := F64.mul x y
      let xx := F64.mul x x
      let yy := F64.mul y y
      if F64.lt (.fin 4) (F64.add xx yy) then some (F64.add xx yy, i)
      else mandelLoop64 cx cy maxIter fuel (i + 1) (F64.add (F64.sub xx yy) cx)
        (F64.add (F64.mul (.fin 2) xy) cy)
    else some (F64.div (F64.add (F64.mul x x) (F64.mul y y)) (.fin 2), maxIter)

def mandelIteration64 (cx cy : F64) (maxIter : Int) : Option (F64 × Int) :=
  mandelLoop64 cx cy maxIter maxIter.toNat 0 (.fin 0) (.fin 0)

/-- The orbit as the loop of `mandelIteration` computes it in binary64: `(x, y)` after `k`
updates `x = xx - yy + cx`, `y = 2*xy + cy`, every operation rounded. -/
def orbit64 (cx cy : F64) : Nat → F64 × F64
  | 0 => (.fin 0, .fin 0)
  | k + 1 =>
    (F64.add (F64.sub (F64.mul (orbit64 cx cy k).1 (orbit64 cx cy k).1)
        (F64.mul (orbit64 cx cy k).2 (orbit64 cx cy k).2)) cx,
      F64.add (F64.mul (.fin 2) (F64.mul (orbit64 cx cy k).1 (orbit64 cx cy k).2)) cy)

/-- The squared magnitude `xx + yy` as the loop computes it in binary64. -/
def normSq64 (z : F64 × F64) : F64 := F64.add (F64.mul z.1 z.1) (F64.mul z.2 z.2)

/-! ## Colourizer (body of the pixel loop of `Render`) -/

/-- Run-time failures of the embedded code. -/
inductive Fault where
  | nilDereference
  | indexOutOfRange
  | outOfFuel
  | badDimensions
  deriving DecidableEq, Repr

/-- Slice indexing `xs[i]` with a Go `int` index: a run-time panic outside `[0, len(xs))`. -/
def index {α : Type} (xs : List α) (i : Int) : Except Fault α :=
  if 0 ≤ i then
    match xs.get? i.toNat with
    | some x => .ok x
    | none => .error .indexOutOfRange
  else .error .indexOutOfRange

/-- Lines 112-124 of `Render`: from the evaluator's output `(norm, it)` to the colour
written at the pixel (`none`: the pixel is left untouched). -/
def colorize (env : FloatEnv) (colors : List RGBA) (maxIteration : Int) (norm : ℚ)
    (it : Int) : Except Fault (Option RGBA) :=
  let iteration := F64.addFin ((maxIteration - it : Int) : ℚ) (mathLog env norm)
  if toInt env (mathAbs iteration) < (colors.length : Int) - 1 then do
    let color1 ← index colors (toInt env (mathAbs iteration))
    let color2 ← index colors (toInt env (mathAbs iteration) + 1)
    let compiledColor :=
      linearInterpolation (rgbaToUint color1) (rgbaToUint color2) (toUint32 env iteration)
    pure (some (uint32ToRgba compiledColor))
  else pure none

/-! ## Renderer -/

/-- Reduction of an integer to Go's 64-bit `int` (two's complement wrap-around). -/
def int64 (x : Int) : Int := (x + 2 ^ 63) % 2 ^ 64 - 2 ^ 63

/-- The render configuration held by `Service` (the legacy file keeps the same values in
package-level variables `width`, `height`, `imageSmoothness`, `xpos`, `ypos`,
`escapeRadius`, `maxIteration`); the `WG` pointer is left out. -/
structure Service where
  ColorPalette : String
  ColorStep : ℚ
  XPos : ℚ
  YPos : ℚ
  Width : Int
  Height : Int
  ImageSmoothness : Int
  MaxIteration : Int
  EscapeRadius : ℚ
  OutputFile : String

/-- Lines 93-94 of `Render`: `s.Width *= s.ImageSmoothness; s.Height *= s.ImageSmoothness`. -/
def oversample (s : Service) : Service :=
  { s with Width := int64 (s.Width * s.ImageSmoothness),
           Height := int64 (s.Height * s.ImageSmoothness) }

/-- The viewport bounds of lines 95-97. -/
structure Bounds where
  xmin : ℚ
  xmax : ℚ
  ymin : ℚ
  ymax : ℚ

/-- Lines 95-97 of `Render`, on the oversampled configuration, in exact arithmetic
(`xmin64` and `xmax64` are line 96 in binary64). -/
def bounds (s : Service) : Bounds :=
  let ratio : ℚ := (s.Height : ℚ) / (s.Width : ℚ)
  { xmin := s.XPos - s.EscapeRadius / 2
    xmax := |s.XPos + s.EscapeRadius / 2|
    ymin := s.YPos - s.EscapeRadius * ratio / 2
    ymax := |s.YPos + s.EscapeRadius * ratio / 2| }

/-- The pixel-to-plane expression `lo + (hi-lo)*float64(i)/float64(n-1)` of lines 109-110,
in exact arithmetic and for `n >= 2` (`planeCoord64` is the expression in binary64, where
`n = 1` divides by `float64(0)`). -/
def planeCoord (lo hi : ℚ) (n i : Int) : ℚ :=
  lo + (hi - lo) * (i : ℚ) / ((n - 1 : Int) : ℚ)

/-- The lower bound `xmin` of line 96 in binary64: `s.XPos - s.EscapeRadius/2.0`. -/
def xmin64 (XPos EscapeRadius : F64) : F64 :=
  F64.sub XPos (F64.div EscapeRadius (.fin 2))

/-- The upper bound `xmax` of line 96 in binary64:
`math.Abs(s.XPos + s.EscapeRadius/2.0)`. -/
def xmax64 (XPos EscapeRadius : F64) : F64 :=
  mathAbs (F64.add XPos (F64.div EscapeRadius (.fin 2)))

/-- The pixel-to-plane expression `lo + (hi-lo)*float64(i)/float64(n-1)` of lines 109-110
in binary64. -/
def planeCoord64 (lo hi : F64) (n i : Int) : F64 :=
  F64.add lo (F64.div (F64.mul (F64.sub hi lo) (F64.ofInt i)) (F64.ofInt (n - 1)))

/-- Lines 109-110 of `Render`: the plane point of pixel `(ix, iy)`; both coordinates divide
by `s.Width - 1`. -/
def Render.point (s : Service) (b : Bounds) (ix iy : Int) : ℚ × ℚ :=
  (planeCoord b.xmin b.xmax s.Width ix, planeCoord b.ymin b.ymax s.Width iy)

/-- Lines 147-148 of the legacy `render`: the plane point of pixel `(ix, iy)`; the row
coordinate divides by `height - 1`. -/
def render.point (s : Service) (b : Bounds) (ix iy : Int) : ℚ × ℚ :=
  (planeCoord b.xmin b.xmax s.Width ix, planeCoord b.ymin b.ymax s.Height iy)

/-- Lines 111-124: the colour of the pixel mapped to the plane point `p` (transparent black,
the zero value of the buffer, when the pixel is left untouched). -/
def pixelColor (env : FloatEnv) (colors : List RGBA) (maxIteration : Int) (p : ℚ × ℚ) :
    Except Fault RGBA :=
  match mandelIteration p.1 p.2 maxIteration with
  | none => .error .outOfFuel
  | some (norm, it) =>
    match colorize env colors maxIteration norm it with
    | .error e => .error e
    | .ok none => .ok ⟨0, 0, 0, 0⟩
    | .ok (some c) => .ok c

/-- A loop over a list whose body can fail: the results in order, or the first failure. -/
def mapE {α β : Type} (f : α → Except Fault β) : List α → Except Fault (List β)
  | [] => .ok []
  | a :: rest =>
    match f a with
    | .error e => .error e
    | .ok b =>
      match mapE f rest with
      | .error e => .error e
      | .ok bs => .ok (b :: bs)

/-- The pixel buffer filled by the row loops (lines 103-127 for `Render`), rows in order;
`point` is the pixel-to-plane map. `image.NewRGBA` fails on a negative dimension. -/
def fillBuffer (env : FloatEnv) (s : Service) (point : Int → Int → ℚ × ℚ)
    (maxIteration : Int) (colors : List RGBA) : Except Fault (List (List RGBA)) :=
  if s.Width < 0 ∨ s.Height < 0 then .error .badDimensions
  else
    mapE (fun iy : Nat =>
      mapE (fun ix : Nat => pixelColor env colors maxIteration (point (ix : Int) (iy : Int)))
        (List.range s.Width.toNat))
      (List.range s.Height.toNat)

/-- Embedding of `Service.Render`: the configuration after the call and the pixel buffer
handed to the encoder. The row tasks are run in row order. -/
def Render (env : FloatEnv) (s : Service) (maxIteration : Int) (colors : List RGBA) :
    Except Fault (Service × List (List RGBA)) :=
  let s := oversample s
  let b := bounds s
  match fillBuffer env s (Render.point s b) maxIteration colors with
  | .error e => .error e
  | .ok rgbaImage => .ok (s, rgbaImage)

/-- Embedding of the legacy `render` of `mandelbrot.go`, its package-level variables taken
as a `Service`. -/
def render (env : FloatEnv) (s : Service) (maxIteration : Int) (colors : List RGBA) :
    Except Fault (Service × List (List RGBA)) :=
  let s := oversample s
  let b := bounds s
  match fillBuffer env s (render.point s b) maxIteration colors with
  | .error e => .error e
  | .ok image => .ok (s, image)

/-! ## Row tasks of `Render` -/

/-- A row task: the goroutine started at line 105 with argument `iy`; `ix` is the counter of
its column loop (line 108) and `finished` tells whether its deferred `WG.Done()` has run. -/
structure RowTask where
  iy : Nat
  ix : Nat
  finished : Bool
  deriving DecidableEq

/-- Where the body of `Render` stands: in the row loop of line 103 with counter `iy`, blocked
in `WG.Wait()` (line 129), or past it, passing the buffer on to the encoder (lines 132-136). -/
inductive Parent where
  | spawning (iy : Nat)
  | waiting
  | encoding
  deriving DecidableEq

/-- A write `rgbaImage.Set(x, y, _)` performed by the task started as number `task`. -/
structure WriteEvent where
  task : Nat
  x : Nat
  y : Nat
  deriving DecidableEq

/-- The state of a run of `Render` with its row tasks: the position of the parent, the counter
of the wait group, the tasks in the order in which they were started, and the writes to the
buffer so far. -/
structure RunState where
  parent : Parent
  wg : Int
  tasks : List RowTask
  writes : List WriteEvent
  deriving DecidableEq

/-- A choice of the scheduler: the parent or the task started as number `n` runs next. -/
inductive Move where
  | parent
  | task (n : Nat)
  deriving DecidableEq

/-- The state in which `Render` enters the row loop. -/
def RunState.initial : RunState := ⟨.spawning 0, 0, [], []⟩

/-- One step of the parent for a buffer of `H` rows: `s.WG.Add(1)` and `go func(iy)` for the
next row, leaving the row loop, or returning from `s.WG.Wait()` when the counter is zero
(a blocked parent leaves the state unchanged). -/
def stepParent (H : Nat) (s : RunState) : RunState :=
  match s.parent with
  | .spawning iy =>
    if iy < H then
      { s with parent := .spawning (iy + 1), wg := s.wg + 1, tasks := s.tasks ++ [⟨iy, 0, false⟩] }
    else { s with parent := .waiting }
  | .waiting => if s.wg = 0 then { s with parent := .encoding } else s
  | .encoding => s

/-- One step of the task started as number `n`, for a buffer of `W` columns: one round of its
column loop, writing the cell `(ix, iy)` when the guard of line 114 holds (`sets ix iy`), or,
after the loop, the deferred `s.WG.Done()`. -/
def stepTask (W : Nat) (sets : Nat → Nat → Bool) (n : Nat) (s : RunState) : RunState :=
  match s.tasks[n]? with
  | none => s
  | some t =>
    if t.finished then s
    else if t.ix < W then
      { s with tasks := s.tasks.set n { t with ix := t.ix + 1 },
               writes := if sets t.ix t.iy then s.writes ++ [⟨n, t.ix, t.iy⟩] else s.writes }
    else { s with tasks := s.tasks.set n { t with finished := true }, wg := s.wg - 1 }

/-- One step of the run under the scheduler's choice. -/
def step (W H : Nat) (sets : Nat → Nat → Bool) (s : RunState) : Move → RunState
  | .parent => stepParent H s
  | .task n => stepTask W sets n s

/-- The state reached from the initial one under a schedule. -/
def run (W H : Nat) (sets : Nat → Nat → Bool) (schedule : List Move) : RunState :=
  schedule.foldl (step W H sets) RunState.initial

/-- What the position of the parent says about the tasks started so far. -/
def parentOk (H : Nat) (s : RunState) : Prop :=
  match s.parent with
  | .spawning iy => s.tasks.length = iy ∧ iy ≤ H
  | .waiting => s.tasks.length = H
  | .encoding => s.tasks.length = H ∧ s.wg = 0

/-- The invariant of a run: the task started as number `n` works on row `n`; the counter of
the wait group is the number of unfinished tasks; the parent has started the rows below its
counter; every write was made by the task of its row. -/
structure RunInvariant (W H : Nat) (s : RunState) : Prop where
  rows : ∀ (n : Nat) (t : RowTask), s.tasks[n]? = some t →
    t.iy = n ∧ t.ix ≤ W ∧ (t.finished = true → t.ix = W)
  count : s.wg = ((s.tasks.countP (fun t => !t.finished) : Nat) : Int)
  parent : parentOk H s
  writes : ∀ e ∈ s.writes, e.y = e.task ∧ e.task < s.tasks.length ∧ e.x < W

/-! ## Gradient expansion -/

/-- A colour stop of the palette registry (package `palette`): a colour and its position. -/
structure ColorStop where
  Color : RGBA
  Step : ℚ

/-- An entry of the palette registry `palette.ColorPalettes`. -/
structure Palette where
  Keyword : String
  Colors : List ColorStop

/-- Embedding of `cosineInterpolation`. -/
def cosineInterpolation (env : FloatEnv) (c1 c2 mu : ℚ) : ℚ :=
  let mu2 := (1 - env.Cos (mu * env.Pi)) / 2
  c1 * (1 - mu2) + c2 * mu2

/-- The slices that `InterpolateColors` declares before the loop over the registry. -/
structure Slices where
  steps : List ℚ
  cols : List Nat
  interpolated : List Nat
  interpolatedColors : List RGBA

/-- Lines 39-54: one round of the loop over the stops of the matching palette. -/
def stopStep (env : FloatEnv) (len : Nat) (st : Slices) (index : Nat) (col : ColorStop) :
    Slices :=
  let steps :=
    if col.Step = 0 ∧ index ≠ 0 then
      let stepRatio : ℚ := ((index + 1 : Nat) : ℚ) / (len : ℚ)
      let step : ℚ := ((toInt env (.fin (stepRatio * 100)) : Int) : ℚ) / 100
      st.steps ++ [step]
    else st.steps ++ [col.Step]
  let r := col.Color.RGBA.1
  let g := col.Color.RGBA.2.1
  let b := col.Color.RGBA.2.2.1
  let a := col.Color.RGBA.2.2.2
  let r := r / 0xff
  let g := g / 0xff
  let b := b / 0xff
  let a := a / 0xff
  let uintColor := u32 (r <<< 24) ||| u32 (g <<< 16) ||| u32 (b <<< 8) ||| a
  { st with steps := steps, cols := st.cols ++ [uintColor] }

/-- The loop `for index, col := range v.Colors`, from index `index` on. -/
def stopLoop (env : FloatEnv) (len : Nat) : List ColorStop → Nat → Slices → Slices
  | [], _, st => st
  | col :: rest, index, st => stopLoop env len rest (index + 1) (stopStep env len st index col)

/-- Lines 60-71: one round of the loop over the brackets `j`, at progress value `i`. -/
def bracketStep (env : FloatEnv) (steps : List ℚ) (cols : List Nat) (i : ℚ)
    (interpolated : List Nat) (j : Nat) : Except Fault (List Nat) := do
  let sj ← index steps (j : Int)
  if i ≥ sj then
    let sj1 ← index steps ((j : Int) + 1)
    if i < sj1 then
      let min := sj
      let max := sj1
      let cj ← index cols (j : Int)
      let cj1 ← index cols ((j : Int) + 1)
      let minColor : ℚ := (cj : ℚ)
      let maxColor : ℚ := (cj1 : ℚ)
      let uintColor := cosineInterpolation env maxColor minColor ((i - min) / (max - min))
      pure (interpolated ++ [toUint32 env (.fin uintColor)])
    else pure interpolated
  else pure interpolated

/-- The loop `for i := 0.0; i <= 1; i += factor` of lines 58-73, from progress value `i` on;
`fuel` bounds the number of rounds. The inner loop runs `j` over `0 .. len - 2`. After a
round with a non-finite `factor` the counter is `+Inf` or NaN and the loop ends, or it is
`-Inf` and the loop never ends. -/
def sampleLoop (env : FloatEnv) (steps : List ℚ) (cols : List Nat) (len : Nat) (factor : F64) :
    Nat → ℚ → List Nat → Except Fault (List Nat)
  | 0, i, interpolated => if i ≤ 1 then .error .outOfFuel else .ok interpolated
  | fuel + 1, i, interpolated =>
    if i ≤ 1 then do
      let interpolated ← (List.range (len - 1)).foldlM (bracketStep env steps cols i) interpolated
      match factor with
      | .fin f => sampleLoop env steps cols len factor fuel (i + f) interpolated
      | .posInf => .ok interpolated
      | .nan => .ok interpolated
      | .negInf => .error .outOfFuel
    else .ok interpolated

/-- One round of the loop over the registry (lines 34-87). The quotient
`1.0 / numberOfColors` is `+Inf` for `numberOfColors = 0`. -/
def paletteStep (env : FloatEnv) (fuel : Nat) (paletteCode : Option String)
    (numberOfColors : ℚ) (st : Slices) (v : Palette) : Except Fault Slices :=
  let factor : F64 := if numberOfColors = 0 then .posInf else .fin (1 / numberOfColors)
  match paletteCode with
  | none => .error .nilDereference
  | some code =>
    if v.Keyword ≠ code then pure st
    else do
      let st := stopLoop env v.Colors.length v.Colors 0 st
      let interpolated ←
        if v.Colors.length = st.steps.length ∧ v.Colors.length = st.cols.length then
          sampleLoop env st.steps st.cols v.Colors.length factor fuel 0 st.interpolated
        else pure st.interpolated
      let interpolatedColors := st.interpolatedColors ++ interpolated.map fun pixelValue =>
        let r := (pixelValue >>> 24) &&& 0xff
        let g := (pixelValue >>> 16) &&& 0xff
        let b := (pixelValue >>> 8) &&& 0xff
        let a := 0xff
        ({ R := Fin.ofNat r, G := Fin.ofNat g, B := Fin.ofNat b, A := Fin.ofNat a } : RGBA)
      pure { st with interpolated := interpolated, interpolatedColors := interpolatedColors }

/-- Embedding of `Service.InterpolateColors` over the registry `ColorPalettes`; `paletteCode`
is the `*string` argument (`none`: the nil pointer), `fuel` bounds each run of the
sampling loop. -/
def InterpolateColors (env : FloatEnv) (fuel : Nat) (ColorPalettes : List Palette)
    (paletteCode : Option String) (numberOfColors : ℚ) : Except Fault (List RGBA) := do
  let st ← ColorPalettes.foldlM (paletteStep env fuel paletteCode numberOfColors)
    { steps := [], cols := [], interpolated := [], interpolatedColors := [] }
  pure st.interpolatedColors

/-! ## Gradient expansion in binary64 -/

/-- What the binary64 embedding of the gradient expansion takes from outside the
repository: the function `math.Cos` and the result of the conversion `uint32(f)` for a
float `f` that `uint32` cannot represent. -/
structure MathLib where
  Cos : F64 → F64
  uint32Of : F64 → Nat

/-- The untyped constant `math.Pi` of Go's `math`. -/
def mathPiLiteral : ℚ :=
  314159265358979323846264338327950288419716939937510582097494459 / 10 ^ 62

/-- The constant `math.Pi` where it is used as a `float64`. -/
def mathPi : F64 := round64 mathPiLiteral

/-- The conversion `uint32(f)` of a `float64`. -/
def MathLib.toUint32 (lib : MathLib) : F64 → Nat
  | .fin q => if 0 ≤ trunc q ∧ trunc q < 2 ^ 32 then (trunc q).toNat else u32 (lib.uint32Of (.fin q))
  | f => u32 (lib.uint32Of f)

/-- Embedding of `cosineInterpolation` in binary64. -/
def cosineInterpolation64 (lib : MathLib) (c1 c2 mu : F64) : F64 :=
  let mu2 := F64.div (F64.sub (.fin 1) (lib.Cos (F64.mul mu mathPi))) (.fin 2)
  F64.add (F64.mul c1 (F64.sub (.fin 1) mu2)) (F64.mul c2 mu2)

/-- Lines 60-71 in binary64: one round of the loop over the brackets `j`, at progress
value `i`. -/
def bracketStep64 (lib : MathLib) (steps : List F64) (cols : List Nat) (i : F64)
    (interpolated : List Nat) (j : Nat) : Except Fault (List Nat) := do
  let sj ← index steps (j : Int)
  if F64.le sj i then
    let sj1 ← index steps ((j : Int) + 1)
    if F64.lt i sj1 then
      let min := sj
      let max := sj1
      let cj ← index cols (j : Int)
      let cj1 ← index cols ((j : Int) + 1)
      let minColor := F64.ofInt (cj : Int)
      let maxColor := F64.ofInt (cj1 : Int)
      let uintColor :=
        cosineInterpolation64 lib maxColor minColor (F64.div (F64.sub i min) (F64.sub max min))
      pure (interpolated ++ [lib.toUint32 uintColor])
    else pure interpolated
  else pure interpolated

/-- The loop counter `i` of line 58 at the start of round `k` (rounds counted from 0): `k`
additions of `factor` to `0.0`. -/
def progress64 (factor : F64) : Nat → F64
  | 0 => .fin 0
  | k + 1 => F64.add (progress64 factor k) factor

/-! ### The cosine of Go's `math` package

`math.Cos` is not part of the repository. On amd64 it is the function `cos` of `sin.go` in
Go's standard library, a port of the Cephes routine: the argument is reduced by multiples of
`Pi/4` and a polynomial of degree 6 in `z*z` is evaluated, every operation in binary64. -/

/-- The constant `PI4A = 7.85398125648498535156e-1` of `sin.go`. -/
def PI4A : F64 := round64 (785398125648498535156 / 10 ^ 21)

/-- The constant `PI4B = 3.77489470793079817668e-8` of `sin.go`. -/
def PI4B : F64 := round64 (377489470793079817668 / 10 ^ 28)

/-- The constant `PI4C = 2.69515142907905952645e-15` of `sin.go`. -/
def PI4C : F64 := round64 (269515142907905952645 / 10 ^ 35)

/-- The evaluation `(((((c0*zz)+c1)*zz+c2)*zz+c3)*zz+c4)*zz+c5` of the polynomials of
`sin.go`, the coefficients given as decimal literals. -/
def poly6 (c0 c1 c2 c3 c4 c5 : ℚ) (zz : F64) : F64 :=
  F64.add (F64.mul (F64.add (F64.mul (F64.add (F64.mul (F64.add (F64.mul (F64.add
    (F64.mul (round64 c0) zz) (round64 c1)) zz) (round64 c2)) zz) (round64 c3)) zz)
    (round64 c4)) zz) (round64 c5)

/-- The polynomial with the coefficients `_sin` of `sin.go`. -/
def sinPoly (zz : F64) : F64 :=
  poly6 (158962301576546568060 / 10 ^ 30) (-250507477628578072866 / 10 ^ 28)
    (275573136213857245213 / 10 ^ 26) (-198412698295895385996 / 10 ^ 24)
    (833333333332211858878 / 10 ^ 23) (-166666666666666307295 / 10 ^ 21) zz

/-- The polynomial with the coefficients `_cos` of `sin.go`. -/
def cosPoly (zz : F64) : F64 :=
  poly6 (-113585365213876817300 / 10 ^ 31) (208757008419747316778 / 10 ^ 29)
    (-275573141792967388112 / 10 ^ 27) (248015872888517045348 / 10 ^ 25)
    (-138888888888730564116 / 10 ^ 23) (416666666666665929218 / 10 ^ 22) zz

/-- Go's `math.Cos` on a finite argument below the threshold `1 << 29`, above which Go
reduces the argument by another algorithm (`trigReduce`); that branch is not embedded and
the definition answers NaN there. `j` is the octant `uint64(x * (4 / Pi))`, `z` the reduced
argument. -/
def mathCos : F64 → F64
  | .fin x0 =>
    if |x0| < 2 ^ 29 then
      let x : F64 := .fin |x0|
      let j : Int :=
        match F64.mul x (round64 (4 / mathPiLiteral)) with
        | .fin q => trunc q
        | _ => 0
      let y : F64 := F64.ofInt j
      let odd : Bool := decide (j % 2 = 1)
      let j : Int := if odd then j + 1 else j
      let y : F64 := if odd then F64.add y (.fin 1) else y
      let j : Int := j % 8
      let z := F64.sub (F64.sub (F64.sub x (F64.mul y PI4A)) (F64.mul y PI4B)) (F64.mul y PI4C)
      let sign : Bool := decide (j > 3)
      let j : Int := if j > 3 then j - 4 else j
      let sign : Bool := if j > 1 then !sign else sign
      let zz := F64.mul z z
      let y :=
        if j = 1 ∨ j = 2 then F64.add z (F64.mul (F64.mul z zz) (sinPoly zz))
        else
          F64.add (F64.sub (.fin 1) (F64.mul (.fin (1 / 2)) zz))
            (F64.mul (F64.mul zz zz) (cosPoly zz))
      if sign then F64.neg y else y
    else .nan
  | _ => .nan

/-- The library of Go on amd64: `math.Cos` as above; `uint32(f)` of a float outside the
range of `uint32` keeps the low 32 bits of the 64-bit conversion. -/
def goLib : MathLib :=
  ⟨mathCos, fun f => match f with
    | .fin q => if -2 ^ 63 ≤ trunc q ∧ trunc q < 2 ^ 63 then (trunc q % 2 ^ 32).toNat else 0
    | _ => 0⟩

/-! ## Effective stop positions -/

/-- The derived position of the stop at `index` of a palette of `total` stops:
`floor((index+1)/total * 100) / 100`. -/
def derivedPosition (total index : Nat) : ℚ :=
  ((⌊((index + 1 : Nat) : ℚ) / (total : ℚ) * 100⌋ : Int) : ℚ) / 100

/-- The effective position of the stop at `index` of a palette of `total` stops, in the
words of the specification: the stored position, or `floor((index+1)/total * 100) / 100`
for an unset (zero) stop that is not the first. -/
def effectivePosition (total index : Nat) (stored : ℚ) : ℚ :=
  if stored = 0 ∧ index ≠ 0 then derivedPosition total index else stored

/-- The effective positions of the stops `colors`, numbered from `index` on, of a palette of
`total` stops. -/
def effectiveFrom (total : Nat) : Nat → List ColorStop → List ℚ
  | _, [] => []
  | index, col :: rest =>
    effectivePosition total index col.Step :: effectiveFrom total (index + 1) rest

/-- The positions that `InterpolateColors` computes for the stops `colors` of a matching
palette: the slice `steps` after the loop of lines 39-54, started on empty slices. -/
def effectivePositions (env : FloatEnv) (colors : List ColorStop) : List ℚ :=
  (stopLoop env colors.length colors 0 ⟨[], [], [], []⟩).steps

/-- The packed colours that `InterpolateColors` computes for the stops `colors`: the slice
`cols` after the loop of lines 39-54, started on empty slices. -/
def packedColors (env : FloatEnv) (colors : List ColorStop) : List Nat :=
  (stopLoop env colors.length colors 0 ⟨[], [], [], []⟩).cols

/-! ## Effective stop positions in binary64 -/

/-- Lines 41-42 in binary64: the position derived for an unset stop at `index` of a palette
of `len` stops, `float64(int(float64(index+1)/float64(len)*100))/100`. -/
def derivedStep64 (env : FloatEnv) (len index : Nat) : F64 :=
  let stepRatio := F64.div (F64.ofInt ((index + 1 : Nat) : Int)) (F64.ofInt (len : Int))
  F64.div (F64.ofInt (toInt env (F64.mul stepRatio (.fin 100)))) (.fin 100)

/-- Lines 40-46 in binary64: the positions appended to `steps` for the stops `colors`,
numbered from `index` on, of a palette of `len` stops. -/
def stepsFrom64 (env : FloatEnv) (len : Nat) : Nat → List ColorStop → List F64
  | _, [] => []
  | index, col :: rest =>
    (if col.Step = 0 ∧ index ≠ 0 then derivedStep64 env len index else .fin col.Step) ::
      stepsFrom64 env len (index + 1) rest

/-- The positions that `InterpolateColors` computes in binary64 for the stops `colors` of a
matching palette: the slice `steps` after the loop of lines 39-54. -/
def effectivePositions64 (env : FloatEnv) (colors : List ColorStop) : List F64 :=
  stepsFrom64 env colors.length 0 colors

/-- The rational value of `derivedStep64` for a stop inside the palette. -/
def derivedValue64 (len index : Nat) : ℚ :=
  roundQ (((trunc (roundQ (roundQ (roundQ ((index + 1 : Nat) : ℚ) / roundQ (len : ℚ)) * 100)) :
    Int) : ℚ) / 100)

/-- The effective positions of the stops `colors`, numbered from `index` on, for a rule
`derived` that gives the position of an unset stop from its index. -/
def effectiveWith (derived : Nat → ℚ) : Nat → List ColorStop → List ℚ
  | _, [] => []
  | index, col :: rest =>
    (if col.Step = 0 ∧ index ≠ 0 then derived index else col.Step) ::
      effectiveWith derived (index + 1) rest

/-! ## Samples of the gradient -/

/-- Whether the progress value `p` matches bracket `j` of the positions `steps`: the test
`i >= steps[j] && i < steps[j+1]` of line 60. -/
def inBracket (steps : List ℚ) (p : ℚ) (j : Nat) : Bool :=
  decide (steps.getD j 0 ≤ p ∧ p < steps.getD (j + 1) 0)

/-- The sample that bracket `j` yields at the progress value `p` (lines 61-70). -/
def sampleAt (env : FloatEnv) (steps : List ℚ) (cols : List Nat) (p : ℚ) (j : Nat) : Nat :=
  toUint32 env (.fin (cosineInterpolation env ((cols.getD (j + 1) 0 : Nat) : ℚ)
    ((cols.getD j 0 : Nat) : ℚ)
    ((p - steps.getD j 0) / (steps.getD (j + 1) 0 - steps.getD j 0))))

/-- The samples of one progress value `p`: one for every matching bracket among the first
`m`, in bracket order. -/
def roundSamples (env : FloatEnv) (steps : List ℚ) (cols : List Nat) (m : Nat) (p : ℚ) :
    List Nat :=
  ((List.range m).filter (inBracket steps p)).map (sampleAt env steps cols p)

/-- The samples of the `r` progress values `k/N, (k+1)/N, ...`, in that order. -/
def gradientSamples (env : FloatEnv) (steps : List ℚ) (cols : List Nat) (m : Nat) (N : ℚ) :
    Nat → Nat → List Nat
  | _, 0 => []
  | k, r + 1 =>
    roundSamples env steps cols m ((k : ℚ) / N) ++ gradientSamples env steps cols m N (k + 1) r

/-- The first bracket that the progress value `p` matches (0 when there is none). -/
def bracketIndex (steps : List ℚ) (p : ℚ) : Nat :=
  ((List.range (steps.length - 1)).filter (inBracket steps p)).headD 0

/-! ## Concrete inputs -/

/-- A two-stop palette: opaque black at position 0, opaque white at position 1. -/
def blackWhite : Palette :=
  ⟨"BlackWhite", [⟨⟨0, 0, 0, 255⟩, 0⟩, ⟨⟨255, 255, 255, 255⟩, 1⟩]⟩

/-- Four stops with stored positions `0, 0.9, 0, 0`: the second is set, the others unset. -/
def setThenUnset : List ColorStop :=
  [⟨⟨0, 0, 0, 255⟩, 0⟩, ⟨⟨255, 0, 0, 255⟩, 9 / 10⟩, ⟨⟨0, 255, 0, 255⟩, 0⟩,
    ⟨⟨255, 255, 255, 255⟩, 0⟩]

/-- Two stops whose first stored position is `0.5`. -/
def firstSet : List ColorStop :=
  [⟨⟨0, 0, 0, 255⟩, 1 / 2⟩, ⟨⟨255, 255, 255, 255⟩, 1⟩]

/-- Three stops with the stored positions `0, 0.1, 1` (`0.1` as the `float64` nearest to
it): all but the first are set, and they increase. -/
def explicitStops : List ColorStop :=
  [⟨⟨0, 0, 0, 255⟩, 0⟩, ⟨⟨255, 0, 0, 255⟩, 3602879701896397 / 36028797018963968⟩,
    ⟨⟨255, 255, 255, 255⟩, 1⟩]

/-- Three stops, all unset. -/
def threeUnset : List ColorStop :=
  [⟨⟨0, 0, 0, 255⟩, 0⟩, ⟨⟨255, 0, 0, 255⟩, 0⟩, ⟨⟨255, 255, 255, 255⟩, 0⟩]

/-- A small configuration away from the set: a 1 x 1 image with oversampling factor 2,
centred at `(10, 0)` with radius 1 and cap 1 (`-width 1 -height 1 -smoothness 2 -xpos 10
-ypos 0 -radius 1 -iteration 1 -step 1`). -/
def farConfig : Service :=
  ⟨"BlackWhite", 1, 10, 0, 1, 1, 2, 1, 1, "mandelbrot.png"⟩

/-- The default configuration of the command line. -/
def defaultConfig : Service :=
  ⟨"Hippi", 6000, -275 / 100000, 78912 / 100000, 1024, 768, 8, 800, 125689 / 1000000,
    "mandelbrot.png"⟩

/-- A gradient of one colour. -/
def oneColor : List RGBA := [⟨0, 0, 0, 255⟩]

/-- A computable environment for evaluating the definitions on concrete inputs: rational
stand-ins for `math.Cos` and `math.Log`, and the conversions of amd64 (`int(f)` of a
non-representable float is `-2 ^ 63`; `uint32(f)` keeps the low 32 bits of `int64(f)`). -/
def roughEnv : FloatEnv :=
  ⟨fun x => 1 - x * x / 2, fun x => x - 1, 22 / 7, fun _ => -2 ^ 63,
    fun f => match f with
      | .fin q => if -2 ^ 63 ≤ trunc q ∧ trunc q < 2 ^ 63 then (trunc q % 2 ^ 32).toNat else 0
      | _ => 0⟩

end Gobrot

namespace Gobrot

/-! ## Binary64 rounding -/

theorem log2Fuel_eq (fuel n : Nat) (h : n ≤ fuel) : log2Fuel fuel n = Nat.log 2 n := by
  induction fuel generalizing n with
  | zero =>
    have : n = 0 := by omega
    subst this
    simp [log2Fuel]
  | succ f ih =>
    unfold log2Fuel
    by_cases h2 : n < 2
    · rw [if_pos h2, Nat.log_of_lt h2]
    · rw [if_neg h2, ih (n / 2) (by omega)]
      exact (Nat.log_of_one_lt_of_le (by norm_num) (by omega)).symm

theorem log2Fuel_spec (n : Nat) (hn : n ≠ 0) :
    2 ^ log2Fuel n n ≤ n ∧ n < 2 ^ (log2Fuel n n + 1) := by
  rw [log2Fuel_eq n n le_rfl]
  exact ⟨Nat.pow_log_le_self 2 hn, Nat.lt_pow_succ_log_self (by norm_num) n⟩

theorem ilog2_spec (q : ℚ) (hq : q ≠ 0) :
    (2 : ℚ) ^ ilog2 q ≤ |q| ∧ |q| < (2 : ℚ) ^ (ilog2 q + 1) := by
  have hn : q.num.natAbs ≠ 0 := by
    simpa using hq
  obtain ⟨ha1, ha2⟩ := log2Fuel_spec q.num.natAbs hn
  obtain ⟨hb1, hb2⟩ := log2Fuel_spec q.den q.den_nz
  set a := log2Fuel q.num.natAbs q.num.natAbs
  set b := log2Fuel q.den q.den
  have habs : |q| = (q.num.natAbs : ℚ) / (q.den : ℚ) := by
    have h1 : |q| = |(q.num : ℚ)| / (q.den : ℚ) := by
      conv_lhs => rw [← Rat.num_div_den q]
      rw [abs_div, Nat.abs_cast]
    rw [h1, Nat.cast_natAbs, Int.cast_abs]
  have hd : (0 : ℚ) < (q.den : ℚ) := by exact_mod_cast q.den_pos
  have ha1q : (2 : ℚ) ^ a ≤ (q.num.natAbs : ℚ) := by exact_mod_cast ha1
  have ha2q : (q.num.natAbs : ℚ) < (2 : ℚ) ^ (a + 1) := by exact_mod_cast ha2
  have hb1q : (2 : ℚ) ^ b ≤ (q.den : ℚ) := by exact_mod_cast hb1
  have hb2q : (q.den : ℚ) < (2 : ℚ) ^ (b + 1) := by exact_mod_cast hb2
  have h2 : (0 : ℚ) < 2 := by norm_num
  have hz : ∀ k : Int, (0 : ℚ) < (2 : ℚ) ^ k := fun k => zpow_pos h2 k
  have e1 : (2 : ℚ) ^ ((a : Int) - (b : Int) + 1) = (2 : ℚ) ^ (a + 1) / (2 : ℚ) ^ b := by
    rw [show (a : Int) - (b : Int) + 1 = ((a + 1 : Nat) : Int) - ((b : Nat) : Int) by push_cast; ring,
      zpow_sub₀ (by norm_num), zpow_natCast, zpow_natCast]
  have e2 : (2 : ℚ) ^ ((a : Int) - (b : Int) - 1) = (2 : ℚ) ^ a / (2 : ℚ) ^ (b + 1) := by
    rw [show (a : Int) - (b : Int) - 1 = ((a : Nat) : Int) - ((b + 1 : Nat) : Int) by push_cast; ring,
      zpow_sub₀ (by norm_num), zpow_natCast, zpow_natCast]
  unfold ilog2
  split_ifs with h
  · refine ⟨h, ?_⟩
    rw [e1, habs]
    calc (q.num.natAbs : ℚ) / (q.den : ℚ) < (2 : ℚ) ^ (a + 1) / (q.den : ℚ) :=
          div_lt_div_of_pos_right ha2q hd
      _ ≤ (2 : ℚ) ^ (a + 1) / (2 : ℚ) ^ b :=
          div_le_div_of_nonneg_left (by positivity) (by positivity) hb1q
  · refine ⟨?_, ?_⟩
    · rw [e2, habs]
      calc (2 : ℚ) ^ a / (2 : ℚ) ^ (b + 1) ≤ (2 : ℚ) ^ a / (q.den : ℚ) :=
            div_le_div_of_nonneg_left (by positivity) hd hb2q.le
        _ ≤ (q.num.natAbs : ℚ) / (q.den : ℚ) := div_le_div_of_nonneg_right ha1q hd.le
    · rw [sub_add_cancel]
      exact not_le.mp h

theorem ilog2_neg (q : ℚ) : ilog2 (-q) = ilog2 q := by
  simp [ilog2]

theorem ilog2_le_of_lt (q : ℚ) (hq : q ≠ 0) (k : Int) (h : |q| < (2 : ℚ) ^ (k + 1)) :
    ilog2 q ≤ k := by
  have h1 := (ilog2_spec q hq).1
  have h2 : (2 : ℚ) ^ ilog2 q < (2 : ℚ) ^ (k + 1) := lt_of_le_of_lt h1 h
  have := (zpow_lt_zpow_iff_right₀ (by norm_num : (1 : ℚ) < 2)).mp h2
  omega

theorem le_ilog2_of_le (q : ℚ) (hq : q ≠ 0) (k : Int) (h : (2 : ℚ) ^ k ≤ |q|) :
    k ≤ ilog2 q := by
  have h1 := (ilog2_spec q hq).2
  have h2 : (2 : ℚ) ^ k < (2 : ℚ) ^ (ilog2 q + 1) := lt_of_le_of_lt h h1
  have := (zpow_lt_zpow_iff_right₀ (by norm_num : (1 : ℚ) < 2)).mp h2
  omega

theorem ilog2_mono (a b : ℚ) (ha : a ≠ 0) (hab : |a| ≤ |b|) : ilog2 a ≤ ilog2 b := by
  have hb : b ≠ 0 := by
    intro h
    rw [h, abs_zero] at hab
    exact ha (abs_eq_zero.mp (le_antisymm hab (abs_nonneg a)))
  exact le_ilog2_of_le b hb _ (le_trans (ilog2_spec a ha).1 hab)

/-! ### Rounding to the nearest integer -/

theorem roundHalfEven_floor_le (x : ℚ) : ⌊x⌋ ≤ roundHalfEven x := by
  unfold roundHalfEven
  split_ifs <;> omega

theorem roundHalfEven_le_floor_succ (x : ℚ) : roundHalfEven x ≤ ⌊x⌋ + 1 := by
  unfold roundHalfEven
  split_ifs <;> omega

theorem roundHalfEven_intCast (n : Int) : roundHalfEven (n : ℚ) = n := by
  unfold roundHalfEven
  simp

theorem roundHalfEven_mono (x y : ℚ) (h : x ≤ y) : roundHalfEven x ≤ roundHalfEven y := by
  have hf : ⌊x⌋ ≤ ⌊y⌋ := Int.floor_le_floor h
  rcases hf.lt_or_eq with hlt | heq
  · calc roundHalfEven x ≤ ⌊x⌋ + 1 := roundHalfEven_le_floor_succ x
      _ ≤ ⌊y⌋ := hlt
      _ ≤ roundHalfEven y := roundHalfEven_floor_le y
  · have hfr : x - ⌊x⌋ ≤ y - ⌊y⌋ := by rw [heq]; linarith
    unfold roundHalfEven
    rw [heq]
    split_ifs <;> first | omega | linarith

theorem roundHalfEven_abs_sub_le (x : ℚ) : |(roundHalfEven x : ℚ) - x| ≤ 1 / 2 := by
  have h1 := Int.floor_le x
  have h2 := Int.lt_floor_add_one x
  unfold roundHalfEven
  rw [abs_le]
  split_ifs <;> push_cast <;> constructor <;> linarith

theorem roundHalfEven_neg (x : ℚ) : roundHalfEven (-x) = -roundHalfEven x := by
  by_cases hx : (⌊x⌋ : ℚ) = x
  · rw [← hx, ← Int.cast_neg, roundHalfEven_intCast, roundHalfEven_intCast]
  · have h1 := Int.floor_le x
    have h2 := Int.lt_floor_add_one x
    have h1lt : (⌊x⌋ : ℚ) < x := lt_of_le_of_ne h1 hx
    have hfl : ⌊-x⌋ = -⌊x⌋ - 1 := by
      rw [Int.floor_eq_iff]
      push_cast
      constructor <;> linarith
    unfold roundHalfEven
    rw [hfl]
    push_cast
    split_ifs <;> first | omega | linarith

theorem roundHalfEven_nonneg (x : ℚ) (h : 0 ≤ x) : 0 ≤ roundHalfEven x := by
  have := roundHalfEven_mono 0 x h
  rwa [show (0 : ℚ) = ((0 : Int) : ℚ) by simp, roundHalfEven_intCast] at this

/-! ### Rounding to binary64 -/

theorem two_zpow_pos (k : Int) : (0 : ℚ) < (2 : ℚ) ^ k := zpow_pos (by norm_num) k

theorem quantum_neg (q : ℚ) : quantum (-q) = quantum q := by
  simp [quantum, ilog2_neg]

theorem roundQ_neg (q : ℚ) : roundQ (-q) = -roundQ q := by
  simp [roundQ, quantum_neg, neg_div, roundHalfEven_neg]

theorem roundQ_zero : roundQ 0 = 0 := by
  simp [roundQ, roundHalfEven]

theorem roundQ_nonneg (q : ℚ) (h : 0 ≤ q) : 0 ≤ roundQ q := by
  unfold roundQ
  have := roundHalfEven_nonneg (q / 2 ^ quantum q) (div_nonneg h (two_zpow_pos _).le)
  have h2 : (0 : ℚ) ≤ (roundHalfEven (q / 2 ^ quantum q) : ℚ) := by exact_mod_cast this
  exact mul_nonneg h2 (two_zpow_pos _).le

theorem quantum_ge (q : ℚ) : -1074 ≤ quantum q := by
  unfold quantum
  have := le_max_right (ilog2 q) (-1022)
  omega

theorem roundQ_mono_pos (a b : ℚ) (ha : 0 < a) (hab : a ≤ b) : roundQ a ≤ roundQ b := by
  have hb : 0 < b := lt_of_lt_of_le ha hab
  have hE : ilog2 a ≤ ilog2 b := ilog2_mono a b ha.ne' (by rwa [abs_of_pos ha, abs_of_pos hb])
  have he : quantum a ≤ quantum b := by
    unfold quantum
    have := max_le_max hE (le_refl (-1022 : Int))
    omega
  rcases he.lt_or_eq with hlt | heq
  · -- the two values lie in different binades
    have hEb : -1022 < ilog2 b ∧ quantum b = ilog2 b - 52 ∧ ilog2 a < ilog2 b := by
      unfold quantum at hlt ⊢
      rcases le_total (ilog2 b) (-1022) with h | h
      · rw [max_eq_right h] at hlt
        have := le_max_right (ilog2 a) (-1022)
        omega
      · rw [max_eq_left h] at hlt ⊢
        have h1 := le_max_right (ilog2 a) (-1022)
        have h2 := le_max_left (ilog2 a) (-1022)
        refine ⟨by omega, rfl, by omega⟩
    obtain ⟨_, hqb, hlt2⟩ := hEb
    have hqa : quantum a ≤ ilog2 b := by omega
    -- both sides compare with `2 ^ ilog2 b`
    have hmid1 : roundQ a ≤ (2 : ℚ) ^ ilog2 b := by
      have h1 : a ≤ (2 : ℚ) ^ ilog2 b := by
        have := (ilog2_spec a ha.ne').2
        rw [abs_of_pos ha] at this
        exact le_trans this.le (zpow_le_zpow_right₀ (by norm_num) (by omega))
      have h2 : a / 2 ^ quantum a ≤ (((2 : Int) ^ (ilog2 b - quantum a).toNat : Int) : ℚ) := by
        rw [div_le_iff₀ (two_zpow_pos _)]
        push_cast
        rw [← zpow_natCast, Int.toNat_of_nonneg (by omega), ← zpow_add₀ (by norm_num)]
        simpa using h1
      have h3 := roundHalfEven_mono _ _ h2
      rw [roundHalfEven_intCast] at h3
      have h4 : (roundHalfEven (a / 2 ^ quantum a) : ℚ) ≤
          (((2 : Int) ^ (ilog2 b - quantum a).toNat : Int) : ℚ) := by exact_mod_cast h3
      unfold roundQ
      calc (roundHalfEven (a / 2 ^ quantum a) : ℚ) * 2 ^ quantum a
          ≤ (((2 : Int) ^ (ilog2 b - quantum a).toNat : Int) : ℚ) * 2 ^ quantum a :=
            mul_le_mul_of_nonneg_right h4 (two_zpow_pos _).le
        _ = (2 : ℚ) ^ ilog2 b := by
            push_cast
            rw [← zpow_natCast, Int.toNat_of_nonneg (by omega), ← zpow_add₀ (by norm_num)]
            simp
    have hmid2 : (2 : ℚ) ^ ilog2 b ≤ roundQ b := by
      have h1 : (2 : ℚ) ^ ilog2 b ≤ b := by
        have := (ilog2_spec b hb.ne').1
        rwa [abs_of_pos hb] at this
      have e52 : (((2 : Int) ^ 52 : Int) : ℚ) = (2 : ℚ) ^ (52 : Int) := by norm_num
      have h2 : (((2 : Int) ^ 52 : Int) : ℚ) ≤ b / 2 ^ quantum b := by
        rw [le_div_iff₀ (two_zpow_pos _), hqb, e52, ← zpow_add₀ (by norm_num),
          show (52 : Int) + (ilog2 b - 52) = ilog2 b by ring]
        exact h1
      have h3 := roundHalfEven_mono _ _ h2
      rw [roundHalfEven_intCast] at h3
      have h4 : (((2 : Int) ^ 52 : Int) : ℚ) ≤ (roundHalfEven (b / 2 ^ quantum b) : ℚ) := by
        exact_mod_cast h3
      unfold roundQ
      calc (2 : ℚ) ^ ilog2 b = (((2 : Int) ^ 52 : Int) : ℚ) * 2 ^ quantum b := by
            rw [hqb, e52, ← zpow_add₀ (by norm_num),
              show (52 : Int) + (ilog2 b - 52) = ilog2 b by ring]
        _ ≤ (roundHalfEven (b / 2 ^ quantum b) : ℚ) * 2 ^ quantum b :=
            mul_le_mul_of_nonneg_right h4 (two_zpow_pos _).le
    exact le_trans hmid1 hmid2
  · unfold roundQ
    rw [← heq]
    have h2 : a / 2 ^ quantum a ≤ b / 2 ^ quantum a :=
      div_le_div_of_nonneg_right hab (two_zpow_pos _).le
    have h3 : (roundHalfEven (a / 2 ^ quantum a) : ℚ) ≤ (roundHalfEven (b / 2 ^ quantum a) : ℚ) := by
      exact_mod_cast roundHalfEven_mono _ _ h2
    exact mul_le_mul_of_nonneg_right h3 (two_zpow_pos _).le

theorem roundQ_mono (a b : ℚ) (hab : a ≤ b) : roundQ a ≤ roundQ b := by
  rcases lt_trichotomy a 0 with ha | ha | ha
  · rcases lt_or_le b 0 with hb | hb
    · have := roundQ_mono_pos (-b) (-a) (by linarith) (by linarith)
      rw [roundQ_neg, roundQ_neg] at this
      linarith
    · have h1 := roundQ_nonneg (-a) (by linarith)
      rw [roundQ_neg] at h1
      have h2 := roundQ_nonneg b hb
      linarith
  · subst ha
    rw [roundQ_zero]
    exact roundQ_nonneg b hab
  · exact roundQ_mono_pos a b ha hab

theorem roundQ_abs_sub_le (q : ℚ) : |roundQ q - q| ≤ 2 ^ quantum q / 2 := by
  have h := roundHalfEven_abs_sub_le (q / 2 ^ quantum q)
  have hp := two_zpow_pos (quantum q)
  have e : roundQ q - q = ((roundHalfEven (q / 2 ^ quantum q) : ℚ) - q / 2 ^ quantum q) *
      2 ^ quantum q := by
    unfold roundQ
    field_simp
  rw [e, abs_mul, abs_of_pos hp]
  calc |(roundHalfEven (q / 2 ^ quantum q) : ℚ) - q / 2 ^ quantum q| * 2 ^ quantum q
      ≤ 1 / 2 * 2 ^ quantum q := mul_le_mul_of_nonneg_right h hp.le
    _ = 2 ^ quantum q / 2 := by ring

theorem quantum_le_of_lt (q : ℚ) (k : Int) (hk : -1 ≤ k) (h : |q| < (2 : ℚ) ^ (k + 1)) :
    quantum q ≤ k - 52 := by
  unfold quantum
  by_cases hq : q = 0
  · subst hq
    have : ilog2 0 = -1 := by decide!
    rw [this, max_eq_left (by norm_num)]
    omega
  · have := ilog2_le_of_lt q hq k h
    have := max_le this (show (-1022 : Int) ≤ k by omega)
    omega

/-! ### Values of `round64` -/

theorem round64_cases (q : ℚ) :
    (round64 q = .posInf ∧ (2 : ℚ) ^ (1024 : Int) ≤ roundQ q) ∨
    (round64 q = .negInf ∧ roundQ q ≤ -(2 : ℚ) ^ (1024 : Int)) ∨
    (round64 q = .fin (roundQ q) ∧ -(2 : ℚ) ^ (1024 : Int) < roundQ q ∧
      roundQ q < (2 : ℚ) ^ (1024 : Int)) := by
  unfold round64
  split_ifs with h1 h2
  · exact Or.inl ⟨rfl, h1⟩
  · exact Or.inr (Or.inl ⟨rfl, h2⟩)
  · exact Or.inr (Or.inr ⟨rfl, not_le.mp h2, not_le.mp h1⟩)

theorem round64_zero : round64 0 = .fin 0 := by
  unfold round64
  rw [roundQ_zero]
  norm_num

theorem roundQ_of_round64 (q : ℚ) (h : round64 q = .fin q) :
    roundQ q = q ∧ -(2 : ℚ) ^ (1024 : Int) < q ∧ q < (2 : ℚ) ^ (1024 : Int) := by
  rcases round64_cases q with ⟨h1, _⟩ | ⟨h1, _⟩ | ⟨h1, h2, h3⟩
  · rw [h1] at h; exact absurd h (by simp)
  · rw [h1] at h; exact absurd h (by simp)
  · rw [h1] at h
    have e : roundQ q = q := by injection h
    rw [e] at h2 h3
    exact ⟨e, h2, h3⟩

/-- A result between two binary64 values rounds to a finite value between them. -/
theorem round64_between (lo hi q : ℚ) (hlo : round64 lo = .fin lo) (hhi : round64 hi = .fin hi)
    (h1 : lo ≤ q) (h2 : q ≤ hi) :
    round64 q = .fin (roundQ q) ∧ lo ≤ roundQ q ∧ roundQ q ≤ hi := by
  obtain ⟨e1, b1, _⟩ := roundQ_of_round64 lo hlo
  obtain ⟨e2, _, b2⟩ := roundQ_of_round64 hi hhi
  have m1 := roundQ_mono lo q h1
  have m2 := roundQ_mono q hi h2
  rw [e1] at m1
  rw [e2] at m2
  unfold round64
  rw [if_neg (by linarith), if_neg (by linarith)]
  exact ⟨rfl, m1, m2⟩

theorem round64_ne_nan (q : ℚ) : round64 q ≠ .nan := by
  unfold round64
  split_ifs <;> simp

theorem round64_mono (a b : ℚ) (hab : a ≤ b) : F64.le (round64 a) (round64 b) = true := by
  have m := roundQ_mono a b hab
  rcases round64_cases a with ⟨h1, h2⟩ | ⟨h1, h2⟩ | ⟨h1, h2, h3⟩ <;>
    rcases round64_cases b with ⟨k1, k2⟩ | ⟨k1, k2⟩ | ⟨k1, k2, k3⟩ <;>
    rw [h1, k1] <;> simp only [F64.le, decide_eq_true_eq] <;> first | rfl | linarith

theorem F64.add_fin (a b : ℚ) : F64.add (.fin a) (.fin b) = round64 (a + b) := rfl

theorem F64.sub_fin (a b : ℚ) : F64.sub (.fin a) (.fin b) = round64 (a - b) := rfl

theorem F64.mul_fin (a b : ℚ) : F64.mul (.fin a) (.fin b) = round64 (a * b) := rfl

theorem F64.div_fin (a b : ℚ) (hb : b ≠ 0) : F64.div (.fin a) (.fin b) = round64 (a / b) := by
  simp [F64.div, hb]

theorem round64_one : round64 1 = .fin 1 := by decide!

theorem round64_two : round64 2 = .fin 2 := by decide!

theorem round64_hundred : round64 100 = .fin 100 := by decide!

theorem round64_two_pow_63 : round64 (2 ^ 63) = .fin (2 ^ 63) := by decide!

/-! ### Order of binary64 values -/

theorem F64.lt_false_of_le (a b : F64) (h : F64.le a b = true) : F64.lt b a = false := by
  cases a <;> cases b <;> simp_all [F64.le, F64.lt]

theorem F64.le_posInf (a : F64) (h : a ≠ .nan) : F64.le a .posInf = true := by
  cases a <;> simp_all [F64.le]

theorem F64.negInf_le (a : F64) (h : a ≠ .nan) : F64.le .negInf a = true := by
  cases a <;> simp_all [F64.le]

theorem F64.le_refl (a : F64) (h : a ≠ .nan) : F64.le a a = true := by
  cases a <;> simp_all [F64.le]

theorem F64.le_chain (a b c : F64) (h1 : F64.le a b = true) (h2 : F64.le b c = true) :
    F64.le a c = true := by
  cases a <;> cases b <;> cases c <;> simp_all [F64.le]
  exact h1.trans h2

theorem F64.add_fin_mono (c : ℚ) (x y : F64) (h : F64.le x y = true) :
    F64.le (F64.add (.fin c) x) (F64.add (.fin c) y) = true := by
  cases x <;> cases y <;> simp_all [F64.le, F64.add]
  · exact round64_mono _ _ (by linarith)
  · exact F64.le_posInf _ (round64_ne_nan _)
  · exact F64.negInf_le _ (round64_ne_nan _)

theorem F64.div_fin_mono (m : ℚ) (hm : 0 < m) (x y : F64) (h : F64.le x y = true) :
    F64.le (F64.div x (.fin m)) (F64.div y (.fin m)) = true := by
  cases x <;> cases y <;> simp_all [F64.le, F64.div, hm.ne', hm.le]
  · exact round64_mono _ _ (div_le_div_of_nonneg_right h hm.le)
  · exact F64.le_posInf _ (round64_ne_nan _)
  · exact F64.negInf_le _ (round64_ne_nan _)

/-! ### Exactly representable values and rounding errors -/

theorem abs_cast_lt (n : Int) (hn : |n| < 2 ^ 53) : |(n : ℚ)| < (2 : ℚ) ^ (53 : Int) := by
  have h : ((|n| : Int) : ℚ) < (((2 : Int) ^ 53 : Int) : ℚ) := by exact_mod_cast hn
  have e : (((2 : Int) ^ 53 : Int) : ℚ) = (2 : ℚ) ^ (53 : Int) := by norm_num
  rw [Int.cast_abs, e] at h
  exact h

/-- An integer of magnitude below `2 ^ 53` scaled by a power of two not below the subnormal
quantum rounds to itself. -/
theorem roundQ_dyadic (n k : Int) (hn : |n| < 2 ^ 53) (hk : -1074 ≤ k) :
    roundQ ((n : ℚ) * 2 ^ k) = (n : ℚ) * 2 ^ k := by
  by_cases h0 : n = 0
  · subst h0
    simp [roundQ_zero]
  · have hq : (n : ℚ) * 2 ^ k ≠ 0 :=
      mul_ne_zero (by exact_mod_cast h0) (two_zpow_pos k).ne'
    have habs : |(n : ℚ) * 2 ^ k| < (2 : ℚ) ^ (k + 52 + 1) := by
      rw [abs_mul, abs_of_pos (two_zpow_pos k)]
      have h1 : |(n : ℚ)| < (2 : ℚ) ^ (53 : Int) := abs_cast_lt n hn
      calc |(n : ℚ)| * 2 ^ k < (2 : ℚ) ^ (53 : Int) * 2 ^ k :=
            mul_lt_mul_of_pos_right h1 (two_zpow_pos k)
        _ = (2 : ℚ) ^ (k + 52 + 1) := by
            rw [← zpow_add₀ (by norm_num)]
            congr 1
            ring
    have hE := ilog2_le_of_lt _ hq (k + 52) habs
    have he : quantum ((n : ℚ) * 2 ^ k) ≤ k := by
      unfold quantum
      have := max_le hE (show (-1022 : Int) ≤ k + 52 by omega)
      omega
    have hdiv : (n : ℚ) * 2 ^ k / 2 ^ quantum ((n : ℚ) * 2 ^ k) =
        ((n * 2 ^ (k - quantum ((n : ℚ) * 2 ^ k)).toNat : Int) : ℚ) := by
      push_cast
      rw [← zpow_natCast, Int.toNat_of_nonneg (by omega), zpow_sub₀ (by norm_num)]
      ring
    unfold roundQ
    rw [hdiv, roundHalfEven_intCast]
    push_cast
    rw [← zpow_natCast, Int.toNat_of_nonneg (by omega), mul_assoc, ← zpow_add₀ (by norm_num)]
    congr 2
    ring

theorem round64_dyadic (n k : Int) (hn : |n| < 2 ^ 53) (hk : -1074 ≤ k) (hk2 : k ≤ 971) :
    round64 ((n : ℚ) * 2 ^ k) = .fin ((n : ℚ) * 2 ^ k) := by
  have e := roundQ_dyadic n k hn hk
  have h1 : |(n : ℚ)| < (2 : ℚ) ^ (53 : Int) := abs_cast_lt n hn
  have hb : |(n : ℚ) * 2 ^ k| < (2 : ℚ) ^ (1024 : Int) := by
    rw [abs_mul, abs_of_pos (two_zpow_pos k)]
    calc |(n : ℚ)| * 2 ^ k < (2 : ℚ) ^ (53 : Int) * 2 ^ k :=
          mul_lt_mul_of_pos_right h1 (two_zpow_pos k)
      _ = (2 : ℚ) ^ (53 + k) := by rw [← zpow_add₀ (by norm_num)]
      _ ≤ (2 : ℚ) ^ (1024 : Int) := zpow_le_zpow_right₀ (by norm_num) (by omega)
  rw [abs_lt] at hb
  unfold round64
  rw [e, if_neg (by linarith), if_neg (by linarith)]

theorem roundQ_natCast (n : Nat) (h : n < 2 ^ 32) : roundQ (n : ℚ) = (n : ℚ) := by
  have := roundQ_dyadic (n : Int) 0 (by rw [abs_of_nonneg (by omega)]; omega) (by norm_num)
  simpa using this

/-- A value `n / 2 ^ 20` with `|n| < 2 ^ 53` is a `float64`. -/
theorem round64_scaled20 (n : Int) (hn : |n| < 2 ^ 53) :
    round64 ((n : ℚ) / 2 ^ 20) = .fin ((n : ℚ) / 2 ^ 20) := by
  have := round64_dyadic n (-20) hn (by norm_num) (by norm_num)
  have e : (2 : ℚ) ^ (-20 : Int) = 1 / 2 ^ 20 := by
    rw [zpow_neg, one_div]
    norm_cast
  rw [e, mul_one_div] at this
  exact this

/-- A `float64` value is a multiple of the subnormal quantum `2 ^ -1074`. -/
theorem multiple_of_roundQ (q : ℚ) (h : roundQ q = q) :
    ∃ n : Int, q = (n : ℚ) * 2 ^ (-1074 : Int) := by
  have he := quantum_ge q
  refine ⟨roundHalfEven (q / 2 ^ quantum q) * 2 ^ (quantum q + 1074).toNat, ?_⟩
  push_cast
  rw [← zpow_natCast, Int.toNat_of_nonneg (by omega), mul_assoc, ← zpow_add₀ (by norm_num)]
  have : quantum q + 1074 + -1074 = quantum q := by ring
  rw [this]
  exact h.symm

/-- The difference of two distinct `float64` values does not round to zero. -/
theorem roundQ_sub_pos (a b : ℚ) (ha : roundQ a = a) (hb : roundQ b = b) (hab : a < b) :
    0 < roundQ (b - a) := by
  obtain ⟨na, hna⟩ := multiple_of_roundQ a ha
  obtain ⟨nb, hnb⟩ := multiple_of_roundQ b hb
  have hp := two_zpow_pos (-1074)
  have hlt : (na : ℚ) < (nb : ℚ) := by
    rw [hna, hnb] at hab
    exact lt_of_mul_lt_mul_right hab hp.le
  have hlt2 : na + 1 ≤ nb := by
    have : na < nb := by exact_mod_cast hlt
    omega
  have hge : (2 : ℚ) ^ (-1074 : Int) ≤ b - a := by
    rw [hna, hnb, ← sub_mul]
    have : (1 : ℚ) ≤ (nb : ℚ) - (na : ℚ) := by
      have : ((na + 1 : Int) : ℚ) ≤ (nb : ℚ) := by exact_mod_cast hlt2
      push_cast at this
      linarith
    calc (2 : ℚ) ^ (-1074 : Int) = 1 * 2 ^ (-1074 : Int) := by ring
      _ ≤ ((nb : ℚ) - (na : ℚ)) * 2 ^ (-1074 : Int) := mul_le_mul_of_nonneg_right this hp.le
  have hq := roundQ_dyadic 1 (-1074) (by norm_num) (by norm_num)
  have hm := roundQ_mono _ _ hge
  have h1 : roundQ ((2 : ℚ) ^ (-1074 : Int)) = (2 : ℚ) ^ (-1074 : Int) := by
    simpa using hq
  rw [h1] at hm
  linarith

/-- The rounding error of a result of magnitude below `2 ^ (k + 1)`. -/
theorem roundQ_error (q : ℚ) (k : Int) (hk : -1 ≤ k) (h : |q| < (2 : ℚ) ^ (k + 1)) :
    |roundQ q - q| ≤ (2 : ℚ) ^ (k - 53) := by
  have h1 := roundQ_abs_sub_le q
  have h2 := quantum_le_of_lt q k hk h
  have h3 : (2 : ℚ) ^ quantum q ≤ (2 : ℚ) ^ (k - 52) := zpow_le_zpow_right₀ (by norm_num) h2
  have h4 : (2 : ℚ) ^ (k - 52) = 2 * (2 : ℚ) ^ (k - 53) := by
    rw [show k - 52 = 1 + (k - 53) by ring, zpow_add₀ (by norm_num)]
    norm_num
  linarith

theorem two_zpow_neg_53 : (2 : ℚ) ^ (-53 : Int) = 1 / 2 ^ 53 := by
  rw [zpow_neg, one_div]
  norm_cast

theorem two_zpow_neg_22 : (2 : ℚ) ^ (-22 : Int) = 1 / 2 ^ 22 := by
  rw [zpow_neg, one_div]
  norm_cast

/-! ### Conversions and differences -/

/-- The conversion `float64(i)` of a non-negative `int` is finite and monotone. -/
theorem ofInt_nonneg (i : Int) (h0 : 0 ≤ i) (h1 : i ≤ 2 ^ 63) :
    F64.ofInt i = .fin (roundQ (i : ℚ)) ∧ 0 ≤ roundQ (i : ℚ) := by
  have hi0 : (0 : ℚ) ≤ (i : ℚ) := by exact_mod_cast h0
  have hi1 : (i : ℚ) ≤ 2 ^ 63 := by exact_mod_cast h1
  have := round64_between 0 (2 ^ 63) (i : ℚ) round64_zero round64_two_pow_63 hi0 hi1
  exact ⟨this.1, this.2.1⟩

theorem ofInt_pos (i : Int) (h0 : 1 ≤ i) (h1 : i ≤ 2 ^ 63) :
    F64.ofInt i = .fin (roundQ (i : ℚ)) ∧ 1 ≤ roundQ (i : ℚ) := by
  have hi0 : (1 : ℚ) ≤ (i : ℚ) := by exact_mod_cast h0
  have hi1 : (i : ℚ) ≤ 2 ^ 63 := by exact_mod_cast h1
  have := round64_between 1 (2 ^ 63) (i : ℚ) round64_one round64_two_pow_63 hi0 hi1
  exact ⟨this.1, this.2.1⟩

/-- The conversion `float64(n)` of a `uint32` is exact. -/
theorem ofInt_uint32 (n : Nat) (h : n < 2 ^ 32) : F64.ofInt (n : Int) = .fin (n : ℚ) := by
  have := round64_dyadic (n : Int) 0 (by rw [abs_of_nonneg (by omega)]; omega) (by norm_num)
    (by norm_num)
  simpa [F64.ofInt] using this

/-- The difference `hi - lo` of two ordered `float64` values that does not overflow is a
finite non-negative value. -/
theorem width64 (lo hi : ℚ) (hb : lo ≤ hi) (hfin : F64.sub (.fin hi) (.fin lo) ≠ .posInf) :
    F64.sub (.fin hi) (.fin lo) = .fin (roundQ (hi - lo)) ∧ 0 ≤ roundQ (hi - lo) := by
  have h0 := roundQ_nonneg (hi - lo) (by linarith)
  rw [F64.sub_fin] at hfin ⊢
  rcases round64_cases (hi - lo) with ⟨h1, _⟩ | ⟨_, h2⟩ | ⟨h1, _, _⟩
  · exact absurd h1 hfin
  · have := two_zpow_pos 1024
    linarith
  · exact ⟨h1, h0⟩

/-! ## The escape-time loop follows the quadratic orbit -/

theorem mandelLoop_exit (cx cy : ℚ) (maxIter : Int) (fuel : Nat) (i : Int) (x y : ℚ)
    (h : ¬ i < maxIter) :
    mandelLoop cx cy maxIter fuel i x y = some ((x * x + y * y) / 2, maxIter) := by
  cases fuel <;> simp [mandelLoop, h]

theorem mandelLoop_escape (cx cy : ℚ) (maxIter : Int) (fuel : Nat) (i : Int) (x y : ℚ)
    (h : i < maxIter) (he : 4 < x * x + y * y) :
    mandelLoop cx cy maxIter (fuel + 1) i x y = some (x * x + y * y, i) := by
  simp [mandelLoop, h, he]

theorem mandelLoop_step (cx cy : ℚ) (maxIter : Int) (fuel : Nat) (i : Int) (x y : ℚ)
    (h : i < maxIter) (he : ¬ 4 < x * x + y * y) :
    mandelLoop cx cy maxIter (fuel + 1) i x y =
      mandelLoop cx cy maxIter fuel (i + 1) (x * x - y * y + cx) (2 * (x * y) + cy) := by
  simp [mandelLoop, h, he]

/-- Started on the orbit at index `i`, the loop returns at the first escaping index `k`. -/
theorem mandelLoop_orbit_escape (cx cy : ℚ) (maxIter : Int) (k : Nat)
    (hk : (k : Int) < maxIter) (hesc : 4 < normSq (orbit cx cy k)) :
    ∀ (d i fuel : Nat), i + d = k → d < fuel →
      (∀ j, i ≤ j → j < k → ¬ 4 < normSq (orbit cx cy j)) →
      mandelLoop cx cy maxIter fuel (i : Int) (orbit cx cy i).1 (orbit cx cy i).2 =
        some (normSq (orbit cx cy k), (k : Int)) := by
  intro d
  induction d with
  | zero =>
    intro i fuel hi hf _
    obtain ⟨f, rfl⟩ : ∃ f, fuel = f + 1 := ⟨fuel - 1, by omega⟩
    have hik : i = k := by omega
    subst hik
    exact mandelLoop_escape cx cy maxIter f _ _ _ hk hesc
  | succ d ih =>
    intro i fuel hi hf hno
    obtain ⟨f, rfl⟩ : ∃ f, fuel = f + 1 := ⟨fuel - 1, by omega⟩
    have hlt : ((i : Nat) : Int) < maxIter := by omega
    have hne : ¬ 4 < (orbit cx cy i).1 * (orbit cx cy i).1 +
        (orbit cx cy i).2 * (orbit cx cy i).2 := hno i (le_refl i) (by omega)
    rw [mandelLoop_step cx cy maxIter f _ _ _ hlt hne]
    have := ih (i + 1) f (by omega) (by omega) (fun j h1 h2 => hno j (by omega) h2)
    simpa [orbit] using this

/-- Started on the orbit at index `i`, a loop that never escapes runs to the cap `n`. -/
theorem mandelLoop_orbit_cap (cx cy : ℚ) (maxIter : Int) (n : Nat) (hn : maxIter = (n : Int)) :
    ∀ (d i fuel : Nat), i + d = n → d ≤ fuel →
      (∀ j, i ≤ j → j < n → ¬ 4 < normSq (orbit cx cy j)) →
      mandelLoop cx cy maxIter fuel (i : Int) (orbit cx cy i).1 (orbit cx cy i).2 =
        some (normSq (orbit cx cy n) / 2, maxIter) := by
  intro d
  induction d with
  | zero =>
    intro i fuel hi _ _
    have hin : i = n := by omega
    subst hin
    rw [mandelLoop_exit cx cy maxIter fuel _ _ _ (by omega)]
    rfl
  | succ d ih =>
    intro i fuel hi hf hno
    obtain ⟨f, rfl⟩ : ∃ f, fuel = f + 1 := ⟨fuel - 1, by omega⟩
    have hlt : ((i : Nat) : Int) < maxIter := by omega
    have hne : ¬ 4 < (orbit cx cy i).1 * (orbit cx cy i).1 +
        (orbit cx cy i).2 * (orbit cx cy i).2 := hno i (le_refl i) (by omega)
    rw [mandelLoop_step cx cy maxIter f _ _ _ hlt hne]
    have := ih (i + 1) f (by omega) (by omega) (fun j h1 h2 => hno j (by omega) h2)
    simpa [orbit] using this

/-- From the initial state, with any fuel of at least `maxIter` loop bodies: the result
at the first escaping index. -/
theorem mandelLoop_first_escape (cx cy : ℚ) (maxIter : Int) (fuel k : Nat)
    (hf : maxIter.toNat ≤ fuel) (hk : (k : Int) < maxIter)
    (hesc : 4 < normSq (orbit cx cy k))
    (hmin : ∀ j, j < k → ¬ 4 < normSq (orbit cx cy j)) :
    mandelLoop cx cy maxIter fuel 0 0 0 = some (normSq (orbit cx cy k), (k : Int)) := by
  have := mandelLoop_orbit_escape cx cy maxIter k hk hesc k 0 fuel (by omega) (by omega)
    (fun j _ h => hmin j h)
  simpa [orbit] using this

/-- From the initial state, with any fuel of at least `maxIter` loop bodies: the result
when no iterate below the cap escapes. -/
theorem mandelLoop_never_escape (cx cy : ℚ) (maxIter : Int) (fuel : Nat)
    (hf : maxIter.toNat ≤ fuel)
    (hno : ∀ j : Nat, (j : Int) < maxIter → ¬ 4 < normSq (orbit cx cy j)) :
    mandelLoop cx cy maxIter fuel 0 0 0 =
      some (normSq (orbit cx cy maxIter.toNat) / 2, maxIter) := by
  by_cases h0 : 0 ≤ maxIter
  · have hn : maxIter = ((maxIter.toNat : Nat) : Int) := (Int.toNat_of_nonneg h0).symm
    have := mandelLoop_orbit_cap cx cy maxIter maxIter.toNat hn maxIter.toNat 0 fuel
      (by omega) hf (fun j _ h => hno j (by omega))
    simpa [orbit] using this
  · have hz : maxIter.toNat = 0 := by omega
    rw [mandelLoop_exit cx cy maxIter fuel 0 0 0 (by omega), hz]
    simp [orbit, normSq]

theorem orbit_origin (k : Nat) : orbit 0 0 k = (0, 0) := by
  induction k with
  | zero => rfl
  | succ k ih => simp [orbit, ih]

/-- The pair recurrence of `orbit` is the complex map `z ↦ z ^ 2 + c`. -/
theorem orbit_succ_complex (cx cy : ℚ) (k : Nat) :
    (⟨((orbit cx cy (k + 1)).1 : ℝ), ((orbit cx cy (k + 1)).2 : ℝ)⟩ : ℂ) =
      (⟨((orbit cx cy k).1 : ℝ), ((orbit cx cy k).2 : ℝ)⟩ : ℂ) ^ 2 + ⟨(cx : ℝ), (cy : ℝ)⟩ := by
  apply Complex.ext
  · simp [orbit, pow_two]
  · simp [orbit, pow_two]; ring

/-- The value `normSq` is the squared complex modulus. -/
theorem normSq_complex (z : ℚ × ℚ) :
    ((normSq z : ℚ) : ℝ) = Complex.normSq ⟨(z.1 : ℝ), (z.2 : ℝ)⟩ := by
  simp [normSq, Complex.normSq_apply]

/-! ## The binary64 loop follows the binary64 orbit -/

theorem mandelLoop64_exit (cx cy : F64) (maxIter : Int) (fuel : Nat) (i : Int) (x y : F64)
    (h : ¬ i < maxIter) :
    mandelLoop64 cx cy maxIter fuel i x y = some (F64.div (normSq64 (x, y)) (.fin 2), maxIter) := by
  cases fuel <;> simp [mandelLoop64, normSq64, h]

theorem mandelLoop64_escape (cx cy : F64) (maxIter : Int) (fuel : Nat) (i : Int) (x y : F64)
    (h : i < maxIter) (he : F64.lt (.fin 4) (normSq64 (x, y)) = true) :
    mandelLoop64 cx cy maxIter (fuel + 1) i x y = some (normSq64 (x, y), i) := by
  simp only [normSq64] at he
  simp [mandelLoop64, normSq64, h, he]

theorem mandelLoop64_step (cx cy : F64) (maxIter : Int) (fuel : Nat) (i : Int) (x y : F64)
    (h : i < maxIter) (he : F64.lt (.fin 4) (normSq64 (x, y)) = false) :
    mandelLoop64 cx cy maxIter (fuel + 1) i x y =
      mandelLoop64 cx cy maxIter fuel (i + 1) (F64.add (F64.sub (F64.mul x x) (F64.mul y y)) cx)
        (F64.add (F64.mul (.fin 2) (F64.mul x y)) cy) := by
  simp only [normSq64] at he
  simp [mandelLoop64, h, he]

/-- Started on the binary64 orbit at index `i`, the loop returns at the first index `k` whose
computed squared magnitude exceeds 4. -/
theorem mandelLoop64_orbit_escape (cx cy : F64) (maxIter : Int) (k : Nat)
    (hk : (k : Int) < maxIter) (hesc : F64.lt (.fin 4) (normSq64 (orbit64 cx cy k)) = true) :
    ∀ (d i fuel : Nat), i + d = k → d < fuel →
      (∀ j, i ≤ j → j < k → F64.lt (.fin 4) (normSq64 (orbit64 cx cy j)) = false) →
      mandelLoop64 cx cy maxIter fuel (i : Int) (orbit64 cx cy i).1 (orbit64 cx cy i).2 =
        some (normSq64 (orbit64 cx cy k), (k : Int)) := by
  intro d
  induction d with
  | zero =>
    intro i fuel hi hf _
    obtain ⟨f, rfl⟩ : ∃ f, fuel = f + 1 := ⟨fuel - 1, by omega⟩
    have hik : i = k := by omega
    subst hik
    exact mandelLoop64_escape cx cy maxIter f _ _ _ hk hesc
  | succ d ih =>
    intro i fuel hi hf hno
    obtain ⟨f, rfl⟩ : ∃ f, fuel = f + 1 := ⟨fuel - 1, by omega⟩
    have hlt : ((i : Nat) : Int) < maxIter := by omega
    rw [mandelLoop64_step cx cy maxIter f _ _ _ hlt (hno i (le_refl i) (by omega))]
    have := ih (i + 1) f (by omega) (by omega) (fun j h1 h2 => hno j (by omega) h2)
    simpa [orbit64] using this

/-- Started on the binary64 orbit at index `i`, a loop that never escapes runs to the
cap `n`. -/
theorem mandelLoop64_orbit_cap (cx cy : F64) (maxIter : Int) (n : Nat)
    (hn : maxIter = (n : Int)) :
    ∀ (d i fuel : Nat), i + d = n → d ≤ fuel →
      (∀ j, i ≤ j → j < n → F64.lt (.fin 4) (normSq64 (orbit64 cx cy j)) = false) →
      mandelLoop64 cx cy maxIter fuel (i : Int) (orbit64 cx cy i).1 (orbit64 cx cy i).2 =
        some (F64.div (normSq64 (orbit64 cx cy n)) (.fin 2), maxIter) := by
  intro d
  induction d with
  | zero =>
    intro i fuel hi _ _
    have hin : i = n := by omega
    subst hin
    rw [mandelLoop64_exit cx cy maxIter fuel _ _ _ (by omega)]
  | succ d ih =>
    intro i fuel hi hf hno
    obtain ⟨f, rfl⟩ : ∃ f, fuel = f + 1 := ⟨fuel - 1, by omega⟩
    have hlt : ((i : Nat) : Int) < maxIter := by omega
    rw [mandelLoop64_step cx cy maxIter f _ _ _ hlt (hno i (le_refl i) (by omega))]
    have := ih (i + 1) f (by omega) (by omega) (fun j h1 h2 => hno j (by omega) h2)
    simpa [orbit64] using this

theorem mandelLoop64_first_escape (cx cy : F64) (maxIter : Int) (fuel k : Nat)
    (hf : maxIter.toNat ≤ fuel) (hk : (k : Int) < maxIter)
    (hesc : F64.lt (.fin 4) (normSq64 (orbit64 cx cy k)) = true)
    (hmin : ∀ j, j < k → F64.lt (.fin 4) (normSq64 (orbit64 cx cy j)) = false) :
    mandelLoop64 cx cy maxIter fuel 0 (.fin 0) (.fin 0) =
      some (normSq64 (orbit64 cx cy k), (k : Int)) := by
  have := mandelLoop64_orbit_escape cx cy maxIter k hk hesc k 0 fuel (by omega) (by omega)
    (fun j _ h => hmin j h)
  simpa [orbit64] using this

theorem mandelLoop64_never_escape (cx cy : F64) (maxIter : Int) (fuel : Nat)
    (hf : maxIter.toNat ≤ fuel) (h0 : 0 ≤ maxIter)
    (hno : ∀ j : Nat, (j : Int) < maxIter →
      F64.lt (.fin 4) (normSq64 (orbit64 cx cy j)) = false) :
    mandelLoop64 cx cy maxIter fuel 0 (.fin 0) (.fin 0) =
      some (F64.div (normSq64 (orbit64 cx cy maxIter.toNat)) (.fin 2), maxIter) := by
  have hn : maxIter = ((maxIter.toNat : Nat) : Int) := (Int.toNat_of_nonneg h0).symm
  have := mandelLoop64_orbit_cap cx cy maxIter maxIter.toNat hn maxIter.toNat 0 fuel
    (by omega) hf (fun j _ h => hno j (by omega))
  simpa [orbit64] using this

/-- The first binary64 iterate is the point itself. -/
theorem orbit64_one (cx cy : ℚ) (hx : round64 cx = .fin cx) (hy : round64 cy = .fin cy) :
    orbit64 (.fin cx) (.fin cy) 1 = (.fin cx, .fin cy) := by
  simp only [orbit64, F64.mul_fin, F64.sub_fin, F64.add_fin, mul_zero, sub_zero, zero_add,
    round64_zero, hx, hy]

/-! ## Claims on the escape-time evaluator -/

/-- C1 (counterexample): at the point `(2, 2^-30)` the first exact iterate with squared
magnitude above 4 is `z_1`, with `|z_1|^2 = 4 + 2^-60`; in binary64 the sum `xx + yy` of
step 1 rounds to 4, the test `xx+yy > 4` fails, and `mandelIteration(2, 2^-30, 5)` returns
`(36, 2)`, not `(|z_1|^2, 1)`. -/
theorem mandelIteration64_misses_exact_escape :
    ¬ 4 < normSq (orbit 2 (1 / 2 ^ 30) 0) ∧
    normSq (orbit 2 (1 / 2 ^ 30) 1) = 4 + 1 / 2 ^ 60 ∧
    normSq64 (orbit64 (.fin 2) (.fin (1 / 2 ^ 30)) 1) = .fin 4 ∧
    mandelIteration64 (.fin 2) (.fin (1 / 2 ^ 30)) 5 = some (.fin 36, 2) := by
  decide!

/-- C1 (amended): let the orbit and its squared magnitude be the values that the code
computes in binary64 (`x = xx - yy + cx`, `y = 2*xy + cy`, `xx + yy`, every operation
rounded to nearest). If the computed squared magnitude of some iterate with index below the
cap exceeds 4, `mandelIteration` returns the computed squared magnitude of the first such
iterate together with its 0-based index; the returned magnitude exceeds 4. -/
theorem mandelIteration64_returns_first_escape (cx cy : F64) (maxIter : Int)
    (h : ∃ k : Nat, (k : Int) < maxIter ∧ F64.lt (.fin 4) (normSq64 (orbit64 cx cy k)) = true) :
    ∃ k : Nat, ((k : Int) < maxIter ∧ F64.lt (.fin 4) (normSq64 (orbit64 cx cy k)) = true) ∧
      (∀ j : Nat, (j : Int) < maxIter →
        F64.lt (.fin 4) (normSq64 (orbit64 cx cy j)) = true → k ≤ j) ∧
      mandelIteration64 cx cy maxIter = some (normSq64 (orbit64 cx cy k), (k : Int)) := by
  classical
  refine ⟨Nat.find h, Nat.find_spec h, fun j hj hesc => Nat.find_min' h ⟨hj, hesc⟩, ?_⟩
  have hk := Nat.find_spec h
  refine mandelLoop64_first_escape cx cy maxIter maxIter.toNat (Nat.find h) (le_refl _)
    hk.1 hk.2 ?_
  intro j hj
  by_contra hesc
  exact Nat.find_min h hj ⟨by omega, by simpa using hesc⟩

theorem mandelIteration64_returns_first_escape_witness :
    (∃ k : Nat, (k : Int) < 5 ∧
      F64.lt (.fin 4) (normSq64 (orbit64 (.fin 2) (.fin (1 / 2 ^ 30)) k)) = true) ∧
    ∃ k : Nat, ((k : Int) < 5 ∧
        F64.lt (.fin 4) (normSq64 (orbit64 (.fin 2) (.fin (1 / 2 ^ 30)) k)) = true) ∧
      (∀ j : Nat, (j : Int) < 5 →
        F64.lt (.fin 4) (normSq64 (orbit64 (.fin 2) (.fin (1 / 2 ^ 30)) j)) = true → k ≤ j) ∧
      mandelIteration64 (.fin 2) (.fin (1 / 2 ^ 30)) 5 =
        some (normSq64 (orbit64 (.fin 2) (.fin (1 / 2 ^ 30)) k), (k : Int)) :=
  have hyp : ∃ k : Nat, (k : Int) < 5 ∧
      F64.lt (.fin 4) (normSq64 (orbit64 (.fin 2) (.fin (1 / 2 ^ 30)) k)) = true :=
    ⟨2, by decide, by decide!⟩
  ⟨hyp, mandelIteration64_returns_first_escape (.fin 2) (.fin (1 / 2 ^ 30)) 5 hyp⟩

/-- C2 (counterexample): at `cx = 7045133300741713 / 2^54` (the `float64`
0.39108346010184386), `cy = 0.875`, cap 4, no exact iterate `z_0 .. z_3` has squared
magnitude above 4, yet in binary64 the squared magnitude of step 3 rounds to
`4 + 2^-49 > 4` and `mandelIteration` returns `(4.000000000000002, 3)`, not
`(|z_4|^2 / 2, 4)`. -/
theorem mandelIteration64_escapes_below_cap :
    round64 (7045133300741713 / 2 ^ 54) = .fin (7045133300741713 / 2 ^ 54) ∧
    (∀ k : Nat, k < 4 → ¬ 4 < normSq (orbit (7045133300741713 / 2 ^ 54) (7 / 8) k)) ∧
    mandelIteration64 (.fin (7045133300741713 / 2 ^ 54)) (.fin (7 / 8)) 4 =
      some (.fin (4 + 1 / 2 ^ 49), 3) := by
  decide!

/-- C2 (amended): let the orbit and its squared magnitude be the values that the code
computes in binary64. For a cap `maxIter >= 0`, if the computed squared magnitude of no
iterate with index below the cap exceeds 4, `mandelIteration` returns half the computed
squared magnitude of the iterate reached after `maxIter` updates, together with
`maxIter`. -/
theorem mandelIteration64_returns_cap (cx cy : F64) (maxIter : Int) (h0 : 0 ≤ maxIter)
    (hno : ∀ k : Nat, (k : Int) < maxIter →
      F64.lt (.fin 4) (normSq64 (orbit64 cx cy k)) = false) :
    mandelIteration64 cx cy maxIter =
      some (F64.div (normSq64 (orbit64 cx cy maxIter.toNat)) (.fin 2), maxIter) ∧
    ((maxIter.toNat : Nat) : Int) = maxIter :=
  ⟨mandelLoop64_never_escape cx cy maxIter maxIter.toNat (le_refl _) h0 hno,
    Int.toNat_of_nonneg h0⟩

theorem mandelIteration64_returns_cap_witness :
    (0 : Int) ≤ 3 ∧
    (∀ k : Nat, (k : Int) < 3 → F64.lt (.fin 4)
      (normSq64 (orbit64 (.fin (7045133300741713 / 2 ^ 54)) (.fin (7 / 8)) k)) = false) ∧
    mandelIteration64 (.fin (7045133300741713 / 2 ^ 54)) (.fin (7 / 8)) 3 =
      some (F64.div (normSq64 (orbit64 (.fin (7045133300741713 / 2 ^ 54)) (.fin (7 / 8))
        (3 : Int).toNat)) (.fin 2), 3) ∧
    (((3 : Int).toNat : Nat) : Int) = 3 :=
  have hno : ∀ k : Nat, (k : Int) < 3 → F64.lt (.fin 4)
      (normSq64 (orbit64 (.fin (7045133300741713 / 2 ^ 54)) (.fin (7 / 8)) k)) = false := by
    intro k hk
    have hk2 : k < 3 := by omega
    interval_cases k <;> decide!
  ⟨by norm_num, hno,
    mandelIteration64_returns_cap (.fin (7045133300741713 / 2 ^ 54)) (.fin (7 / 8)) 3
      (by norm_num) hno⟩

/-- C3: for a cap `maxIter >= 0`, `mandelIteration` returns a result within `maxIter`
loop bodies (more fuel never changes it), and the returned iteration count lies in
`[0, maxIter]`. -/
theorem mandelIteration_terminates (cx cy : ℚ) (maxIter : Int) (h0 : 0 ≤ maxIter) :
    ∃ (norm : ℚ) (it : Int),
      mandelIteration cx cy maxIter = some (norm, it) ∧
      (∀ fuel, maxIter.toNat ≤ fuel → mandelLoop cx cy maxIter fuel 0 0 0 = some (norm, it)) ∧
      0 ≤ it ∧ it ≤ maxIter := by
  classical
  by_cases h : ∃ k : Nat, (k : Int) < maxIter ∧ 4 < normSq (orbit cx cy k)
  · have hk := Nat.find_spec h
    have hmin : ∀ j, j < Nat.find h → ¬ 4 < normSq (orbit cx cy j) :=
      fun j hj hesc => Nat.find_min h hj ⟨by omega, hesc⟩
    refine ⟨normSq (orbit cx cy (Nat.find h)), ((Nat.find h : Nat) : Int), ?_, ?_, ?_, ?_⟩
    · exact mandelLoop_first_escape cx cy maxIter _ _ (le_refl _) hk.1 hk.2 hmin
    · intro fuel hf
      exact mandelLoop_first_escape cx cy maxIter fuel _ hf hk.1 hk.2 hmin
    · exact Int.natCast_nonneg _
    · exact le_of_lt hk.1
  · have hno : ∀ j : Nat, (j : Int) < maxIter → ¬ 4 < normSq (orbit cx cy j) :=
      fun j hj hesc => h ⟨j, hj, hesc⟩
    refine ⟨normSq (orbit cx cy maxIter.toNat) / 2, maxIter, ?_, ?_, h0, le_refl _⟩
    · exact mandelLoop_never_escape cx cy maxIter _ (le_refl _) hno
    · intro fuel hf
      exact mandelLoop_never_escape cx cy maxIter fuel hf hno

theorem mandelIteration_terminates_witness :
    (0 : Int) ≤ 5 ∧ ∃ (norm : ℚ) (it : Int),
      mandelIteration 2 2 5 = some (norm, it) ∧
      (∀ fuel, (5 : Int).toNat ≤ fuel → mandelLoop 2 2 5 fuel 0 0 0 = some (norm, it)) ∧
      0 ≤ it ∧ it ≤ 5 :=
  ⟨by norm_num, mandelIteration_terminates 2 2 5 (by norm_num)⟩

/-- C4: at the origin `mandelIteration` never escapes: for every cap it returns the cap
as iteration count, with magnitude 0. -/
theorem mandelIteration_origin (maxIter : Int) :
    mandelIteration 0 0 maxIter = some (0, maxIter) := by
  have h := mandelLoop_never_escape 0 0 maxIter maxIter.toNat (le_refl _)
    (fun j _ => by simp [orbit_origin, normSq])
  simpa [mandelIteration, orbit_origin, normSq] using h

/-- C5 (counterexample): the point `(2^-30, 2)` has `cx^2 + cy^2 = 4 + 2^-60 > 4`, but in
binary64 the sum rounds to 4, the first iterate does not escape, and
`mandelIteration(2^-30, 2, 5)` returns `(20.000000007450581, 2)`, not
`(cx^2 + cy^2, 1)`. -/
theorem mandelIteration64_rounds_into_disc :
    (4 : ℚ) < 1 / 2 ^ 30 * (1 / 2 ^ 30) + 2 * 2 ∧
    normSq64 (.fin (1 / 2 ^ 30), .fin 2) = .fin 4 ∧
    mandelIteration64 (.fin (1 / 2 ^ 30)) (.fin 2) 5 = some (.fin (2684354561 / 134217728), 2) := by
  decide!

/-- C5 (amended): for `float64` values `cx`, `cy` whose squared magnitude as computed in
binary64, `fl(fl(cx*cx) + fl(cy*cy))`, exceeds 4, and every cap `maxIter >= 2`,
`mandelIteration` escapes at the first iterate and returns that computed squared magnitude
with iteration count 1; in particular `mandelIteration(2, 2, maxIter) = (8, 1)`. -/
theorem mandelIteration64_outside_disc (cx cy : ℚ) (maxIter : Int)
    (hx : round64 cx = .fin cx) (hy : round64 cy = .fin cy)
    (h : F64.lt (.fin 4) (normSq64 (.fin cx, .fin cy)) = true) (hm : 2 ≤ maxIter) :
    mandelIteration64 (.fin cx) (.fin cy) maxIter = some (normSq64 (.fin cx, .fin cy), 1) ∧
    mandelIteration64 (.fin 2) (.fin 2) maxIter = some (.fin 8, 1) := by
  have key : ∀ cx cy : ℚ, round64 cx = .fin cx → round64 cy = .fin cy →
      F64.lt (.fin 4) (normSq64 (.fin cx, .fin cy)) = true →
      mandelIteration64 (.fin cx) (.fin cy) maxIter = some (normSq64 (.fin cx, .fin cy), 1) := by
    intro cx cy hx hy h
    have := mandelLoop64_first_escape (.fin cx) (.fin cy) maxIter maxIter.toNat 1 (le_refl _)
      (by simpa using (by omega : (1 : Int) < maxIter))
      (by rw [orbit64_one cx cy hx hy]; exact h)
      (fun j hj => by
        have hj0 : j = 0 := by omega
        subst hj0
        show F64.lt (.fin 4) (normSq64 (.fin 0, .fin 0)) = false
        decide!)
    rw [orbit64_one cx cy hx hy] at this
    simpa [mandelIteration64] using this
  refine ⟨key cx cy hx hy h, ?_⟩
  have := key 2 2 (by decide!) (by decide!) (by decide!)
  rw [this]
  decide!

theorem mandelIteration64_outside_disc_witness :
    round64 3 = .fin 3 ∧ round64 (1 / 4) = .fin (1 / 4) ∧
    F64.lt (.fin 4) (normSq64 (.fin 3, .fin (1 / 4))) = true ∧ (2 : Int) ≤ 7 ∧
    mandelIteration64 (.fin 3) (.fin (1 / 4)) 7 = some (normSq64 (.fin 3, .fin (1 / 4)), 1) ∧
    mandelIteration64 (.fin 2) (.fin 2) 7 = some (.fin 8, 1) :=
  ⟨by decide!, by decide!, by decide!, by norm_num,
    mandelIteration64_outside_disc 3 (1 / 4) 7 (by decide!) (by decide!) (by decide!)
      (by norm_num)⟩

/-! ## Gradient expansion: unknown keyword -/

theorem foldlM_paletteStep_no_match (env : FloatEnv) (fuel : Nat) (keyword : String)
    (numberOfColors : ℚ) :
    ∀ (ColorPalettes : List Palette) (st : Slices),
      (∀ v ∈ ColorPalettes, v.Keyword ≠ keyword) →
      ColorPalettes.foldlM (paletteStep env fuel (some keyword) numberOfColors) st =
        (Except.ok st : Except Fault Slices) := by
  intro ColorPalettes
  induction ColorPalettes with
  | nil => intro st _; rfl
  | cons v rest ih =>
    intro st h
    have hv : v.Keyword ≠ keyword := h v (List.mem_cons_self _ _)
    have hstep : paletteStep env fuel (some keyword) numberOfColors st v = Except.ok st := by
      simp [paletteStep, hv]
      rfl
    rw [List.foldlM_cons, hstep]
    exact ih st (fun w hw => h w (List.mem_cons_of_mem _ hw))

/-- C6: for every palette registry and every keyword equal to no entry's `Keyword`,
`InterpolateColors` returns the empty gradient for every sample count, without failing. -/
theorem InterpolateColors_unknown_keyword (env : FloatEnv) (fuel : Nat)
    (ColorPalettes : List Palette) (keyword : String) (numberOfColors : ℚ)
    (h : ∀ v ∈ ColorPalettes, v.Keyword ≠ keyword) :
    InterpolateColors env fuel ColorPalettes (some keyword) numberOfColors = Except.ok [] ∧
    (InterpolateColors env fuel ColorPalettes (some keyword) numberOfColors).toOption.map
      List.length = some 0 := by
  have hfold := foldlM_paletteStep_no_match env fuel keyword numberOfColors ColorPalettes
    { steps := [], cols := [], interpolated := [], interpolatedColors := [] } h
  have : InterpolateColors env fuel ColorPalettes (some keyword) numberOfColors =
      Except.ok [] := by
    unfold InterpolateColors
    rw [hfold]
    rfl
  rw [this]
  exact ⟨rfl, rfl⟩

theorem InterpolateColors_unknown_keyword_witness :
    (∀ v ∈ [blackWhite], v.Keyword ≠ "NoSuchPalette") ∧
    (InterpolateColors roughEnv 10 [blackWhite] (some "NoSuchPalette") 6000 = Except.ok [] ∧
      (InterpolateColors roughEnv 10 [blackWhite] (some "NoSuchPalette")
        6000).toOption.map List.length = some 0) :=
  have hyp : ∀ v ∈ [blackWhite], v.Keyword ≠ "NoSuchPalette" := by
    intro v hv
    rw [List.mem_singleton] at hv
    subst hv
    decide
  ⟨hyp, InterpolateColors_unknown_keyword roughEnv 10 [blackWhite] "NoSuchPalette" 6000 hyp⟩

/-! ## Colourizer -/

theorem mandelLoop_origin (maxIter : Int) (fuel : Nat) (hf : maxIter.toNat ≤ fuel) :
    mandelLoop 0 0 maxIter fuel 0 0 0 = some (0, maxIter) := by
  have h := mandelLoop_never_escape 0 0 maxIter fuel hf
    (fun j _ => by simp [orbit_origin, normSq])
  simpa [orbit_origin, normSq] using h

theorem trunc_nonneg (q : ℚ) (h : 0 ≤ q) : 0 ≤ trunc q :=
  Int.tdiv_nonneg (Rat.num_nonneg.mpr h) (Int.natCast_nonneg _)

theorem index_ok {α : Type} (xs : List α) (i : Int) (h0 : 0 ≤ i) (h1 : i < (xs.length : Int)) :
    ∃ x, index xs i = Except.ok x := by
  have hlt : i.toNat < xs.length := by omega
  refine ⟨xs.get ⟨i.toNat, hlt⟩, ?_⟩
  simp [index, h0, List.getElem?_eq_getElem hlt]

/-- For a positive `norm` the smoothed index is finite; when its integral part is
representable as an `int`, the guard of the colourizer keeps both reads inside the
gradient, whatever the environment. -/
theorem colorize_ok_of_pos (env : FloatEnv) (colors : List RGBA) (maxIteration : Int)
    (norm : ℚ) (it : Int) (hnorm : 0 < norm)
    (hrange : trunc |((maxIteration - it : Int) : ℚ) + env.Log norm| < 2 ^ 63) :
    ∃ r, colorize env colors maxIteration norm it = Except.ok r := by
  have h0 : 0 ≤ trunc |((maxIteration - it : Int) : ℚ) + env.Log norm| :=
    trunc_nonneg _ (abs_nonneg _)
  have hidx : toInt env (mathAbs (F64.addFin ((maxIteration - it : Int) : ℚ)
      (mathLog env norm))) = trunc |((maxIteration - it : Int) : ℚ) + env.Log norm| := by
    have hlow : (-2 ^ 63 : Int) ≤ trunc |((maxIteration - it : Int) : ℚ) + env.Log norm| := by
      omega
    simp only [mathLog, hnorm, if_true, F64.addFin, mathAbs, toInt]
    rw [if_pos ⟨hlow, hrange⟩]
  unfold colorize
  simp only [hidx]
  by_cases hg : trunc |((maxIteration - it : Int) : ℚ) + env.Log norm| <
      (colors.length : Int) - 1
  · obtain ⟨c1, hc1⟩ := index_ok colors _ h0 (by omega)
    obtain ⟨c2, hc2⟩ := index_ok colors
      (trunc |((maxIteration - it : Int) : ℚ) + env.Log norm| + 1) (by omega) (by omega)
    rw [if_pos hg, hc1, hc2]
    exact ⟨_, rfl⟩
  · rw [if_neg hg]
    exact ⟨_, rfl⟩

/-- C7: at the origin the evaluator returns `norm = 0`, so `math.Log` gives `-Inf` and the
smoothed index is not finite; with the `int` conversion of amd64 the index is `-2 ^ 63`,
the guard `idx < len(colors) - 1` passes for every gradient, and the read `colors[idx]`
is outside `[0, len(colors))`: the colourizer fails with an index out of range. -/
theorem colorize_origin_index_out_of_range (base : FloatEnv) (colors : List RGBA)
    (maxIter : Int) :
    mandelIteration 0 0 maxIter = some (0, maxIter) ∧
    toInt (amd64 base)
      (mathAbs (F64.addFin ((maxIter - maxIter : Int) : ℚ) (mathLog (amd64 base) 0))) =
      -2 ^ 63 ∧
    (-2 ^ 63 : Int) < (colors.length : Int) - 1 ∧
    index colors (-2 ^ 63) = Except.error Fault.indexOutOfRange ∧
    colorize (amd64 base) colors maxIter 0 maxIter = Except.error Fault.indexOutOfRange := by
  have hidx : toInt (amd64 base)
      (mathAbs (F64.addFin ((maxIter - maxIter : Int) : ℚ) (mathLog (amd64 base) 0))) =
      -2 ^ 63 := by
    simp [mathLog, F64.addFin, mathAbs, toInt, amd64]
  have hlt : (-2 ^ 63 : Int) < (colors.length : Int) - 1 := by
    have : (0 : Int) ≤ (colors.length : Int) := Int.natCast_nonneg _
    omega
  have hread : index colors (-2 ^ 63) = Except.error Fault.indexOutOfRange := by
    simp [index]
  refine ⟨mandelLoop_origin maxIter maxIter.toNat (le_refl _), hidx, hlt, hread, ?_⟩
  unfold colorize
  simp only [hidx, hlt, if_true, hread]
  rfl

/-! ## Colour packing -/

set_option maxRecDepth 100000 in
/-- Scaled channel: `(v | v << 8) / 0xff` is `v` below 128, `v + 1` from 128 to 254,
and 257 for `v = 255`. -/
theorem scaled_channel (v : Fin 256) :
    u32 (v.val ||| u32 (v.val <<< 8)) / 0xff =
      if v.val < 128 then v.val else if v.val < 255 then v.val + 1 else 257 := by
  revert v
  decide

/-- C8: for opaque black `RGBA{0, 0, 0, 255}` the alpha channel is scaled to
`65535 / 255 = 257`, which does not fit in 8 bits: the packed value is `0x00000101`, whose
B byte is 1 although the scaled B channel is 0; opaque white packs to `0x01010101`. -/
theorem rgbaToUint_opaque_overflows :
    (RGBA.RGBA ⟨0, 0, 0, 255⟩).2.2.2 / 0xff = 257 ∧
    (RGBA.RGBA ⟨0, 0, 0, 255⟩).2.2.1 / 0xff = 0 ∧
    rgbaToUint ⟨0, 0, 0, 255⟩ = 0x00000101 ∧
    channel 1 (rgbaToUint ⟨0, 0, 0, 255⟩) = 1 ∧
    channel 0 (rgbaToUint ⟨0, 0, 0, 255⟩) = 1 ∧
    rgbaToUint ⟨255, 255, 255, 255⟩ = 0x01010101 := by
  decide

/-- C9: `uint32ToRgba v` has R = bits 24..31 of `v`, G = bits 16..23, B = bits 8..15, and
alpha `0xFF` whatever the low byte of `v` is. -/
theorem uint32ToRgba_channels (v : Nat) :
    (uint32ToRgba v).R.val = v / 2 ^ 24 % 2 ^ 8 ∧
    (uint32ToRgba v).G.val = v / 2 ^ 16 % 2 ^ 8 ∧
    (uint32ToRgba v).B.val = v / 2 ^ 8 % 2 ^ 8 ∧
    (uint32ToRgba v).A.val = 0xff ∧
    (∀ i : Fin 8, (uint32ToRgba v).R.val.testBit i.val = v.testBit (24 + i.val) ∧
      (uint32ToRgba v).G.val.testBit i.val = v.testBit (16 + i.val) ∧
      (uint32ToRgba v).B.val.testBit i.val = v.testBit (8 + i.val)) := by
  have hR : (uint32ToRgba v).R.val = v / 2 ^ 24 % 2 ^ 8 := by
    have := Nat.and_pow_two_sub_one_eq_mod (v >>> 24) 8
    simp only [uint32ToRgba, Fin.ofNat, Nat.shiftRight_eq_div_pow] at this ⊢
    norm_num at this ⊢
    omega
  have hG : (uint32ToRgba v).G.val = v / 2 ^ 16 % 2 ^ 8 := by
    have := Nat.and_pow_two_sub_one_eq_mod (v >>> 16) 8
    simp only [uint32ToRgba, Fin.ofNat, Nat.shiftRight_eq_div_pow] at this ⊢
    norm_num at this ⊢
    omega
  have hB : (uint32ToRgba v).B.val = v / 2 ^ 8 % 2 ^ 8 := by
    have := Nat.and_pow_two_sub_one_eq_mod (v >>> 8) 8
    simp only [uint32ToRgba, Fin.ofNat, Nat.shiftRight_eq_div_pow] at this ⊢
    norm_num at this ⊢
    omega
  refine ⟨hR, hG, hB, rfl, ?_⟩
  intro i
  have hi : i.val < 8 := i.isLt
  have key : ∀ k : Nat, (v / 2 ^ k % 2 ^ 8).testBit i.val = v.testBit (k + i.val) := by
    intro k
    rw [Nat.testBit_mod_two_pow, ← Nat.shiftRight_eq_div_pow, Nat.testBit_shiftRight]
    simp [hi]
  rw [hR, hG, hB]
  exact ⟨key 24, key 16, key 8⟩

/-! ## Blend of packed colours -/

theorem u32_mod_256 (x : Nat) : u32 x % 256 = x % 256 := by
  unfold u32
  exact Nat.mod_mod_of_dvd x (by norm_num)

theorem u32_of_lt (x : Nat) (h : x < 2 ^ 32) : u32 x = x := Nat.mod_eq_of_lt h

theorem linearInterpolation_modEq (c1 c2 mu : Nat) :
    linearInterpolation c1 c2 mu ≡ c1 * u32 (1 + (2 ^ 32 - u32 mu)) + c2 * mu [MOD 256] :=
  Nat.ModEq.trans (u32_mod_256 _) (Nat.ModEq.add (u32_mod_256 _) (u32_mod_256 _))

/-- The low byte of the blended word depends only on the low bytes of the operands. -/
theorem linearInterpolation_low_byte (c1 c2 mu : Nat) :
    linearInterpolation c1 c2 mu % 256 =
      linearInterpolation (c1 % 256) (c2 % 256) mu % 256 := by
  have h1 := linearInterpolation_modEq c1 c2 mu
  have h2 := linearInterpolation_modEq (c1 % 256) (c2 % 256) mu
  have h3 : c1 % 256 * u32 (1 + (2 ^ 32 - u32 mu)) + c2 % 256 * mu ≡
      c1 * u32 (1 + (2 ^ 32 - u32 mu)) + c2 * mu [MOD 256] :=
    Nat.ModEq.add (Nat.ModEq.mul_right _ (Nat.mod_modEq c1 256))
      (Nat.ModEq.mul_right _ (Nat.mod_modEq c2 256))
  exact h1.trans (h2.trans h3).symm

theorem linearInterpolation_zero (c1 c2 : Nat) (h1 : c1 < 2 ^ 32) :
    linearInterpolation c1 c2 0 = c1 := by
  simp [linearInterpolation, u32]
  omega

theorem linearInterpolation_one (c1 c2 : Nat) (h2 : c2 < 2 ^ 32) :
    linearInterpolation c1 c2 1 = c2 := by
  simp [linearInterpolation, u32]
  omega

theorem channel_lt (i : Fin 4) (c : Nat) : channel i c < 256 :=
  Nat.mod_lt _ (by norm_num)

/-- C10 as stated fails: blending `c1 = 0` and `c2 = 0x80` with weight 2 gives `0x100`,
whose B byte is 1, while the blend of the two B channels (both 0) is 0. -/
theorem linearInterpolation_not_per_channel :
    ¬ ∀ c1 c2 mu : Nat, c1 < 2 ^ 32 → c2 < 2 ^ 32 → mu < 2 ^ 32 → ∀ i : Fin 4,
      channel i (linearInterpolation c1 c2 mu) =
        linearInterpolation (channel i c1) (channel i c2) mu % 256 := by
  intro h
  have := h 0 0x80 2 (by norm_num) (by norm_num) (by norm_num) 1
  revert this
  decide

/-- C10, amended: the blend is computed on the whole packed word. Its least significant
(A) byte equals `ch1*(1-mu) + ch2*mu` on the A channels, reduced to 8 bits, for every
weight; for the weights 0 and 1 every byte equals the per-channel blend. -/
theorem linearInterpolation_channels (c1 c2 mu : Nat) (h1 : c1 < 2 ^ 32) (h2 : c2 < 2 ^ 32)
    (hmu : mu < 2 ^ 32) :
    channel 0 (linearInterpolation c1 c2 mu) =
      linearInterpolation (channel 0 c1) (channel 0 c2) mu % 256 ∧
    (mu ≤ 1 → ∀ i : Fin 4, channel i (linearInterpolation c1 c2 mu) =
      linearInterpolation (channel i c1) (channel i c2) mu % 256) := by
  constructor
  · have := linearInterpolation_low_byte c1 c2 mu
    simpa [channel] using this
  · intro hle i
    have hc1 := channel_lt i c1
    have hc2 := channel_lt i c2
    rcases Nat.le_one_iff_eq_zero_or_eq_one.mp hle with h | h
    · subst h
      rw [linearInterpolation_zero c1 c2 h1,
        linearInterpolation_zero _ _ (by omega), Nat.mod_eq_of_lt hc1]
    · subst h
      rw [linearInterpolation_one c1 c2 h2,
        linearInterpolation_one _ _ (by omega), Nat.mod_eq_of_lt hc2]

theorem linearInterpolation_channels_witness :
    (0x102030ff : Nat) < 2 ^ 32 ∧ (0x405060ff : Nat) < 2 ^ 32 ∧ (3 : Nat) < 2 ^ 32 ∧
    (channel 0 (linearInterpolation 0x102030ff 0x405060ff 3) =
      linearInterpolation (channel 0 0x102030ff) (channel 0 0x405060ff) 3 % 256 ∧
    ((3 : Nat) ≤ 1 → ∀ i : Fin 4, channel i (linearInterpolation 0x102030ff 0x405060ff 3) =
      linearInterpolation (channel i 0x102030ff) (channel i 0x405060ff) 3 % 256)) :=
  ⟨by norm_num, by norm_num, by norm_num,
    linearInterpolation_channels 0x102030ff 0x405060ff 3 (by norm_num) (by norm_num)
      (by norm_num)⟩

/-! ## Effective stop positions -/

theorem trunc_eq_floor (q : ℚ) (h : 0 ≤ q) : trunc q = ⌊q⌋ := by
  rw [Rat.floor_def]
  exact Int.tdiv_eq_ediv (Rat.num_nonneg.mpr h) (Int.natCast_nonneg _)

/-- The ratio `(index+1)/len * 100` of a stop inside the palette lies in `[0, 100]`. -/
theorem stepRatio_bounds (len index : Nat) (h : index + 1 ≤ len) :
    0 ≤ ((index + 1 : Nat) : ℚ) / (len : ℚ) * 100 ∧
      ((index + 1 : Nat) : ℚ) / (len : ℚ) * 100 ≤ 100 := by
  have hlen : (0 : ℚ) < (len : ℚ) := by exact_mod_cast (by omega : 0 < len)
  have hle : ((index + 1 : Nat) : ℚ) ≤ (len : ℚ) := by exact_mod_cast h
  have h1 : ((index + 1 : Nat) : ℚ) / (len : ℚ) ≤ 1 := (div_le_one hlen).mpr hle
  have h0 : 0 ≤ ((index + 1 : Nat) : ℚ) / (len : ℚ) :=
    div_nonneg (Nat.cast_nonneg _) hlen.le
  constructor
  · positivity
  · linarith

/-- Inside the palette the conversion `int(stepRatio*100)` is the floor. -/
theorem toInt_stepRatio (env : FloatEnv) (len index : Nat) (h : index + 1 ≤ len) :
    toInt env (.fin (((index + 1 : Nat) : ℚ) / (len : ℚ) * 100)) =
      ⌊((index + 1 : Nat) : ℚ) / (len : ℚ) * 100⌋ := by
  obtain ⟨h0, h100⟩ := stepRatio_bounds len index h
  have hfl : trunc (((index + 1 : Nat) : ℚ) / (len : ℚ) * 100) =
      ⌊((index + 1 : Nat) : ℚ) / (len : ℚ) * 100⌋ := trunc_eq_floor _ h0
  have hnn : (0 : Int) ≤ ⌊((index + 1 : Nat) : ℚ) / (len : ℚ) * 100⌋ := Int.floor_nonneg.mpr h0
  have hup : ⌊((index + 1 : Nat) : ℚ) / (len : ℚ) * 100⌋ ≤ 100 := by
    have : ((⌊((index + 1 : Nat) : ℚ) / (len : ℚ) * 100⌋ : Int) : ℚ) ≤ 100 :=
      le_trans (Int.floor_le _) h100
    exact_mod_cast this
  simp only [toInt, hfl]
  rw [if_pos ⟨by omega, by omega⟩]

theorem stopStep_steps (env : FloatEnv) (len : Nat) (st : Slices) (index : Nat)
    (col : ColorStop) (h : index + 1 ≤ len) :
    (stopStep env len st index col).steps =
      st.steps ++ [effectivePosition len index col.Step] := by
  unfold stopStep effectivePosition derivedPosition
  by_cases hc : col.Step = 0 ∧ index ≠ 0
  · simp only [if_pos hc, toInt_stepRatio env len index h]
  · simp only [if_neg hc]

theorem stopStep_cols_length (env : FloatEnv) (len : Nat) (st : Slices) (index : Nat)
    (col : ColorStop) :
    (stopStep env len st index col).cols.length = st.cols.length + 1 := by
  simp [stopStep]

theorem stopStep_rest (env : FloatEnv) (len : Nat) (st : Slices) (index : Nat)
    (col : ColorStop) :
    (stopStep env len st index col).interpolated = st.interpolated ∧
      (stopStep env len st index col).interpolatedColors = st.interpolatedColors := by
  simp [stopStep]

theorem stopLoop_steps (env : FloatEnv) (len : Nat) :
    ∀ (cs : List ColorStop) (index : Nat) (st : Slices), index + cs.length ≤ len →
      (stopLoop env len cs index st).steps = st.steps ++ effectiveFrom len index cs := by
  intro cs
  induction cs with
  | nil => intro index st _; simp [stopLoop, effectiveFrom]
  | cons col rest ih =>
    intro index st h
    have hlen : (col :: rest).length = rest.length + 1 := rfl
    rw [stopLoop, ih (index + 1) _ (by omega), stopStep_steps env len st index col (by omega)]
    simp [effectiveFrom]

theorem stopLoop_cols_length (env : FloatEnv) (len : Nat) :
    ∀ (cs : List ColorStop) (index : Nat) (st : Slices),
      (stopLoop env len cs index st).cols.length = st.cols.length + cs.length := by
  intro cs
  induction cs with
  | nil => intro index st; simp [stopLoop]
  | cons col rest ih =>
    intro index st
    rw [stopLoop, ih, stopStep_cols_length]
    simp
    omega

theorem stopLoop_rest (env : FloatEnv) (len : Nat) :
    ∀ (cs : List ColorStop) (index : Nat) (st : Slices),
      (stopLoop env len cs index st).interpolated = st.interpolated ∧
        (stopLoop env len cs index st).interpolatedColors = st.interpolatedColors := by
  intro cs
  induction cs with
  | nil => intro index st; simp [stopLoop]
  | cons col rest ih =>
    intro index st
    rw [stopLoop]
    exact ⟨(ih _ _).1.trans (stopStep_rest env len st index col).1,
      (ih _ _).2.trans (stopStep_rest env len st index col).2⟩

theorem effectiveFrom_length (total : Nat) :
    ∀ (cs : List ColorStop) (index : Nat), (effectiveFrom total index cs).length = cs.length := by
  intro cs
  induction cs with
  | nil => intro index; rfl
  | cons col rest ih => intro index; simp [effectiveFrom, ih]

theorem effectiveFrom_getElem (total : Nat) :
    ∀ (cs : List ColorStop) (index k : Nat) (hk : k < cs.length)
      (hk2 : k < (effectiveFrom total index cs).length),
      (effectiveFrom total index cs)[k] = effectivePosition total (index + k) cs[k].Step := by
  intro cs
  induction cs with
  | nil => intro index k hk; simp at hk
  | cons col rest ih =>
    intro index k hk hk2
    cases k with
    | zero => simp [effectiveFrom]
    | succ k =>
      simp only [effectiveFrom, List.getElem_cons_succ]
      rw [ih (index + 1) k (by simpa using hk)]
      congr 1
      omega

/-- The slice `steps` computed by the code is the list of effective positions. -/
theorem effectivePositions_eq (env : FloatEnv) (colors : List ColorStop) :
    effectivePositions env colors = effectiveFrom colors.length 0 colors := by
  unfold effectivePositions
  rw [stopLoop_steps env colors.length colors 0 _ (by omega)]
  simp

theorem effectivePositions_length (env : FloatEnv) (colors : List ColorStop) :
    (effectivePositions env colors).length = colors.length := by
  rw [effectivePositions_eq, effectiveFrom_length]

theorem effectivePositions_getElem (env : FloatEnv) (colors : List ColorStop) (k : Nat)
    (hk : k < colors.length) (hk2 : k < (effectivePositions env colors).length) :
    (effectivePositions env colors)[k] = effectivePosition colors.length k colors[k].Step := by
  have h := effectiveFrom_getElem colors.length colors 0 k hk
    (by rw [effectiveFrom_length]; exact hk)
  simp only [Nat.zero_add] at h
  simp only [effectivePositions_eq]
  exact h

theorem derivedPosition_mono (total i j : Nat) (h : i ≤ j) :
    derivedPosition total i ≤ derivedPosition total j := by
  unfold derivedPosition
  have hij : ((i + 1 : Nat) : ℚ) ≤ ((j + 1 : Nat) : ℚ) := by exact_mod_cast (by omega : i + 1 ≤ j + 1)
  have hdiv : ((i + 1 : Nat) : ℚ) / (total : ℚ) * 100 ≤ ((j + 1 : Nat) : ℚ) / (total : ℚ) * 100 := by
    have : ((i + 1 : Nat) : ℚ) / (total : ℚ) ≤ ((j + 1 : Nat) : ℚ) / (total : ℚ) :=
      div_le_div_of_nonneg_right hij (Nat.cast_nonneg _)
    linarith
  have hfl : ⌊((i + 1 : Nat) : ℚ) / (total : ℚ) * 100⌋ ≤ ⌊((j + 1 : Nat) : ℚ) / (total : ℚ) * 100⌋ :=
    Int.floor_mono hdiv
  have hq : ((⌊((i + 1 : Nat) : ℚ) / (total : ℚ) * 100⌋ : Int) : ℚ) ≤
      ((⌊((j + 1 : Nat) : ℚ) / (total : ℚ) * 100⌋ : Int) : ℚ) := by exact_mod_cast hfl
  linarith

theorem derivedPosition_bounds (total i : Nat) (h : i + 1 ≤ total) :
    0 ≤ derivedPosition total i ∧ derivedPosition total i ≤ 1 := by
  obtain ⟨h0, h100⟩ := stepRatio_bounds total i h
  unfold derivedPosition
  have hnn : (0 : Int) ≤ ⌊((i + 1 : Nat) : ℚ) / (total : ℚ) * 100⌋ := Int.floor_nonneg.mpr h0
  have hq0 : (0 : ℚ) ≤ ((⌊((i + 1 : Nat) : ℚ) / (total : ℚ) * 100⌋ : Int) : ℚ) := by
    exact_mod_cast hnn
  have hq1 : ((⌊((i + 1 : Nat) : ℚ) / (total : ℚ) * 100⌋ : Int) : ℚ) ≤ 100 :=
    le_trans (Int.floor_le _) h100
  constructor
  · positivity
  · linarith

theorem derivedPosition_last (total : Nat) (h : 1 ≤ total) :
    derivedPosition total (total - 1) = 1 := by
  unfold derivedPosition
  have hcast : ((total - 1 + 1 : Nat) : ℚ) = (total : ℚ) := by
    congr 1
    omega
  have hpos : (total : ℚ) ≠ 0 := by
    have : (0 : ℚ) < (total : ℚ) := by exact_mod_cast (by omega : 0 < total)
    exact ne_of_gt this
  rw [hcast, div_self hpos]
  norm_num

/-- A non-first stop whose stored position, when set, lies between the derived positions of
the previous index and of its own index has its effective position in that window. -/
theorem effectivePosition_window (total k : Nat) (stored : ℚ) (hk0 : k ≠ 0)
    (hw : stored ≠ 0 →
      derivedPosition total (k - 1) ≤ stored ∧ stored ≤ derivedPosition total k) :
    derivedPosition total (k - 1) ≤ effectivePosition total k stored ∧
      effectivePosition total k stored ≤ derivedPosition total k := by
  unfold effectivePosition
  by_cases hs : stored = 0
  · rw [if_pos ⟨hs, hk0⟩]
    exact ⟨derivedPosition_mono total (k - 1) k (by omega), le_refl _⟩
  · rw [if_neg (fun h => hs h.1)]
    exact hw hs

/-- Effective positions are non-decreasing when the first stored position is 0 and every
set non-first stop lies in the window of the derived positions around its index. -/
theorem effectivePositions_sorted_of_window (env : FloatEnv) (colors : List ColorStop)
    (hfirst : ∀ c ∈ colors.head?, c.Step = 0)
    (hw : ∀ (k : Nat) (hk : k < colors.length), k ≠ 0 → colors[k].Step ≠ 0 →
      derivedPosition colors.length (k - 1) ≤ colors[k].Step ∧
        colors[k].Step ≤ derivedPosition colors.length k) :
    List.Sorted (· ≤ ·) (effectivePositions env colors) := by
  unfold List.Sorted
  rw [List.pairwise_iff_getElem]
  intro i j hi hj hij
  have hlen := effectivePositions_length env colors
  have hi2 : i < colors.length := by omega
  have hj2 : j < colors.length := by omega
  rw [effectivePositions_getElem env colors i hi2 hi,
    effectivePositions_getElem env colors j hj2 hj]
  have hjw := effectivePosition_window colors.length j colors[j].Step (by omega)
    (hw j hj2 (by omega))
  by_cases hi0 : i = 0
  · subst hi0
    have h0 : colors[0].Step = 0 := by
      apply hfirst
      rw [List.head?_eq_getElem?, List.getElem?_eq_getElem hi2]
      rfl
    have hd := derivedPosition_bounds colors.length (j - 1) (by omega)
    have he0 : effectivePosition colors.length 0 colors[0].Step = 0 := by
      simp [effectivePosition, h0]
    rw [he0]
    linarith [hjw.1, hd.1]
  · have hiw := effectivePosition_window colors.length i colors[i].Step hi0 (hw i hi2 hi0)
    have hm := derivedPosition_mono colors.length i (j - 1) (by omega)
    linarith [hiw.2, hjw.1]

theorem effectivePositions_head (env : FloatEnv) (colors : List ColorStop) :
    (effectivePositions env colors).head? = colors.head?.map (fun c => c.Step) := by
  rw [effectivePositions_eq]
  cases colors with
  | nil => rfl
  | cons c rest => simp [effectiveFrom, effectivePosition]

theorem effectivePositions_unit_interval (env : FloatEnv) (colors : List ColorStop)
    (h01 : ∀ c ∈ colors, 0 ≤ c.Step ∧ c.Step ≤ 1) :
    ∀ x ∈ effectivePositions env colors, 0 ≤ x ∧ x ≤ 1 := by
  intro x hx
  obtain ⟨k, hk, rfl⟩ := List.mem_iff_getElem.mp hx
  have hk2 : k < colors.length := by rw [effectivePositions_length] at hk; exact hk
  rw [effectivePositions_getElem env colors k hk2 hk]
  unfold effectivePosition
  split
  · exact derivedPosition_bounds colors.length k (by omega)
  · exact h01 _ (List.getElem_mem _)

/-- C11 as stated fails: the stored positions `0, 0.9, 0, 0` lie in `[0, 1]`, the
effective positions are `0, 0.9, 0.75, 1`, which decrease from the second to the third
stop; and a palette whose first stored position is `0.5` has first effective position
`0.5`. -/
theorem effectivePositions_not_sorted :
    (∀ c ∈ setThenUnset, 0 ≤ c.Step ∧ c.Step ≤ 1) ∧
    effectivePositions roughEnv setThenUnset = [0, 9 / 10, 3 / 4, 1] ∧
    ¬ List.Sorted (· ≤ ·) (effectivePositions roughEnv setThenUnset) ∧
    (∀ c ∈ firstSet, 0 ≤ c.Step ∧ c.Step ≤ 1) ∧
    (effectivePositions roughEnv firstSet).head? = some (1 / 2) := by
  have h1 : effectivePositions roughEnv setThenUnset = [0, 9 / 10, 3 / 4, 1] := by
    rw [effectivePositions_eq]
    norm_num [setThenUnset, effectiveFrom, effectivePosition, derivedPosition]
  have h2 : effectivePositions roughEnv firstSet = [1 / 2, 1] := by
    rw [effectivePositions_eq]
    norm_num [firstSet, effectiveFrom, effectivePosition, derivedPosition]
  refine ⟨?_, h1, ?_, ?_, ?_⟩
  · intro c hc
    simp only [setThenUnset, List.mem_cons, List.mem_singleton, List.not_mem_nil,
      or_false] at hc
    rcases hc with rfl | rfl | rfl | rfl <;> norm_num
  · rw [h1]
    norm_num [List.Sorted]
  · intro c hc
    simp only [firstSet, List.mem_cons, List.mem_singleton, List.not_mem_nil, or_false] at hc
    rcases hc with rfl | rfl <;> norm_num
  · rw [h2]
    rfl

theorem sorted_getD (steps : List ℚ) (hs : List.Sorted (· ≤ ·) steps) (i j : Nat)
    (hij : i ≤ j) (hj : j < steps.length) : steps.getD i 0 ≤ steps.getD j 0 := by
  have hi : i < steps.length := by omega
  rw [List.getD_eq_getElem _ _ hi, List.getD_eq_getElem _ _ hj]
  rcases Nat.eq_or_lt_of_le hij with h | h
  · subst h; exact le_refl _
  · exact (List.pairwise_iff_getElem.mp hs) i j hi hj h

/-- Adjacent order, read off the stored positions: the first stored position is 0 and every
set stop other than the first lies between the effective positions of its neighbours. -/
theorem effectivePositions_adjacent (env : FloatEnv) (colors : List ColorStop)
    (hfirst : ∀ c ∈ colors.head?, c.Step = 0)
    (hnb : ∀ (k : Nat) (hk : k < colors.length), k ≠ 0 → colors[k].Step ≠ 0 →
      (effectivePositions env colors).getD (k - 1) 0 ≤ colors[k].Step ∧
        (k + 1 < colors.length →
          colors[k].Step ≤ (effectivePositions env colors).getD (k + 1) 0))
    (i : Nat) (hi : i + 1 < colors.length) :
    (effectivePositions env colors).getD i 0 ≤ (effectivePositions env colors).getD (i + 1) 0 := by
  have hlen := effectivePositions_length env colors
  have hget : ∀ (k : Nat) (hk : k < colors.length),
      (effectivePositions env colors).getD k 0 =
        effectivePosition colors.length k colors[k].Step := by
    intro k hk
    rw [List.getD_eq_getElem _ _ (by omega), effectivePositions_getElem env colors k hk]
  by_cases hset : colors[i + 1].Step = 0
  · rw [hget (i + 1) hi]
    have hnext : effectivePosition colors.length (i + 1) colors[i + 1].Step =
        derivedPosition colors.length (i + 1) := by
      unfold effectivePosition
      rw [if_pos ⟨hset, by omega⟩]
    rw [hnext]
    by_cases hi0 : i = 0
    · subst hi0
      have h0 : colors[0].Step = 0 := by
        apply hfirst
        rw [List.head?_eq_getElem?, List.getElem?_eq_getElem (by omega)]
        rfl
      rw [hget 0 (by omega)]
      have he0 : effectivePosition colors.length 0 colors[0].Step = 0 := by
        simp [effectivePosition, h0]
      rw [he0]
      exact (derivedPosition_bounds colors.length 1 (by omega)).1
    · by_cases hseti : colors[i].Step = 0
      · rw [hget i (by omega)]
        have hcur : effectivePosition colors.length i colors[i].Step =
            derivedPosition colors.length i := by
          unfold effectivePosition
          rw [if_pos ⟨hseti, hi0⟩]
        rw [hcur]
        exact derivedPosition_mono colors.length i (i + 1) (by omega)
      · have h := (hnb i (by omega) hi0 hseti).2 hi
        rw [hget (i + 1) hi, hnext] at h
        rw [hget i (by omega)]
        have hcur : effectivePosition colors.length i colors[i].Step = colors[i].Step := by
          unfold effectivePosition
          rw [if_neg (fun hc => hseti hc.1)]
        rw [hcur]
        exact h
  · have h := (hnb (i + 1) hi (by omega) hset).1
    simp only [Nat.add_sub_cancel] at h
    rw [hget (i + 1) hi]
    have hnext : effectivePosition colors.length (i + 1) colors[i + 1].Step =
        colors[i + 1].Step := by
      unfold effectivePosition
      rw [if_neg (fun hc => hset hc.1)]
    rw [hnext]
    exact h

theorem sorted_of_adjacent (l : List ℚ)
    (h : ∀ i : Nat, i + 1 < l.length → l.getD i 0 ≤ l.getD (i + 1) 0) :
    List.Sorted (· ≤ ·) l := by
  unfold List.Sorted
  rw [List.pairwise_iff_getElem]
  intro i j hi hj hij
  have key : ∀ d : Nat, ∀ i : Nat, i + d < l.length → l.getD i 0 ≤ l.getD (i + d) 0 := by
    intro d
    induction d with
    | zero => intro i _; exact le_refl _
    | succ d ih =>
      intro i hid
      exact le_trans (ih i (by omega)) (h (i + d) (by omega))
  have := key (j - i) i (by omega)
  rw [show i + (j - i) = j by omega, List.getD_eq_getElem _ _ hi,
    List.getD_eq_getElem _ _ hj] at this
  exact this

/-- In exact arithmetic: for a palette whose stored positions lie in `[0, 1]`, the effective
positions are non-decreasing with first position 0 exactly when the first stored position is
0 and every set stop other than the first has its stored position between the effective
positions of its two neighbours; they always lie in `[0, 1]`. -/
theorem effectivePositions_order (env : FloatEnv) (colors : List ColorStop)
    (h01 : ∀ c ∈ colors, 0 ≤ c.Step ∧ c.Step ≤ 1) :
    ((List.Sorted (· ≤ ·) (effectivePositions env colors) ∧
        ∀ x ∈ (effectivePositions env colors).head?, x = 0) ↔
      ((∀ c ∈ colors.head?, c.Step = 0) ∧
        ∀ (k : Nat) (hk : k < colors.length), k ≠ 0 → colors[k].Step ≠ 0 →
          (effectivePositions env colors).getD (k - 1) 0 ≤ colors[k].Step ∧
            (k + 1 < colors.length →
              colors[k].Step ≤ (effectivePositions env colors).getD (k + 1) 0))) ∧
    (∀ x ∈ effectivePositions env colors, 0 ≤ x ∧ x ≤ 1) := by
  have hlen := effectivePositions_length env colors
  refine ⟨⟨?_, ?_⟩, effectivePositions_unit_interval env colors h01⟩
  · rintro ⟨hs, hhead⟩
    refine ⟨?_, ?_⟩
    · intro c hc
      apply hhead
      rw [effectivePositions_head]
      simp only [Option.mem_def] at hc
      simp [hc]
    · intro k hk hk0 hset
      have hek : (effectivePositions env colors).getD k 0 = colors[k].Step := by
        rw [List.getD_eq_getElem _ _ (by omega), effectivePositions_getElem env colors k hk]
        unfold effectivePosition
        rw [if_neg (fun hc => hset hc.1)]
      refine ⟨?_, ?_⟩
      · rw [← hek]
        exact sorted_getD _ hs (k - 1) k (by omega) (by omega)
      · intro hk1
        rw [← hek]
        exact sorted_getD _ hs k (k + 1) (by omega) (by omega)
  · rintro ⟨hfirst, hnb⟩
    refine ⟨?_, ?_⟩
    · apply sorted_of_adjacent
      intro i hi
      exact effectivePositions_adjacent env colors hfirst hnb i (by omega)
    · intro x hx
      rw [effectivePositions_head] at hx
      simp only [Option.mem_def, Option.map_eq_some'] at hx
      obtain ⟨c, hc, rfl⟩ := hx
      exact hfirst c hc

/-! ### The order of any derivation rule -/

theorem effectiveWith_length (derived : Nat → ℚ) :
    ∀ (cs : List ColorStop) (index : Nat), (effectiveWith derived index cs).length = cs.length := by
  intro cs
  induction cs with
  | nil => intro index; rfl
  | cons col rest ih => intro index; simp [effectiveWith, ih]

theorem effectiveWith_getElem (derived : Nat → ℚ) :
    ∀ (cs : List ColorStop) (index k : Nat) (hk : k < cs.length)
      (hk2 : k < (effectiveWith derived index cs).length),
      (effectiveWith derived index cs)[k] =
        if cs[k].Step = 0 ∧ index + k ≠ 0 then derived (index + k) else cs[k].Step := by
  intro cs
  induction cs with
  | nil => intro index k hk; simp at hk
  | cons col rest ih =>
    intro index k hk hk2
    cases k with
    | zero => simp [effectiveWith]
    | succ k =>
      simp only [effectiveWith, List.getElem_cons_succ]
      rw [ih (index + 1) k (by simpa using hk)]
      rw [show index + 1 + k = index + (k + 1) by omega]

theorem effectiveWith_getD (derived : Nat → ℚ) (cs : List ColorStop) (k : Nat)
    (hk : k < cs.length) :
    (effectiveWith derived 0 cs).getD k 0 =
      if cs[k].Step = 0 ∧ k ≠ 0 then derived k else cs[k].Step := by
  have hk2 : k < (effectiveWith derived 0 cs).length := by
    rw [effectiveWith_length]
    exact hk
  rw [List.getD_eq_getElem _ _ hk2, effectiveWith_getElem derived cs 0 k hk hk2]
  simp

theorem effectiveWith_head (derived : Nat → ℚ) (cs : List ColorStop) :
    (effectiveWith derived 0 cs).head? = cs.head?.map (fun c => c.Step) := by
  cases cs with
  | nil => rfl
  | cons c rest => simp [effectiveWith]

/-- For a derivation rule that is non-decreasing in the index and never negative, the
effective positions are non-decreasing with first position 0 exactly when the first stored
position is 0 and every set stop other than the first lies between the effective positions
of its neighbours. -/
theorem effectiveWith_sorted_iff (derived : Nat → ℚ) (colors : List ColorStop)
    (hmono : ∀ i j : Nat, i ≤ j → j < colors.length → derived i ≤ derived j)
    (hnn : ∀ i : Nat, i < colors.length → 0 ≤ derived i) :
    (List.Sorted (· ≤ ·) (effectiveWith derived 0 colors) ∧
        ∀ x ∈ (effectiveWith derived 0 colors).head?, x = 0) ↔
      ((∀ c ∈ colors.head?, c.Step = 0) ∧
        ∀ (k : Nat) (hk : k < colors.length), k ≠ 0 → colors[k].Step ≠ 0 →
          (effectiveWith derived 0 colors).getD (k - 1) 0 ≤ colors[k].Step ∧
            (k + 1 < colors.length →
              colors[k].Step ≤ (effectiveWith derived 0 colors).getD (k + 1) 0)) := by
  have hlen := effectiveWith_length derived colors 0
  constructor
  · rintro ⟨hs, hhead⟩
    refine ⟨?_, ?_⟩
    · intro c hc
      apply hhead
      rw [effectiveWith_head]
      simp only [Option.mem_def] at hc
      simp [hc]
    · intro k hk hk0 hset
      have hek : (effectiveWith derived 0 colors).getD k 0 = colors[k].Step := by
        rw [effectiveWith_getD derived colors k hk, if_neg (fun hc => hset hc.1)]
      refine ⟨?_, ?_⟩
      · rw [← hek]
        exact sorted_getD _ hs (k - 1) k (by omega) (by omega)
      · intro hk1
        rw [← hek]
        exact sorted_getD _ hs k (k + 1) (by omega) (by omega)
  · rintro ⟨hfirst, hnb⟩
    refine ⟨?_, ?_⟩
    · apply sorted_of_adjacent
      intro i hi
      have hi1 : i + 1 < colors.length := by omega
      rw [effectiveWith_getD derived colors (i + 1) hi1]
      by_cases hset : colors[i + 1].Step = 0
      · rw [if_pos ⟨hset, by omega⟩, effectiveWith_getD derived colors i (by omega)]
        by_cases hi0 : i = 0
        · subst hi0
          have h0 : colors[0].Step = 0 := by
            apply hfirst
            rw [List.head?_eq_getElem?, List.getElem?_eq_getElem (by omega)]
            rfl
          rw [if_neg (fun hc => hc.2 rfl), h0]
          exact hnn 1 hi1
        · by_cases hseti : colors[i].Step = 0
          · rw [if_pos ⟨hseti, hi0⟩]
            exact hmono i (i + 1) (by omega) hi1
          · have h := (hnb i (by omega) hi0 hseti).2 hi1
            rw [effectiveWith_getD derived colors (i + 1) hi1, if_pos ⟨hset, by omega⟩] at h
            rw [if_neg (fun hc => hseti hc.1)]
            exact h
      · rw [if_neg (fun hc => hset hc.1)]
        have h := (hnb (i + 1) hi1 (by omega) hset).1
        simpa using h
    · intro x hx
      rw [effectiveWith_head] at hx
      simp only [Option.mem_def, Option.map_eq_some'] at hx
      obtain ⟨c, hc, rfl⟩ := hx
      exact hfirst c hc

theorem effectiveWith_unit_interval (derived : Nat → ℚ) (colors : List ColorStop)
    (hd : ∀ i : Nat, i < colors.length → 0 ≤ derived i ∧ derived i ≤ 1)
    (h01 : ∀ c ∈ colors, 0 ≤ c.Step ∧ c.Step ≤ 1) :
    ∀ x ∈ effectiveWith derived 0 colors, 0 ≤ x ∧ x ≤ 1 := by
  intro x hx
  obtain ⟨k, hk, rfl⟩ := List.mem_iff_getElem.mp hx
  have hk2 : k < colors.length := by rw [effectiveWith_length] at hk; exact hk
  rw [effectiveWith_getElem derived colors 0 k hk2 hk]
  split
  · simpa using hd k hk2
  · exact h01 _ (List.getElem_mem _)

/-! ### Effective stop positions in binary64 -/

theorem derivedValue64_nonneg (len index : Nat) : 0 ≤ derivedValue64 len index := by
  unfold derivedValue64
  have ha : 0 ≤ roundQ ((index + 1 : Nat) : ℚ) := roundQ_nonneg _ (Nat.cast_nonneg _)
  have hb : 0 ≤ roundQ (len : ℚ) := roundQ_nonneg _ (Nat.cast_nonneg _)
  have hm : 0 ≤ roundQ (roundQ (roundQ ((index + 1 : Nat) : ℚ) / roundQ (len : ℚ)) * 100) :=
    roundQ_nonneg _ (mul_nonneg (roundQ_nonneg _ (div_nonneg ha hb)) (by norm_num))
  have ht : (0 : ℚ) ≤ ((trunc (roundQ (roundQ (roundQ ((index + 1 : Nat) : ℚ) /
      roundQ (len : ℚ)) * 100)) : Int) : ℚ) := by
    exact_mod_cast trunc_nonneg _ hm
  exact roundQ_nonneg _ (div_nonneg ht (by norm_num))

/-- The derived positions of binary64 are non-decreasing in the index: every operation on
the way is monotone. -/
theorem derivedValue64_mono (len i j : Nat) (h : i ≤ j) :
    derivedValue64 len i ≤ derivedValue64 len j := by
  unfold derivedValue64
  have hb : 0 ≤ roundQ (len : ℚ) := roundQ_nonneg _ (Nat.cast_nonneg _)
  have hai : 0 ≤ roundQ ((i + 1 : Nat) : ℚ) := roundQ_nonneg _ (Nat.cast_nonneg _)
  have haj : 0 ≤ roundQ ((j + 1 : Nat) : ℚ) := roundQ_nonneg _ (Nat.cast_nonneg _)
  have h1 : roundQ ((i + 1 : Nat) : ℚ) ≤ roundQ ((j + 1 : Nat) : ℚ) :=
    roundQ_mono _ _ (by exact_mod_cast (by omega : i + 1 ≤ j + 1))
  have h2 := roundQ_mono _ _ (div_le_div_of_nonneg_right h1 hb)
  have h3 := roundQ_mono _ _ (mul_le_mul_of_nonneg_right h2 (by norm_num : (0 : ℚ) ≤ 100))
  have hmi : 0 ≤ roundQ (roundQ (roundQ ((i + 1 : Nat) : ℚ) / roundQ (len : ℚ)) * 100) :=
    roundQ_nonneg _ (mul_nonneg (roundQ_nonneg _ (div_nonneg hai hb)) (by norm_num))
  have hmj : 0 ≤ roundQ (roundQ (roundQ ((j + 1 : Nat) : ℚ) / roundQ (len : ℚ)) * 100) :=
    roundQ_nonneg _ (mul_nonneg (roundQ_nonneg _ (div_nonneg haj hb)) (by norm_num))
  have h4 : trunc (roundQ (roundQ (roundQ ((i + 1 : Nat) : ℚ) / roundQ (len : ℚ)) * 100)) ≤
      trunc (roundQ (roundQ (roundQ ((j + 1 : Nat) : ℚ) / roundQ (len : ℚ)) * 100)) := by
    rw [trunc_eq_floor _ hmi, trunc_eq_floor _ hmj]
    exact Int.floor_mono h3
  have h5 : ((trunc (roundQ (roundQ (roundQ ((i + 1 : Nat) : ℚ) / roundQ (len : ℚ)) * 100)) :
      Int) : ℚ) ≤ ((trunc (roundQ (roundQ (roundQ ((j + 1 : Nat) : ℚ) / roundQ (len : ℚ)) *
        100)) : Int) : ℚ) := by exact_mod_cast h4
  exact roundQ_mono _ _ (div_le_div_of_nonneg_right h5 (by norm_num))

/-- Lines 41-42 in binary64 for a stop inside the palette: every intermediate value is
finite, the conversion `int(...)` is in range, and the derived position is a value in
`[0, 1]`. -/
theorem derivedStep64_eq (env : FloatEnv) (len index : Nat) (h : index + 1 ≤ len)
    (hlen : len ≤ 2 ^ 63) :
    derivedStep64 env len index = .fin (derivedValue64 len index) ∧
      derivedValue64 len index ≤ 1 := by
  obtain ⟨ha, ha1⟩ := ofInt_pos ((index + 1 : Nat) : Int) (by omega) (by omega)
  obtain ⟨hb, hb1⟩ := ofInt_pos (len : Int) (by omega) (by omega)
  rw [Int.cast_natCast] at ha ha1 hb hb1
  have hab : roundQ ((index + 1 : Nat) : ℚ) ≤ roundQ (len : ℚ) :=
    roundQ_mono _ _ (by exact_mod_cast h)
  have hbpos : 0 < roundQ (len : ℚ) := by linarith
  have hr := round64_between 0 1 (roundQ ((index + 1 : Nat) : ℚ) / roundQ (len : ℚ))
    round64_zero round64_one (div_nonneg (by linarith) hbpos.le) ((div_le_one hbpos).mpr hab)
  have hm := round64_between 0 100
    (roundQ (roundQ ((index + 1 : Nat) : ℚ) / roundQ (len : ℚ)) * 100)
    round64_zero round64_hundred (by linarith [hr.2.1]) (by linarith [hr.2.2])
  set m := roundQ (roundQ (roundQ ((index + 1 : Nat) : ℚ) / roundQ (len : ℚ)) * 100) with hm_def
  have hfl := trunc_eq_floor m hm.2.1
  have ht0 : 0 ≤ trunc m := trunc_nonneg m hm.2.1
  have ht1 : trunc m ≤ 100 := by
    rw [hfl]
    have : ((⌊m⌋ : Int) : ℚ) ≤ 100 := le_trans (Int.floor_le m) hm.2.2
    exact_mod_cast this
  have hconv : toInt env (.fin m) = trunc m := by
    simp only [toInt]
    rw [if_pos ⟨by omega, by omega⟩]
  have hof : F64.ofInt (trunc m) = .fin ((trunc m : Int) : ℚ) := by
    have := round64_dyadic (trunc m) 0 (by rw [abs_of_nonneg ht0]; omega) (by norm_num)
      (by norm_num)
    simpa [F64.ofInt] using this
  have ht0q : (0 : ℚ) ≤ ((trunc m : Int) : ℚ) := by exact_mod_cast ht0
  have ht1q : ((trunc m : Int) : ℚ) ≤ 100 := by exact_mod_cast ht1
  have hd := round64_between 0 1 (((trunc m : Int) : ℚ) / 100) round64_zero round64_one
    (by positivity) (by linarith)
  constructor
  · unfold derivedStep64
    simp only
    rw [ha, hb, F64.div_fin _ _ hbpos.ne', hr.1, F64.mul_fin, hm.1, hconv, hof,
      F64.div_fin _ _ (by norm_num), hd.1]
    rfl
  · exact hd.2.2

/-- The positions computed in binary64 are finite: they are the effective positions for the
derivation rule `derivedValue64`. -/
theorem stepsFrom64_eq (env : FloatEnv) (len : Nat) (hlen : len ≤ 2 ^ 63) :
    ∀ (cs : List ColorStop) (index : Nat), index + cs.length ≤ len →
      stepsFrom64 env len index cs =
        (effectiveWith (derivedValue64 len) index cs).map F64.fin := by
  intro cs
  induction cs with
  | nil => intro index _; rfl
  | cons col rest ih =>
    intro index h
    have h1 : index + 1 ≤ len := by
      simp only [List.length_cons] at h
      omega
    have h2 : index + 1 + rest.length ≤ len := by
      simp only [List.length_cons] at h
      omega
    simp only [stepsFrom64, effectiveWith, List.map_cons, ih (index + 1) h2]
    congr 1
    split_ifs
    · exact (derivedStep64_eq env len index h1 hlen).1
    · rfl

theorem effectivePositions64_eq (env : FloatEnv) (colors : List ColorStop)
    (hlen : colors.length ≤ 2 ^ 63) :
    effectivePositions64 env colors =
      (effectiveWith (derivedValue64 colors.length) 0 colors).map F64.fin :=
  stepsFrom64_eq env colors.length hlen colors 0 (by omega)

theorem pairwise_le_map_fin (l : List ℚ) :
    List.Pairwise (fun a b => F64.le a b = true) (l.map F64.fin) ↔ List.Sorted (· ≤ ·) l := by
  unfold List.Sorted
  rw [List.pairwise_map]
  simp [F64.le]

theorem getD_map_fin (l : List ℚ) (k : Nat) :
    (l.map F64.fin).getD k (.fin 0) = .fin (l.getD k 0) := by
  by_cases hk : k < l.length
  · rw [List.getD_eq_getElem _ _ (by simpa using hk), List.getD_eq_getElem _ _ hk]
    simp
  · rw [List.getD_eq_default _ _ (by simpa using hk), List.getD_eq_default _ _ (by omega)]

/-- The equivalence of C11 for the positions as `InterpolateColors` computes them in
binary64: they are non-decreasing with first position 0 exactly when the first stored
position is 0 and every set stop other than the first lies between the computed positions
of its two neighbours; for stored positions in `[0, 1]` they all lie in `[0, 1]`. -/
theorem effectivePositions64_order (env : FloatEnv) (colors : List ColorStop)
    (hlen : colors.length ≤ 2 ^ 63) (h01 : ∀ c ∈ colors, 0 ≤ c.Step ∧ c.Step ≤ 1) :
    ((List.Pairwise (fun a b => F64.le a b = true) (effectivePositions64 env colors) ∧
        ∀ x ∈ (effectivePositions64 env colors).head?, x = .fin 0) ↔
      ((∀ c ∈ colors.head?, c.Step = 0) ∧
        ∀ (k : Nat) (hk : k < colors.length), k ≠ 0 → colors[k].Step ≠ 0 →
          F64.le ((effectivePositions64 env colors).getD (k - 1) (.fin 0))
              (.fin colors[k].Step) = true ∧
            (k + 1 < colors.length →
              F64.le (.fin colors[k].Step)
                ((effectivePositions64 env colors).getD (k + 1) (.fin 0)) = true))) ∧
    (∀ x ∈ effectivePositions64 env colors,
      F64.le (.fin 0) x = true ∧ F64.le x (.fin 1) = true) := by
  rw [effectivePositions64_eq env colors hlen]
  have hiff := effectiveWith_sorted_iff (derivedValue64 colors.length) colors
    (fun i j hij _ => derivedValue64_mono colors.length i j hij)
    (fun i _ => derivedValue64_nonneg colors.length i)
  have hunit := effectiveWith_unit_interval (derivedValue64 colors.length) colors
    (fun i hi => ⟨derivedValue64_nonneg colors.length i,
      (derivedStep64_eq env colors.length i (by omega) hlen).2⟩) h01
  refine ⟨?_, ?_⟩
  · rw [pairwise_le_map_fin]
    simp only [getD_map_fin, F64.le, decide_eq_true_eq]
    have hhead : (∀ x ∈ ((effectiveWith (derivedValue64 colors.length) 0 colors).map
        F64.fin).head?, x = F64.fin 0) ↔
        ∀ x ∈ (effectiveWith (derivedValue64 colors.length) 0 colors).head?, x = 0 := by
      cases effectiveWith (derivedValue64 colors.length) 0 colors with
      | nil => simp
      | cons a rest => simp
    rw [hhead]
    exact hiff
  · intro x hx
    obtain ⟨q, hq, rfl⟩ := List.mem_map.mp hx
    simpa [F64.le] using hunit q hq

/-- Index 28 of 50 unset stops: the ratio `29/50*100` is computed as `57.99999999999999`,
and the position is `0.57`, not the `0.58` of the exact formula. -/
theorem derivedStep64_differs :
    derivedStep64 roughEnv 50 28 = round64 (57 / 100) ∧
    ⌊((28 + 1 : Nat) : ℚ) / (50 : ℚ) * 100⌋ = 58 := by
  decide!

/-- C11 (amended): for a palette whose stored positions lie in `[0, 1]`, the effective
positions that `InterpolateColors` computes, by the formula of the claim in exact arithmetic
and equally as the code computes them in binary64
(`float64(int(float64(index+1)/float64(len)*100))/100` for an unset stop other than the
first), are non-decreasing with first position 0 exactly when the first stored position is
0 and every set stop other than the first has its stored position between the effective
positions of its two neighbours; they always lie in `[0, 1]`. -/
theorem effectivePositions_sorted_iff (env : FloatEnv) (colors : List ColorStop)
    (h01 : ∀ c ∈ colors, 0 ≤ c.Step ∧ c.Step ≤ 1) (hlen : colors.length ≤ 2 ^ 63) :
    (((List.Sorted (· ≤ ·) (effectivePositions env colors) ∧
          ∀ x ∈ (effectivePositions env colors).head?, x = 0) ↔
        ((∀ c ∈ colors.head?, c.Step = 0) ∧
          ∀ (k : Nat) (hk : k < colors.length), k ≠ 0 → colors[k].Step ≠ 0 →
            (effectivePositions env colors).getD (k - 1) 0 ≤ colors[k].Step ∧
              (k + 1 < colors.length →
                colors[k].Step ≤ (effectivePositions env colors).getD (k + 1) 0))) ∧
      (∀ x ∈ effectivePositions env colors, 0 ≤ x ∧ x ≤ 1)) ∧
    (((List.Pairwise (fun a b => F64.le a b = true) (effectivePositions64 env colors) ∧
          ∀ x ∈ (effectivePositions64 env colors).head?, x = .fin 0) ↔
        ((∀ c ∈ colors.head?, c.Step = 0) ∧
          ∀ (k : Nat) (hk : k < colors.length), k ≠ 0 → colors[k].Step ≠ 0 →
            F64.le ((effectivePositions64 env colors).getD (k - 1) (.fin 0))
                (.fin colors[k].Step) = true ∧
              (k + 1 < colors.length →
                F64.le (.fin colors[k].Step)
                  ((effectivePositions64 env colors).getD (k + 1) (.fin 0)) = true))) ∧
      (∀ x ∈ effectivePositions64 env colors,
        F64.le (.fin 0) x = true ∧ F64.le x (.fin 1) = true)) :=
  ⟨effectivePositions_order env colors h01, effectivePositions64_order env colors hlen h01⟩

theorem effectivePositions_sorted_iff_witness :
    (∀ c ∈ explicitStops, 0 ≤ c.Step ∧ c.Step ≤ 1) ∧ explicitStops.length ≤ 2 ^ 63 ∧
    effectivePositions roughEnv explicitStops =
      [0, 3602879701896397 / 36028797018963968, 1] ∧
    (List.Sorted (· ≤ ·) (effectivePositions roughEnv explicitStops) ∧
      ∀ x ∈ (effectivePositions roughEnv explicitStops).head?, x = 0) ∧
    effectivePositions64 roughEnv explicitStops =
      [.fin 0, .fin (3602879701896397 / 36028797018963968), .fin 1] ∧
    (List.Pairwise (fun a b => F64.le a b = true) (effectivePositions64 roughEnv explicitStops) ∧
      ∀ x ∈ (effectivePositions64 roughEnv explicitStops).head?, x = .fin 0) :=
  have h01 : ∀ c ∈ explicitStops, 0 ≤ c.Step ∧ c.Step ≤ 1 := by
    intro c hc
    simp only [explicitStops, List.mem_cons, List.mem_singleton, List.not_mem_nil,
      or_false] at hc
    rcases hc with rfl | rfl | rfl <;> norm_num
  have hlen : explicitStops.length ≤ 2 ^ 63 := by
    simp [explicitStops]
  have hsteps : effectivePositions roughEnv explicitStops =
      [0, 3602879701896397 / 36028797018963968, 1] := by
    rw [effectivePositions_eq]
    norm_num [explicitStops, effectiveFrom, effectivePosition]
  have hsteps64 : effectivePositions64 roughEnv explicitStops =
      [.fin 0, .fin (3602879701896397 / 36028797018963968), .fin 1] := by
    norm_num [effectivePositions64, explicitStops, stepsFrom64]
  have hfirst : ∀ c ∈ explicitStops.head?, c.Step = 0 := by
    intro c hc
    simp only [explicitStops, List.head?_cons, Option.mem_def, Option.some.injEq] at hc
    subst hc
    rfl
  have hnb : ∀ (k : Nat) (hk : k < explicitStops.length), k ≠ 0 → explicitStops[k].Step ≠ 0 →
      (effectivePositions roughEnv explicitStops).getD (k - 1) 0 ≤ explicitStops[k].Step ∧
        (k + 1 < explicitStops.length →
          explicitStops[k].Step ≤ (effectivePositions roughEnv explicitStops).getD (k + 1) 0) := by
    intro k hk hk0 _
    rw [hsteps]
    have hk3 : k < 3 := hk
    interval_cases k
    · exact absurd rfl hk0
    · norm_num [explicitStops]
    · norm_num [explicitStops]
  have hnb64 : ∀ (k : Nat) (hk : k < explicitStops.length), k ≠ 0 →
      explicitStops[k].Step ≠ 0 →
      F64.le ((effectivePositions64 roughEnv explicitStops).getD (k - 1) (.fin 0))
          (.fin explicitStops[k].Step) = true ∧
        (k + 1 < explicitStops.length →
          F64.le (.fin explicitStops[k].Step)
            ((effectivePositions64 roughEnv explicitStops).getD (k + 1) (.fin 0)) = true) := by
    intro k hk hk0 _
    rw [hsteps64]
    have hk3 : k < 3 := hk
    interval_cases k
    · exact absurd rfl hk0
    · norm_num [explicitStops, F64.le]
    · norm_num [explicitStops, F64.le]
  have h := effectivePositions_sorted_iff roughEnv explicitStops h01 hlen
  ⟨h01, hlen, hsteps, (h.1.1).2 ⟨hfirst, hnb⟩, hsteps64, (h.2.1).2 ⟨hfirst, hnb64⟩⟩

/-- C20: for a palette of `n >= 1` stops whose stored positions are all 0, the effective
positions computed by `InterpolateColors` are 0 for the first stop and
`floor((i+1)*100/n)/100` for the stop of index `i >= 1`; they are non-decreasing, all lie
in `[0, 1]`, and for `n >= 2` the last one is exactly 1. -/
theorem effectivePositions_all_unset (env : FloatEnv) (colors : List ColorStop)
    (hn : 1 ≤ colors.length) (h0 : ∀ c ∈ colors, c.Step = 0) :
    effectivePositions env colors = (List.range colors.length).map (fun i =>
      if i = 0 then 0
      else ((⌊((i + 1 : Nat) : ℚ) * 100 / (colors.length : ℚ)⌋ : Int) : ℚ) / 100) ∧
    List.Sorted (· ≤ ·) (effectivePositions env colors) ∧
    (∀ x ∈ effectivePositions env colors, 0 ≤ x ∧ x ≤ 1) ∧
    (2 ≤ colors.length → (effectivePositions env colors).getLast? = some 1) := by
  have hlen := effectivePositions_length env colors
  have hget : ∀ (k : Nat) (hk : k < colors.length) (hk2 : k < (effectivePositions env colors).length),
      (effectivePositions env colors)[k] =
        if k = 0 then 0 else derivedPosition colors.length k := by
    intro k hk hk2
    rw [effectivePositions_getElem env colors k hk hk2]
    have hz : colors[k].Step = 0 := h0 _ (List.getElem_mem _)
    unfold effectivePosition
    by_cases hk0 : k = 0
    · rw [if_neg (fun h => h.2 hk0), if_pos hk0, hz]
    · rw [if_pos ⟨hz, hk0⟩, if_neg hk0]
  refine ⟨?_, ?_, ?_, ?_⟩
  · apply List.ext_getElem
    · simp [hlen]
    · intro k hk1 hk2
      have hk : k < colors.length := by omega
      rw [hget k hk hk1]
      simp only [List.getElem_map, List.getElem_range, derivedPosition]
      have hring : ((k + 1 : Nat) : ℚ) / (colors.length : ℚ) * 100 =
          ((k + 1 : Nat) : ℚ) * 100 / (colors.length : ℚ) := by ring
      rw [hring]
  · apply effectivePositions_sorted_of_window env colors
    · intro c hc
      exact h0 c (List.mem_of_mem_head? hc)
    · intro k hk _ hset
      exact absurd (h0 _ (List.getElem_mem _)) hset
  · exact effectivePositions_unit_interval env colors
      (fun c hc => by rw [h0 c hc]; norm_num)
  · intro h2
    rw [List.getLast?_eq_getElem?, hlen,
      List.getElem?_eq_getElem (by omega : colors.length - 1 < (effectivePositions env colors).length),
      hget (colors.length - 1) (by omega) (by omega), if_neg (by omega),
      derivedPosition_last colors.length hn]

theorem effectivePositions_all_unset_witness :
    1 ≤ threeUnset.length ∧ (∀ c ∈ threeUnset, c.Step = 0) ∧
    (effectivePositions roughEnv threeUnset = (List.range threeUnset.length).map (fun i =>
      if i = 0 then 0
      else ((⌊((i + 1 : Nat) : ℚ) * 100 / (threeUnset.length : ℚ)⌋ : Int) : ℚ) / 100) ∧
    List.Sorted (· ≤ ·) (effectivePositions roughEnv threeUnset) ∧
    (∀ x ∈ effectivePositions roughEnv threeUnset, 0 ≤ x ∧ x ≤ 1) ∧
    (2 ≤ threeUnset.length → (effectivePositions roughEnv threeUnset).getLast? = some 1)) :=
  have hn : 1 ≤ threeUnset.length := by decide
  have h0 : ∀ c ∈ threeUnset, c.Step = 0 := by
    intro c hc
    simp only [threeUnset, List.mem_cons, List.mem_singleton, List.not_mem_nil,
      or_false] at hc
    rcases hc with rfl | rfl | rfl <;> rfl
  ⟨hn, h0, effectivePositions_all_unset roughEnv threeUnset hn h0⟩

/-! ## The blend as an affine map -/

theorem linearInterpolation_intModEq (c1 c2 mu : Nat) (hmu : mu < 2 ^ 32) :
    ((linearInterpolation c1 c2 mu : Nat) : Int) ≡
      (c1 : Int) + (mu : Int) * ((c2 : Int) - (c1 : Int)) [ZMOD 2 ^ 32] := by
  have hK : ((u32 (1 + (2 ^ 32 - u32 mu)) : Nat) : Int) ≡ 1 - (mu : Int) [ZMOD 2 ^ 32] := by
    unfold u32 Int.ModEq
    rw [Nat.mod_eq_of_lt hmu]
    omega
  have hlin : ((linearInterpolation c1 c2 mu : Nat) : Int) ≡
      (c1 : Int) * ((u32 (1 + (2 ^ 32 - u32 mu)) : Nat) : Int) + (c2 : Int) * (mu : Int)
        [ZMOD 2 ^ 32] := by
    unfold linearInterpolation
    have e : ∀ x : Nat, ((u32 x : Nat) : Int) ≡ (x : Int) [ZMOD 2 ^ 32] := by
      intro x
      unfold u32
      push_cast
      exact Int.mod_modEq _ _
    refine (e _).trans ?_
    push_cast
    refine Int.ModEq.add ?_ ?_
    · have := e (c1 * u32 (1 + (2 ^ 32 - u32 mu)))
      push_cast at this
      exact this
    · have := e (c2 * mu)
      push_cast at this
      exact this
  refine hlin.trans ?_
  have h2 : (c1 : Int) * ((u32 (1 + (2 ^ 32 - u32 mu)) : Nat) : Int) + (c2 : Int) * (mu : Int) ≡
      (c1 : Int) * (1 - (mu : Int)) + (c2 : Int) * (mu : Int) [ZMOD 2 ^ 32] :=
    Int.ModEq.add (Int.ModEq.mul_left _ hK) (Int.ModEq.refl _)
  refine h2.trans ?_
  have hring : (c1 : Int) * (1 - (mu : Int)) + (c2 : Int) * (mu : Int) =
      (c1 : Int) + (mu : Int) * ((c2 : Int) - (c1 : Int)) := by ring
  rw [hring]

theorem linearInterpolation_lt (c1 c2 mu : Nat) : linearInterpolation c1 c2 mu < 2 ^ 32 :=
  Nat.mod_lt _ (by norm_num)

/-- C18: on `uint32` operands `linearInterpolation c1 c2 mu` is `c1 + mu*(c2 - c1)` modulo
`2 ^ 32`, whatever the wrap-around of `1 - mu`; hence weight 0 gives `c1`, weight 1 gives
`c2`, and blending a colour with itself gives that colour for every weight. -/
theorem linearInterpolation_affine (c1 c2 mu : Nat) (h1 : c1 < 2 ^ 32) (h2 : c2 < 2 ^ 32)
    (hmu : mu < 2 ^ 32) :
    ((linearInterpolation c1 c2 mu : Nat) : Int) =
      ((c1 : Int) + (mu : Int) * ((c2 : Int) - (c1 : Int))) % 2 ^ 32 ∧
    linearInterpolation c1 c2 0 = c1 ∧
    linearInterpolation c1 c2 1 = c2 ∧
    linearInterpolation c1 c1 mu = c1 := by
  have key : ∀ a b : Nat, ((linearInterpolation a b mu : Nat) : Int) =
      ((a : Int) + (mu : Int) * ((b : Int) - (a : Int))) % 2 ^ 32 := by
    intro a b
    have h := linearInterpolation_intModEq a b mu hmu
    have hlt := linearInterpolation_lt a b mu
    unfold Int.ModEq at h
    rw [← h]
    have hnn : (0 : Int) ≤ ((linearInterpolation a b mu : Nat) : Int) := Int.natCast_nonneg _
    have hlt2 : ((linearInterpolation a b mu : Nat) : Int) < 2 ^ 32 := by exact_mod_cast hlt
    exact (Int.emod_eq_of_lt hnn hlt2).symm
  refine ⟨key c1 c2, linearInterpolation_zero c1 c2 h1, linearInterpolation_one c1 c2 h2, ?_⟩
  have h := key c1 c1
  have hz : ((c1 : Int) + (mu : Int) * ((c1 : Int) - (c1 : Int))) = (c1 : Int) := by ring
  rw [hz, Int.emod_eq_of_lt (Int.natCast_nonneg _) (by exact_mod_cast h1)] at h
  exact_mod_cast h

theorem linearInterpolation_affine_witness :
    (0x102030ff : Nat) < 2 ^ 32 ∧ (0x405060ff : Nat) < 2 ^ 32 ∧ (3 : Nat) < 2 ^ 32 ∧
    (((linearInterpolation 0x102030ff 0x405060ff 3 : Nat) : Int) =
      (((0x102030ff : Nat) : Int) + ((3 : Nat) : Int) *
        (((0x405060ff : Nat) : Int) - ((0x102030ff : Nat) : Int))) % 2 ^ 32 ∧
    linearInterpolation 0x102030ff 0x405060ff 0 = 0x102030ff ∧
    linearInterpolation 0x102030ff 0x405060ff 1 = 0x405060ff ∧
    linearInterpolation 0x102030ff 0x102030ff 3 = 0x102030ff) :=
  ⟨by norm_num, by norm_num, by norm_num,
    linearInterpolation_affine 0x102030ff 0x405060ff 3 (by norm_num) (by norm_num)
      (by norm_num)⟩

/-! ## Renderer: configuration and buffer dimensions -/

theorem mapE_length {α β : Type} (f : α → Except Fault β) :
    ∀ (l : List α) (bs : List β), mapE f l = Except.ok bs → bs.length = l.length := by
  intro l
  induction l with
  | nil =>
    intro bs h
    simp only [mapE, Except.ok.injEq] at h
    subst h
    rfl
  | cons a rest ih =>
    intro bs h
    unfold mapE at h
    cases hfa : f a with
    | error e => rw [hfa] at h; cases h
    | ok b =>
      rw [hfa] at h
      cases hrest : mapE f rest with
      | error e => rw [hrest] at h; cases h
      | ok cs =>
        rw [hrest] at h
        simp only [Except.ok.injEq] at h
        subst h
        simp [ih cs hrest]

theorem mapE_mem {α β : Type} (f : α → Except Fault β) :
    ∀ (l : List α) (bs : List β), mapE f l = Except.ok bs →
      ∀ b ∈ bs, ∃ a ∈ l, f a = Except.ok b := by
  intro l
  induction l with
  | nil =>
    intro bs h b hb
    simp only [mapE, Except.ok.injEq] at h
    subst h
    cases hb
  | cons a rest ih =>
    intro bs h b hb
    unfold mapE at h
    cases hfa : f a with
    | error e => rw [hfa] at h; cases h
    | ok b0 =>
      rw [hfa] at h
      cases hrest : mapE f rest with
      | error e => rw [hrest] at h; cases h
      | ok cs =>
        rw [hrest] at h
        simp only [Except.ok.injEq] at h
        subst h
        rcases List.mem_cons.mp hb with hb0 | hbs
        · subst hb0
          exact ⟨a, List.mem_cons_self _ _, hfa⟩
        · obtain ⟨a2, ha2, hf2⟩ := ih cs hrest b hbs
          exact ⟨a2, List.mem_cons_of_mem _ ha2, hf2⟩

/-- A buffer that `fillBuffer` returns has `Height` rows of `Width` pixels. -/
theorem fillBuffer_dimensions (env : FloatEnv) (s : Service) (point : Int → Int → ℚ × ℚ)
    (maxIteration : Int) (colors : List RGBA) (image : List (List RGBA))
    (h : fillBuffer env s point maxIteration colors = Except.ok image) :
    image.length = s.Height.toNat ∧ ∀ row ∈ image, row.length = s.Width.toNat := by
  unfold fillBuffer at h
  split at h
  · cases h
  · constructor
    · have := mapE_length _ _ _ h
      simpa using this
    · intro row hrow
      obtain ⟨iy, _, hiy⟩ := mapE_mem _ _ _ h row hrow
      have := mapE_length _ _ _ hiy
      simpa using this

/-- When `Render` returns, the configuration is the oversampled one and the buffer is the
one filled for it. -/
theorem Render_ok (env : FloatEnv) (s : Service) (maxIteration : Int) (colors : List RGBA)
    (s' : Service) (rgbaImage : List (List RGBA))
    (h : Render env s maxIteration colors = Except.ok (s', rgbaImage)) :
    s' = oversample s ∧
      fillBuffer env (oversample s) (Render.point (oversample s) (bounds (oversample s)))
        maxIteration colors = Except.ok rgbaImage := by
  unfold Render at h
  simp only at h
  split at h
  · cases h
  · next img himg =>
    simp only [Except.ok.injEq, Prod.mk.injEq] at h
    obtain ⟨h1, h2⟩ := h
    subst h1 h2
    exact ⟨rfl, himg⟩

/-- With a gradient of one colour the guard of the colourizer fails for every finite
smoothed index, so the pixel is left untouched. -/
theorem pixelColor_oneColor (env : FloatEnv) (c : RGBA) (maxIteration : Int) (p : ℚ × ℚ)
    (norm : ℚ) (it : Int) (hm : mandelIteration p.1 p.2 maxIteration = some (norm, it))
    (hpos : 0 < norm)
    (hrange : trunc |((maxIteration - it : Int) : ℚ) + env.Log norm| < 2 ^ 63) :
    pixelColor env [c] maxIteration p = Except.ok ⟨0, 0, 0, 0⟩ := by
  have h0 : 0 ≤ trunc |((maxIteration - it : Int) : ℚ) + env.Log norm| :=
    trunc_nonneg _ (abs_nonneg _)
  have hidx : toInt env (mathAbs (F64.addFin ((maxIteration - it : Int) : ℚ)
      (mathLog env norm))) = trunc |((maxIteration - it : Int) : ℚ) + env.Log norm| := by
    have hlow : (-2 ^ 63 : Int) ≤ trunc |((maxIteration - it : Int) : ℚ) + env.Log norm| := by
      omega
    simp only [mathLog, hpos, if_true, F64.addFin, mathAbs, toInt]
    rw [if_pos ⟨hlow, hrange⟩]
  have hguard : ¬ trunc |((maxIteration - it : Int) : ℚ) + env.Log norm| <
      (([c] : List RGBA).length : Int) - 1 := by
    simp only [List.length_singleton, Nat.cast_one, sub_self]
    omega
  unfold pixelColor
  rw [hm]
  simp only
  unfold colorize
  simp only [hidx]
  rw [if_neg hguard]
  rfl

/-- The evaluator with cap 1, at every point: the one round starts at the origin and does
not escape, and the result is `((cx^2 + cy^2)/2, 1)`. -/
theorem mandelIteration_cap_one (cx cy : ℚ) :
    mandelIteration cx cy 1 = some ((cx * cx + cy * cy) / 2, 1) := by
  simp [mandelIteration, mandelLoop]

theorem pixelColor_far (cx cy : ℚ) (h1 : 1 < (cx * cx + cy * cy) / 2)
    (h2 : (cx * cx + cy * cy) / 2 < 2 ^ 62) :
    pixelColor roughEnv oneColor 1 (cx, cy) = Except.ok ⟨0, 0, 0, 0⟩ := by
  apply pixelColor_oneColor roughEnv _ 1 (cx, cy) ((cx * cx + cy * cy) / 2) 1
    (mandelIteration_cap_one cx cy) (by linarith)
  have hnn : (0 : ℚ) ≤ |(((1 : Int) - 1 : Int) : ℚ) + roughEnv.Log ((cx * cx + cy * cy) / 2)| :=
    abs_nonneg _
  rw [trunc_eq_floor _ hnn]
  have hval : |(((1 : Int) - 1 : Int) : ℚ) + roughEnv.Log ((cx * cx + cy * cy) / 2)| <
      2 ^ 63 := by
    simp only [roughEnv]
    rw [abs_lt]
    constructor <;> norm_num <;> linarith
  have : ((⌊|(((1 : Int) - 1 : Int) : ℚ) + roughEnv.Log ((cx * cx + cy * cy) / 2)|⌋ : Int) : ℚ) <
      2 ^ 63 := lt_of_le_of_lt (Int.floor_le _) hval
  exact_mod_cast this

/-- A run of `Render` that returns: the configuration `farConfig` with cap 1 and a gradient
of one colour. The four pixels map to `(9.5, -0.5)`, `(10.5, -0.5)`, `(9.5, 0.5)` and
`(10.5, 0.5)`, their smoothed indices are finite and at least 0, the guard fails and the
pixels stay untouched. -/
theorem Render_farRun :
    Render roughEnv farConfig 1 oneColor =
      Except.ok (oversample farConfig,
        [[⟨0, 0, 0, 0⟩, ⟨0, 0, 0, 0⟩], [⟨0, 0, 0, 0⟩, ⟨0, 0, 0, 0⟩]]) := by
  have hW : (oversample farConfig).Width = 2 := by decide
  have hH : (oversample farConfig).Height = 2 := by decide
  have hp : ∀ ix iy : Nat, ix < 2 → iy < 2 →
      pixelColor roughEnv oneColor 1
        (Render.point (oversample farConfig) (bounds (oversample farConfig)) (ix : Int) (iy : Int)) =
        Except.ok ⟨0, 0, 0, 0⟩ := by
    intro ix iy hix hiy
    simp only [Render.point, planeCoord, bounds, hW, hH]
    apply pixelColor_far
    · interval_cases ix <;> interval_cases iy <;>
        norm_num [oversample, farConfig, abs_of_pos]
    · interval_cases ix <;> interval_cases iy <;>
        norm_num [oversample, farConfig, abs_of_pos]
  unfold Render
  simp only [fillBuffer, hW, hH]
  simp only [show ¬ ((2 : Int) < 0 ∨ (2 : Int) < 0) by decide, if_false]
  have hr : List.range (2 : Int).toNat = [0, 1] := by decide
  rw [hr]
  simp only [mapE, hp 0 0 (by decide) (by decide), hp 1 0 (by decide) (by decide),
    hp 0 1 (by decide) (by decide), hp 1 1 (by decide) (by decide)]

/-- C12 as stated fails: `Render` on a 1 x 1 configuration with oversampling factor 2
returns with `Width = 2` and `Height = 2` stored in the service. -/
theorem Render_changes_dimensions :
    ∃ (s' : Service) (rgbaImage : List (List RGBA)),
      Render roughEnv farConfig 1 oneColor = Except.ok (s', rgbaImage) ∧
      farConfig.Width = 1 ∧ s'.Width = 2 ∧ farConfig.Height = 1 ∧ s'.Height = 2 :=
  ⟨oversample farConfig, _, Render_farRun, rfl, by decide, rfl, by decide⟩

/-- C12, amended: when `Render` returns, `ImageSmoothness`, `XPos`, `YPos`, `EscapeRadius` and
`MaxIteration` of the service are unchanged, while `Width` and `Height` hold the oversampled
values `Width*ImageSmoothness` and `Height*ImageSmoothness`, which are the dimensions of the
buffer; a second `Render` on the same service therefore multiplies them by the factor once
more. -/
theorem Render_configuration (env : FloatEnv) (s : Service) (maxIteration : Int)
    (colors : List RGBA) (s' : Service) (rgbaImage : List (List RGBA))
    (h : Render env s maxIteration colors = Except.ok (s', rgbaImage)) :
    s'.ImageSmoothness = s.ImageSmoothness ∧ s'.XPos = s.XPos ∧ s'.YPos = s.YPos ∧
    s'.EscapeRadius = s.EscapeRadius ∧ s'.MaxIteration = s.MaxIteration ∧
    s'.Width = int64 (s.Width * s.ImageSmoothness) ∧
    s'.Height = int64 (s.Height * s.ImageSmoothness) ∧
    rgbaImage.length = s'.Height.toNat ∧ (∀ row ∈ rgbaImage, row.length = s'.Width.toNat) ∧
    (∀ (s'' : Service) (second : List (List RGBA)),
      Render env s' maxIteration colors = Except.ok (s'', second) →
        s''.Width = int64 (int64 (s.Width * s.ImageSmoothness) * s.ImageSmoothness) ∧
        s''.Height = int64 (int64 (s.Height * s.ImageSmoothness) * s.ImageSmoothness) ∧
        second.length = s''.Height.toNat ∧ (∀ row ∈ second, row.length = s''.Width.toNat)) := by
  obtain ⟨hs, hbuf⟩ := Render_ok env s maxIteration colors s' rgbaImage h
  have hdim := fillBuffer_dimensions env _ _ maxIteration colors rgbaImage hbuf
  subst hs
  refine ⟨rfl, rfl, rfl, rfl, rfl, rfl, rfl, hdim.1, hdim.2, ?_⟩
  intro s'' second h2
  obtain ⟨hs2, hbuf2⟩ := Render_ok env _ maxIteration colors s'' second h2
  have hdim2 := fillBuffer_dimensions env _ _ maxIteration colors second hbuf2
  subst hs2
  exact ⟨rfl, rfl, hdim2.1, hdim2.2⟩

theorem Render_configuration_witness :
    Render roughEnv farConfig 1 oneColor =
      Except.ok (oversample farConfig,
        [[⟨0, 0, 0, 0⟩, ⟨0, 0, 0, 0⟩], [⟨0, 0, 0, 0⟩, ⟨0, 0, 0, 0⟩]]) ∧
    (oversample farConfig).Width = int64 (farConfig.Width * farConfig.ImageSmoothness) ∧
    (oversample farConfig).Height = int64 (farConfig.Height * farConfig.ImageSmoothness) :=
  have h := Render_configuration roughEnv farConfig 1 oneColor (oversample farConfig)
    [[⟨0, 0, 0, 0⟩, ⟨0, 0, 0, 0⟩], [⟨0, 0, 0, 0⟩, ⟨0, 0, 0, 0⟩]] Render_farRun
  ⟨Render_farRun, h.2.2.2.2.2.1, h.2.2.2.2.2.2.1⟩

/-! ## Renderer: viewport and pixel-to-plane mapping -/

/-- Half the extent: `EscapeRadius/2.0` is finite and lies between 0 and the extent. -/
theorem half_extent (r : ℚ) (hr : round64 r = .fin r) (hr0 : 0 ≤ r) :
    F64.div (.fin r) (.fin 2) = .fin (roundQ (r / 2)) ∧ 0 ≤ roundQ (r / 2) ∧
      roundQ (r / 2) ≤ r := by
  rw [F64.div_fin r 2 (by norm_num)]
  exact round64_between 0 r (r / 2) round64_zero hr (by linarith) (by linarith)

/-- The bounds of line 96 for a negative centre: `xmin` is `-Inf` or a finite value at most
the centre, and the sum under `math.Abs` is finite and at least the centre. -/
theorem bounds64_negative_centre (x r : ℚ) (hx : round64 x = .fin x) (hr : round64 r = .fin r)
    (hr0 : 0 ≤ r) (hx0 : x < 0) :
    (xmin64 (.fin x) (.fin r) = .negInf ∨
      ∃ m : ℚ, xmin64 (.fin x) (.fin r) = .fin m ∧ m ≤ x) ∧
    ∃ s : ℚ, F64.add (.fin x) (F64.div (.fin r) (.fin 2)) = .fin s ∧ x ≤ s ∧
      xmax64 (.fin x) (.fin r) = .fin |s| := by
  obtain ⟨hh, hh0, hh1⟩ := half_extent r hr hr0
  obtain ⟨ex, bx1, bx2⟩ := roundQ_of_round64 x hx
  constructor
  · unfold xmin64
    rw [hh, F64.sub_fin]
    have m := roundQ_mono (x - roundQ (r / 2)) x (by linarith)
    rw [ex] at m
    rcases round64_cases (x - roundQ (r / 2)) with ⟨_, h2⟩ | ⟨h1, _⟩ | ⟨h1, _, _⟩
    · linarith
    · exact Or.inl h1
    · exact Or.inr ⟨_, h1, m⟩
  · have hb := round64_between x r (x + roundQ (r / 2)) hx hr (by linarith) (by linarith)
    refine ⟨roundQ (x + roundQ (r / 2)), ?_, hb.2.1, ?_⟩
    · rw [hh, F64.add_fin]
      exact hb.1
    · unfold xmax64
      rw [hh, F64.add_fin, hb.1]
      rfl

/-- A negative computed sum `XPos + EscapeRadius/2.0` needs a negative centre. -/
theorem centre_neg_of_sum_neg (x r : ℚ) (hr : round64 r = .fin r) (hr0 : 0 ≤ r)
    (hs : F64.lt (F64.add (.fin x) (F64.div (.fin r) (.fin 2))) (.fin 0) = true) : x < 0 := by
  obtain ⟨hh, hh0, _⟩ := half_extent r hr hr0
  by_contra hx
  have h0 : (0 : ℚ) ≤ x + roundQ (r / 2) := by linarith [not_lt.mp hx]
  have m := round64_mono 0 _ h0
  rw [round64_zero] at m
  rw [hh, F64.add_fin, F64.lt_false_of_le _ _ m] at hs
  exact absurd hs (by simp)

theorem bounds64_order (x r : ℚ) (hx : round64 x = .fin x) (hr : round64 r = .fin r)
    (hr0 : 0 ≤ r) (hx0 : x < 0) :
    F64.lt (xmin64 (.fin x) (.fin r)) (.fin 0) = true ∧
    F64.le (.fin 0) (xmax64 (.fin x) (.fin r)) = true ∧
    F64.lt (xmin64 (.fin x) (.fin r)) (xmax64 (.fin x) (.fin r)) = true ∧
    F64.le (xmax64 (.fin x) (.fin r)) (xmin64 (.fin x) (.fin r)) = false := by
  obtain ⟨hmin, s, _, _, hmax⟩ := bounds64_negative_centre x r hx hr hr0 hx0
  have hs : (0 : ℚ) ≤ |s| := abs_nonneg s
  rw [hmax]
  rcases hmin with h | ⟨m, h, hm⟩
  · rw [h]
    simp [F64.lt, F64.le, hs]
  · rw [h]
    simp only [F64.lt, F64.le, decide_eq_true_eq, decide_eq_false_iff_not, not_le]
    exact ⟨by linarith, hs, by linarith, by linarith⟩

/-- C13 (counterexample): no centre and radius do what the claim says. In exact arithmetic
`x + radius/2 < 0` gives `x - radius/2 < 0 < |x + radius/2|`; in binary64, for every pair of
`float64` values `x`, `radius > 0` whose sum `x + radius/2` is negative (exactly, or as
computed), `xmin` is negative and `xmax` is not, so `xmax <= xmin` is false. -/
theorem bounds64_never_collapse :
    (¬ ∃ x r : ℚ, 0 < r ∧ x + r / 2 < 0 ∧ |x + r / 2| ≤ x - r / 2) ∧
    ¬ ∃ x r : ℚ, round64 x = .fin x ∧ round64 r = .fin r ∧ 0 < r ∧
      (x + r / 2 < 0 ∨
        F64.lt (F64.add (.fin x) (F64.div (.fin r) (.fin 2))) (.fin 0) = true) ∧
      F64.le (xmax64 (.fin x) (.fin r)) (xmin64 (.fin x) (.fin r)) = true := by
  constructor
  · rintro ⟨x, r, hr0, hs, h⟩
    have := abs_nonneg (x + r / 2)
    linarith
  · rintro ⟨x, r, hx, hr, hr0, hs, h⟩
    have hx0 : x < 0 := by
      rcases hs with hs | hs
      · linarith
      · exact centre_neg_of_sum_neg x r hr hr0.le hs
    rw [(bounds64_order x r hx hr hr0.le hx0).2.2.2] at h
    exact absurd h (by simp)

/-- C13 (amended): for `float64` values `x` and `radius > 0` whose computed sum
`x + radius/2` is negative, the bounds of `Render` neither collapse nor invert: `xmin` is
negative, `xmax` is the positive value `-(x + radius/2)`, and `xmin < xmax`. The viewport is
asymmetric about `x` instead: its upper bound is the reflection of `x + radius/2`. -/
theorem bounds64_asymmetric (x r : ℚ) (hx : round64 x = .fin x) (hr : round64 r = .fin r)
    (hr0 : 0 < r)
    (hs : F64.lt (F64.add (.fin x) (F64.div (.fin r) (.fin 2))) (.fin 0) = true) :
    F64.lt (xmin64 (.fin x) (.fin r)) (.fin 0) = true ∧
    F64.lt (.fin 0) (xmax64 (.fin x) (.fin r)) = true ∧
    xmax64 (.fin x) (.fin r) = F64.neg (F64.add (.fin x) (F64.div (.fin r) (.fin 2))) ∧
    F64.lt (xmin64 (.fin x) (.fin r)) (xmax64 (.fin x) (.fin r)) = true := by
  have hx0 := centre_neg_of_sum_neg x r hr hr0.le hs
  obtain ⟨h1, _, h3, _⟩ := bounds64_order x r hx hr hr0.le hx0
  obtain ⟨_, s, hsum, _, hmax⟩ := bounds64_negative_centre x r hx hr hr0.le hx0
  rw [hsum] at hs ⊢
  have hs0 : s < 0 := by simpa [F64.lt] using hs
  rw [hmax, abs_of_neg hs0]
  refine ⟨h1, ?_, rfl, ?_⟩
  · simp only [F64.lt, decide_eq_true_eq]
    linarith
  · rw [hmax, abs_of_neg hs0] at h3
    exact h3

theorem bounds64_asymmetric_witness :
    round64 (-1) = .fin (-1) ∧ round64 1 = .fin 1 ∧ (0 : ℚ) < 1 ∧
    F64.lt (F64.add (.fin (-1)) (F64.div (.fin 1) (.fin 2))) (.fin 0) = true ∧
    (F64.lt (xmin64 (.fin (-1)) (.fin 1)) (.fin 0) = true ∧
      F64.lt (.fin 0) (xmax64 (.fin (-1)) (.fin 1)) = true ∧
      xmax64 (.fin (-1)) (.fin 1) = F64.neg (F64.add (.fin (-1)) (F64.div (.fin 1) (.fin 2))) ∧
      F64.lt (xmin64 (.fin (-1)) (.fin 1)) (xmax64 (.fin (-1)) (.fin 1)) = true) :=
  ⟨by decide!, by decide!, by norm_num, by decide!,
    bounds64_asymmetric (-1) 1 (by decide!) (by decide!) (by norm_num) (by decide!)⟩

/-- The bounds can coincide through rounding alone, where the clamp does nothing: at
`x = 1`, `radius = 1e-20` both are `1.0`. -/
theorem bounds64_collapse_by_rounding :
    xmin64 (.fin 1) (round64 (1 / 10 ^ 20)) = .fin 1 ∧
    xmax64 (.fin 1) (round64 (1 / 10 ^ 20)) = .fin 1 := by
  decide!

theorem planeCoord_mono (lo hi : ℚ) (n : Int) (hn : 2 ≤ n) (hb : lo ≤ hi) (i j : Int)
    (hij : i ≤ j) : planeCoord lo hi n i ≤ planeCoord lo hi n j := by
  unfold planeCoord
  have hden : (0 : ℚ) < ((n - 1 : Int) : ℚ) := by exact_mod_cast (by omega : (0 : Int) < n - 1)
  have hq : (i : ℚ) ≤ (j : ℚ) := by exact_mod_cast hij
  have hmul : (hi - lo) * (i : ℚ) ≤ (hi - lo) * (j : ℚ) :=
    mul_le_mul_of_nonneg_left hq (by linarith)
  have := div_le_div_of_nonneg_right hmul hden.le
  linarith

theorem planeCoord_zero (lo hi : ℚ) (n : Int) : planeCoord lo hi n 0 = lo := by
  simp [planeCoord]

theorem planeCoord_last (lo hi : ℚ) (n : Int) (hn : 2 ≤ n) :
    planeCoord lo hi n (n - 1) = hi := by
  unfold planeCoord
  have hden : ((n - 1 : Int) : ℚ) ≠ 0 := by
    have : (0 : ℚ) < ((n - 1 : Int) : ℚ) := by exact_mod_cast (by omega : (0 : Int) < n - 1)
    exact ne_of_gt this
  rw [mul_div_assoc, div_self hden]
  ring

theorem planeCoord64_zero (lo hi : ℚ) (n : Int) (hlo : round64 lo = .fin lo) (hb : lo ≤ hi)
    (hfin : F64.sub (.fin hi) (.fin lo) ≠ .posInf) (hn : 2 ≤ n) (hn2 : n ≤ 2 ^ 63) :
    planeCoord64 (.fin lo) (.fin hi) n 0 = .fin lo := by
  obtain ⟨hd, _⟩ := width64 lo hi hb hfin
  obtain ⟨hm, hm1⟩ := ofInt_pos (n - 1) (by omega) (by omega)
  have hm0 : roundQ ((n - 1 : Int) : ℚ) ≠ 0 := by linarith
  unfold planeCoord64
  rw [hd, hm]
  simp only [F64.ofInt, Int.cast_zero, round64_zero, F64.mul_fin, mul_zero]
  rw [F64.div_fin _ _ hm0, zero_div, round64_zero, F64.add_fin, add_zero, hlo]

theorem planeCoord64_mono (lo hi : ℚ) (n : Int) (hb : lo ≤ hi)
    (hfin : F64.sub (.fin hi) (.fin lo) ≠ .posInf) (hn : 2 ≤ n) (hn2 : n ≤ 2 ^ 63)
    (i j : Int) (hi0 : 0 ≤ i) (hij : i ≤ j) (hj : j < n) :
    F64.le (planeCoord64 (.fin lo) (.fin hi) n i) (planeCoord64 (.fin lo) (.fin hi) n j) =
      true := by
  obtain ⟨hd, hd0⟩ := width64 lo hi hb hfin
  obtain ⟨hm, hm1⟩ := ofInt_pos (n - 1) (by omega) (by omega)
  obtain ⟨hi1, _⟩ := ofInt_nonneg i hi0 (by omega)
  obtain ⟨hj1, _⟩ := ofInt_nonneg j (by omega) (by omega)
  have hij2 : roundQ (i : ℚ) ≤ roundQ (j : ℚ) := roundQ_mono _ _ (by exact_mod_cast hij)
  unfold planeCoord64
  rw [hd, hm, hi1, hj1, F64.mul_fin, F64.mul_fin]
  apply F64.add_fin_mono
  apply F64.div_fin_mono _ (by linarith)
  exact round64_mono _ _ (mul_le_mul_of_nonneg_left hij2 hd0)

/-- C16 (counterexample): with the default centre `-0.00275`, radius `0.5` and an
oversampled width of 4, line 109 maps the last column to `0.24725000000000003`, above
`xmax = 0.24725`: in binary64 column `W-1` is not sent to `xmax` and leaves
`[xmin, xmax]`. -/
theorem planeCoord64_last_column_overshoots :
    xmin64 (round64 (-275 / 100000)) (.fin (1 / 2)) =
      .fin (-4553139223271571 / 18014398509481984) ∧
    xmax64 (round64 (-275 / 100000)) (.fin (1 / 2)) =
      .fin (8908120062938841 / 36028797018963968) ∧
    planeCoord64 (xmin64 (round64 (-275 / 100000)) (.fin (1 / 2)))
      (xmax64 (round64 (-275 / 100000)) (.fin (1 / 2))) 4 3 =
      .fin (4454060031469421 / 18014398509481984) ∧
    F64.lt (xmax64 (round64 (-275 / 100000)) (.fin (1 / 2)))
      (planeCoord64 (xmin64 (round64 (-275 / 100000)) (.fin (1 / 2)))
        (xmax64 (round64 (-275 / 100000)) (.fin (1 / 2))) 4 3) = true := by
  decide!

/-- C16 (amended): for an oversampled width `2 <= W` and `float64` bounds `xmin <= xmax`
whose difference does not overflow, the column map of line 109 as computed in binary64 sends
column 0 to `xmin` exactly, is non-decreasing in the column, and sends no column below
`xmin`. That column `W-1` is sent to `xmax` and that every column stays at or below `xmax`
holds under exact arithmetic only. -/
theorem planeCoord64_columns (lo hi : ℚ) (W : Int) (hlo : round64 lo = .fin lo)
    (hb : lo ≤ hi) (hfin : F64.sub (.fin hi) (.fin lo) ≠ .posInf) (hW : 2 ≤ W)
    (hW2 : W ≤ 2 ^ 63) :
    planeCoord64 (.fin lo) (.fin hi) W 0 = .fin lo ∧
    (∀ i j : Int, 0 ≤ i → i ≤ j → j < W →
      F64.le (planeCoord64 (.fin lo) (.fin hi) W i) (planeCoord64 (.fin lo) (.fin hi) W j) =
        true) ∧
    (∀ i : Int, 0 ≤ i → i < W →
      F64.le (.fin lo) (planeCoord64 (.fin lo) (.fin hi) W i) = true) ∧
    planeCoord lo hi W (W - 1) = hi ∧
    ∀ i : Int, 0 ≤ i → i < W → lo ≤ planeCoord lo hi W i ∧ planeCoord lo hi W i ≤ hi := by
  have h0 := planeCoord64_zero lo hi W hlo hb hfin hW hW2
  refine ⟨h0, fun i j hi0 hij hj => planeCoord64_mono lo hi W hb hfin hW hW2 i j hi0 hij hj,
    ?_, planeCoord_last lo hi W hW, ?_⟩
  · intro i hi0 hi1
    have := planeCoord64_mono lo hi W hb hfin hW hW2 0 i (le_refl 0) hi0 hi1
    rwa [h0] at this
  · intro i hi0 hi1
    constructor
    · have := planeCoord_mono lo hi W hW hb 0 i hi0
      rwa [planeCoord_zero] at this
    · have := planeCoord_mono lo hi W hW hb i (W - 1) (by omega)
      rwa [planeCoord_last lo hi W hW] at this

theorem planeCoord64_columns_witness :
    round64 (-1) = .fin (-1) ∧ (-1 : ℚ) ≤ 1 ∧ F64.sub (.fin 1) (.fin (-1)) ≠ .posInf ∧
    (2 : Int) ≤ 4 ∧ (4 : Int) ≤ 2 ^ 63 ∧
    (planeCoord64 (.fin (-1)) (.fin 1) 4 0 = .fin (-1) ∧
    (∀ i j : Int, 0 ≤ i → i ≤ j → j < 4 →
      F64.le (planeCoord64 (.fin (-1)) (.fin 1) 4 i) (planeCoord64 (.fin (-1)) (.fin 1) 4 j) =
        true) ∧
    (∀ i : Int, 0 ≤ i → i < 4 →
      F64.le (.fin (-1)) (planeCoord64 (.fin (-1)) (.fin 1) 4 i) = true) ∧
    planeCoord (-1) 1 4 (4 - 1) = 1 ∧
    ∀ i : Int, 0 ≤ i → i < 4 → -1 ≤ planeCoord (-1) 1 4 i ∧ planeCoord (-1) 1 4 i ≤ 1) :=
  ⟨by decide!, by norm_num, by decide!, by norm_num, by norm_num,
    planeCoord64_columns (-1) 1 4 (by decide!) (by norm_num) (by decide!) (by norm_num)
      (by norm_num)⟩

/-! ## Primary and legacy renderer -/

/-- The two renderers compute the same column coordinate, and the same row coordinate when
the oversampled width and height are equal. -/
theorem render_point_eq_of_square (s : Service) (b : Bounds) (ix iy : Int) :
    (render.point s b ix iy).1 = (Render.point s b ix iy).1 ∧
      (s.Width = s.Height → render.point s b ix iy = Render.point s b ix iy) := by
  refine ⟨rfl, ?_⟩
  intro h
  simp [render.point, Render.point, h]

/-- C17: for the default configuration (1024 x 768, factor 8, so `W = 8192`, `H = 6144`) and
pixel `(0, 1)` the primary renderer maps the row to `ymin + (ymax-ymin)/8191`, dividing by
`Width - 1`, while the legacy one maps it to `ymin + (ymax-ymin)/6143`, dividing by
`height - 1`: the plane points differ. -/
theorem Render_point_differs_from_legacy :
    (oversample defaultConfig).Width = 8192 ∧ (oversample defaultConfig).Height = 6144 ∧
    (Render.point (oversample defaultConfig) (bounds (oversample defaultConfig)) 0 1).2 =
      (bounds (oversample defaultConfig)).ymin +
        ((bounds (oversample defaultConfig)).ymax - (bounds (oversample defaultConfig)).ymin) /
          8191 ∧
    (render.point (oversample defaultConfig) (bounds (oversample defaultConfig)) 0 1).2 =
      (bounds (oversample defaultConfig)).ymin +
        ((bounds (oversample defaultConfig)).ymax - (bounds (oversample defaultConfig)).ymin) /
          6143 ∧
    Render.point (oversample defaultConfig) (bounds (oversample defaultConfig)) 0 1 ≠
      render.point (oversample defaultConfig) (bounds (oversample defaultConfig)) 0 1 := by
  have hW : (oversample defaultConfig).Width = 8192 := by decide
  have hH : (oversample defaultConfig).Height = 6144 := by decide
  have hy : (bounds (oversample defaultConfig)).ymax - (bounds (oversample defaultConfig)).ymin =
      9426675 / 100000000 := by
    simp only [bounds, hW, hH]
    norm_num [oversample, defaultConfig, abs_of_pos]
  have h1 : (Render.point (oversample defaultConfig) (bounds (oversample defaultConfig)) 0 1).2 =
      (bounds (oversample defaultConfig)).ymin +
        ((bounds (oversample defaultConfig)).ymax - (bounds (oversample defaultConfig)).ymin) /
          8191 := by
    simp only [Render.point, planeCoord, hW]
    norm_num
  have h2 : (render.point (oversample defaultConfig) (bounds (oversample defaultConfig)) 0 1).2 =
      (bounds (oversample defaultConfig)).ymin +
        ((bounds (oversample defaultConfig)).ymax - (bounds (oversample defaultConfig)).ymin) /
          6143 := by
    simp only [render.point, planeCoord, hH]
    norm_num
  refine ⟨hW, hH, h1, h2, ?_⟩
  intro heq
  have h3 := congrArg Prod.snd heq
  rw [h1, h2, hy] at h3
  norm_num at h3

/-! ## Gradient expansion: one bracket -/

theorem index_natCast {α : Type} (xs : List α) (j : Nat) (x : α) (h : xs[j]? = some x) :
    index xs (j : Int) = Except.ok x := by
  simp [index, h]

theorem index_natCast_succ {α : Type} (xs : List α) (j : Nat) (x : α)
    (h : xs[j + 1]? = some x) : index xs ((j : Int) + 1) = Except.ok x := by
  have := index_natCast xs (j + 1) x h
  simpa using this

theorem stopStep_cols_lt (env : FloatEnv) (len : Nat) (st : Slices) (index : Nat)
    (col : ColorStop) (h : ∀ c ∈ st.cols, c < 2 ^ 32) :
    ∀ c ∈ (stopStep env len st index col).cols, c < 2 ^ 32 := by
  intro c hc
  simp only [stopStep, List.mem_append, List.mem_singleton] at hc
  rcases hc with hc | hc
  · exact h c hc
  · subst hc
    have hu : ∀ x : Nat, u32 x < 2 ^ 32 := fun x => Nat.mod_lt _ (by norm_num)
    have ha : col.Color.RGBA.2.2.2 / 0xff < 2 ^ 32 :=
      lt_of_le_of_lt (Nat.div_le_self _ _) (hu _)
    exact Nat.or_lt_two_pow (Nat.or_lt_two_pow (Nat.or_lt_two_pow (hu _) (hu _)) (hu _)) ha

theorem stopLoop_cols_lt (env : FloatEnv) (len : Nat) :
    ∀ (cs : List ColorStop) (index : Nat) (st : Slices), (∀ c ∈ st.cols, c < 2 ^ 32) →
      ∀ c ∈ (stopLoop env len cs index st).cols, c < 2 ^ 32 := by
  intro cs
  induction cs with
  | nil => intro index st h; simpa [stopLoop] using h
  | cons col rest ih =>
    intro index st h
    rw [stopLoop]
    exact ih _ _ (stopStep_cols_lt env len st index col h)

/-- Every packed colour computed for a palette is a `uint32` value. -/
theorem packedColors_lt (env : FloatEnv) (colors : List ColorStop) :
    ∀ c ∈ packedColors env colors, c < 2 ^ 32 :=
  stopLoop_cols_lt env colors.length colors 0 _ (by simp)

theorem packedColors_length (env : FloatEnv) (colors : List ColorStop) :
    (packedColors env colors).length = colors.length := by
  unfold packedColors
  rw [stopLoop_cols_length]
  simp

/-- One round of the bracket loop, with the four slice reads in range: a sample is appended
exactly when `p` lies in the bracket `[sj, sj1)`. -/
theorem bracketStep_eval (env : FloatEnv) (steps : List ℚ) (cols : List Nat) (p : ℚ)
    (interpolated : List Nat) (j : Nat) (sj sj1 : ℚ) (cj cj1 : Nat)
    (hsj : steps[j]? = some sj) (hsj1 : steps[j + 1]? = some sj1)
    (hcj : cols[j]? = some cj) (hcj1 : cols[j + 1]? = some cj1) :
    bracketStep env steps cols p interpolated j =
      Except.ok (if sj ≤ p ∧ p < sj1 then
        interpolated ++ [toUint32 env (.fin (cosineInterpolation env (cj1 : ℚ) (cj : ℚ)
          ((p - sj) / (sj1 - sj))))]
      else interpolated) := by
  unfold bracketStep
  rw [index_natCast steps j sj hsj, index_natCast_succ steps j sj1 hsj1,
    index_natCast cols j cj hcj, index_natCast_succ cols j cj1 hcj1]
  by_cases h1 : sj ≤ p
  · by_cases h2 : p < sj1
    · simp [bind, Except.bind, pure, Except.pure, h1, h2]
    · simp [bind, Except.bind, pure, Except.pure, h1, h2]
  · simp [bind, Except.bind, pure, Except.pure, h1]

/-! ## Gradient expansion: a matching bracket in binary64 -/

/-- The divisor and the weight of a matching bracket (line 68): for `float64` positions
`sj <= p < sj1` whose difference does not overflow, the divisor is finite and positive and
the weight is a finite value in `[0, 1]`, equal to 0 at `p = sj`. -/
theorem bracketWeight64 (p sj sj1 : ℚ)
    (hrj : round64 sj = .fin sj) (hrj1 : round64 sj1 = .fin sj1)
    (hfin : F64.sub (.fin sj1) (.fin sj) ≠ .posInf) (hlo : sj ≤ p) (hhi : p < sj1) :
    F64.sub (.fin sj1) (.fin sj) = .fin (roundQ (sj1 - sj)) ∧ 0 < roundQ (sj1 - sj) ∧
    F64.div (F64.sub (.fin p) (.fin sj)) (F64.sub (.fin sj1) (.fin sj)) =
      .fin (roundQ (roundQ (p - sj) / roundQ (sj1 - sj))) ∧
    0 ≤ roundQ (roundQ (p - sj) / roundQ (sj1 - sj)) ∧
    roundQ (roundQ (p - sj) / roundQ (sj1 - sj)) ≤ 1 ∧
    (p = sj → roundQ (roundQ (p - sj) / roundQ (sj1 - sj)) = 0) := by
  obtain ⟨hd, _⟩ := width64 sj sj1 (by linarith) hfin
  have hdlt : roundQ (sj1 - sj) < (2 : ℚ) ^ (1024 : Int) := by
    rw [F64.sub_fin] at hd
    rcases round64_cases (sj1 - sj) with ⟨h1, _⟩ | ⟨h1, _⟩ | ⟨_, _, h3⟩
    · rw [h1] at hd; exact absurd hd (by simp)
    · rw [h1] at hd; exact absurd hd (by simp)
    · exact h3
  have hdpos := roundQ_sub_pos sj sj1 (roundQ_of_round64 sj hrj).1
    (roundQ_of_round64 sj1 hrj1).1 (by linarith)
  have hx0 : 0 ≤ roundQ (p - sj) := roundQ_nonneg _ (by linarith)
  have hxd : roundQ (p - sj) ≤ roundQ (sj1 - sj) := roundQ_mono _ _ (by linarith)
  have hx : round64 (p - sj) = .fin (roundQ (p - sj)) := by
    have := two_zpow_pos 1024
    unfold round64
    rw [if_neg (by linarith), if_neg (by linarith)]
  have hq0 : 0 ≤ roundQ (p - sj) / roundQ (sj1 - sj) := div_nonneg hx0 hdpos.le
  have hq1 : roundQ (p - sj) / roundQ (sj1 - sj) ≤ 1 := (div_le_one hdpos).mpr hxd
  have hmu := round64_between 0 1 _ round64_zero round64_one hq0 hq1
  refine ⟨hd, hdpos, ?_, hmu.2.1, hmu.2.2, ?_⟩
  · rw [hd, F64.sub_fin, hx, F64.div_fin _ _ hdpos.ne']
    exact hmu.1
  · intro h
    rw [h, sub_self, roundQ_zero, zero_div, roundQ_zero]

/-- The eased weight of line 140 for a cosine value `c` in `[-1, 1]`: a finite value in
`[0, 1]`, equal to 0 for `c = 1`. -/
theorem eased64_weight (c : ℚ) (hc1 : -1 ≤ c) (hc2 : c ≤ 1) :
    F64.div (F64.sub (.fin 1) (.fin c)) (.fin 2) = .fin (roundQ (roundQ (1 - c) / 2)) ∧
    0 ≤ roundQ (roundQ (1 - c) / 2) ∧ roundQ (roundQ (1 - c) / 2) ≤ 1 ∧
    (c = 1 → roundQ (roundQ (1 - c) / 2) = 0) := by
  have hs := round64_between 0 2 (1 - c) round64_zero round64_two (by linarith) (by linarith)
  have hw := round64_between 0 1 (roundQ (1 - c) / 2) round64_zero round64_one
    (by linarith [hs.2.1]) (by linarith [hs.2.2])
  refine ⟨?_, hw.2.1, hw.2.2, ?_⟩
  · rw [F64.sub_fin, hs.1, F64.div_fin _ _ (by norm_num)]
    exact hw.1
  · intro h
    rw [h, sub_self, roundQ_zero, zero_div, roundQ_zero]

/-- A product of a `uint32` and a weight in `[0, 1]`: finite, within `2 ^ -22` of the exact
product. -/
theorem scaled64 (n : Nat) (hn : n < 2 ^ 32) (u : ℚ) (hu0 : 0 ≤ u) (hu1 : u ≤ 1) :
    F64.mul (.fin (n : ℚ)) (.fin u) = .fin (roundQ ((n : ℚ) * u)) ∧
    0 ≤ roundQ ((n : ℚ) * u) ∧ |roundQ ((n : ℚ) * u) - (n : ℚ) * u| ≤ 1 / 2 ^ 22 := by
  have hn0 : (0 : ℚ) ≤ (n : ℚ) := Nat.cast_nonneg n
  have hn1 : (n : ℚ) < 2 ^ 32 := by exact_mod_cast hn
  have hp0 : 0 ≤ (n : ℚ) * u := mul_nonneg hn0 hu0
  have hp1 : (n : ℚ) * u ≤ (n : ℚ) := by nlinarith
  have h32 : round64 (2 ^ 32) = .fin (2 ^ 32) := by decide!
  have hb := round64_between 0 (2 ^ 32) _ round64_zero h32 hp0 (by linarith)
  have he := roundQ_error ((n : ℚ) * u) 31 (by norm_num) (by
    rw [abs_of_nonneg hp0]
    have : (2 : ℚ) ^ ((31 : Int) + 1) = 2 ^ 32 := by norm_num
    rw [this]
    linarith)
  rw [show ((31 : Int) - 53) = -22 by norm_num, two_zpow_neg_22] at he
  exact ⟨by rw [F64.mul_fin]; exact hb.1, hb.2.1, he⟩

theorem blend64_between (c1 c2 lo hi : Nat) (hl1 : lo ≤ c1) (hl2 : lo ≤ c2) (hh1 : c1 ≤ hi)
    (hh2 : c2 ≤ hi) (hhi32 : hi < 2 ^ 32) (w : ℚ) (hw0 : 0 ≤ w) (hw1 : w ≤ 1) :
    ∃ v : ℚ,
      F64.add (F64.mul (F64.ofInt (c1 : Int)) (F64.sub (.fin 1) (.fin w)))
        (F64.mul (F64.ofInt (c2 : Int)) (.fin w)) = .fin v ∧
      (lo : ℚ) - 1 / 2 ^ 20 ≤ v ∧ v ≤ (hi : ℚ) + 1 / 2 ^ 20 ∧
      |v - ((c1 : ℚ) * (1 - w) + (c2 : ℚ) * w)| ≤ 1 / 2 ^ 19 ∧
      0 ≤ v ∧ (w = 0 → v = (c1 : ℚ)) := by
  have h1 : c1 < 2 ^ 32 := lt_of_le_of_lt hh1 hhi32
  have h2 : c2 < 2 ^ 32 := lt_of_le_of_lt hh2 hhi32
  have hu := round64_between 0 1 (1 - w) round64_zero round64_one (by linarith) (by linarith)
  have heu := roundQ_error (1 - w) 0 (by norm_num) (by
    rw [abs_of_nonneg (by linarith)]
    have : (2 : ℚ) ^ ((0 : Int) + 1) = 2 := by norm_num
    rw [this]
    linarith)
  rw [show ((0 : Int) - 53) = -53 by norm_num, two_zpow_neg_53, abs_le] at heu
  obtain ⟨ha, ha0, hae⟩ := scaled64 c1 h1 (roundQ (1 - w)) hu.2.1 hu.2.2
  obtain ⟨hb, hb0, hbe⟩ := scaled64 c2 h2 w hw0 hw1
  rw [abs_le] at hae hbe
  set u := roundQ (1 - w) with hu_def
  set a := roundQ ((c1 : ℚ) * u) with ha_def
  set b := roundQ ((c2 : ℚ) * w) with hb_def
  have hm1 : (lo : ℚ) ≤ (c1 : ℚ) := by exact_mod_cast hl1
  have hm2 : (lo : ℚ) ≤ (c2 : ℚ) := by exact_mod_cast hl2
  have hM1 : (c1 : ℚ) ≤ (hi : ℚ) := by exact_mod_cast hh1
  have hM2 : (c2 : ℚ) ≤ (hi : ℚ) := by exact_mod_cast hh2
  have hm0 : (0 : ℚ) ≤ (lo : ℚ) := Nat.cast_nonneg _
  have hMq : (hi : ℚ) ≤ 2 ^ 32 := by
    have : (hi : ℚ) < ((2 ^ 32 : Nat) : ℚ) := by exact_mod_cast hhi32
    have e : ((2 ^ 32 : Nat) : ℚ) = 2 ^ 32 := by norm_num
    linarith
  have hmq : (lo : ℚ) ≤ 2 ^ 32 := by linarith
  have hu0 := hu.2.1
  have hu1 := hu.2.2
  have p1 : (lo : ℚ) * u ≤ (c1 : ℚ) * u := mul_le_mul_of_nonneg_right hm1 hu0
  have p2 : (lo : ℚ) * w ≤ (c2 : ℚ) * w := mul_le_mul_of_nonneg_right hm2 hw0
  have p3 : (c1 : ℚ) * u ≤ (hi : ℚ) * u := mul_le_mul_of_nonneg_right hM1 hu0
  have p4 : (c2 : ℚ) * w ≤ (hi : ℚ) * w := mul_le_mul_of_nonneg_right hM2 hw0
  have e21 : (2 : ℚ) ^ 32 * (1 / 2 ^ 53) = 1 / 2 ^ 21 := by norm_num
  have p5 : (hi : ℚ) * (u + w) ≤ (hi : ℚ) + 1 / 2 ^ 21 := by
    have q1 : (hi : ℚ) * (u + w) ≤ (hi : ℚ) * (1 + 1 / 2 ^ 53) :=
      mul_le_mul_of_nonneg_left (by linarith) (by linarith)
    have q2 : (hi : ℚ) * (1 / 2 ^ 53) ≤ 2 ^ 32 * (1 / 2 ^ 53) :=
      mul_le_mul_of_nonneg_right hMq (by positivity)
    linarith
  have p6 : (lo : ℚ) - 1 / 2 ^ 21 ≤ (lo : ℚ) * (u + w) := by
    have q1 : (lo : ℚ) * (1 - 1 / 2 ^ 53) ≤ (lo : ℚ) * (u + w) :=
      mul_le_mul_of_nonneg_left (by linarith) hm0
    have q2 : (lo : ℚ) * (1 / 2 ^ 53) ≤ 2 ^ 32 * (1 / 2 ^ 53) :=
      mul_le_mul_of_nonneg_right hmq (by positivity)
    linarith
  have e20 : (1 : ℚ) / 2 ^ 20 = 1 / 2 ^ 21 + 1 / 2 ^ 22 + 1 / 2 ^ 22 := by norm_num
  have hlo : (lo : ℚ) - 1 / 2 ^ 20 ≤ a + b := by linarith [hae.1, hbe.1]
  have hhi : a + b ≤ (hi : ℚ) + 1 / 2 ^ 20 := by linarith [hae.2, hbe.2]
  have rlo : round64 ((lo : ℚ) - 1 / 2 ^ 20) = .fin ((lo : ℚ) - 1 / 2 ^ 20) := by
    have hlo32 : lo < 2 ^ 32 := by omega
    have := round64_scaled20 ((lo : Int) * 2 ^ 20 - 1) (by
      rw [abs_lt]
      constructor <;> omega)
    have e : ((((lo : Int) * 2 ^ 20 - 1 : Int) : ℚ)) / 2 ^ 20 = (lo : ℚ) - 1 / 2 ^ 20 := by
      push_cast
      ring
    rw [e] at this
    exact this
  have rhi : round64 ((hi : ℚ) + 1 / 2 ^ 20) = .fin ((hi : ℚ) + 1 / 2 ^ 20) := by
    have := round64_scaled20 ((hi : Int) * 2 ^ 20 + 1) (by
      rw [abs_lt]
      constructor <;> omega)
    have e : ((((hi : Int) * 2 ^ 20 + 1 : Int) : ℚ)) / 2 ^ 20 = (hi : ℚ) + 1 / 2 ^ 20 := by
      push_cast
      ring
    rw [e] at this
    exact this
  have hv := round64_between _ _ (a + b) rlo rhi hlo hhi
  have hc1q : (c1 : ℚ) ≤ 2 ^ 32 := by linarith
  have hc1n : (0 : ℚ) ≤ (c1 : ℚ) := Nat.cast_nonneg _
  have hev := roundQ_error (a + b) 32 (by norm_num) (by
    rw [abs_of_nonneg (by linarith)]
    have : (2 : ℚ) ^ ((32 : Int) + 1) = 2 ^ 33 := by norm_num
    rw [this]
    have : (1 : ℚ) / 2 ^ 20 < 1 := by norm_num
    have : (2 : ℚ) ^ 33 = 2 ^ 32 + 2 ^ 32 := by norm_num
    have : (1 : ℚ) ≤ 2 ^ 32 := by norm_num
    linarith)
  have e21' : (2 : ℚ) ^ ((32 : Int) - 53) = 1 / 2 ^ 21 := by
    rw [show ((32 : Int) - 53) = -21 by norm_num, zpow_neg, one_div]
    norm_cast
  rw [e21', abs_le] at hev
  have hacc : |roundQ (a + b) - ((c1 : ℚ) * (1 - w) + (c2 : ℚ) * w)| ≤ 1 / 2 ^ 19 := by
    have q1 : (c1 : ℚ) * (u - (1 - w)) ≤ 2 ^ 32 * (1 / 2 ^ 53) := by
      calc (c1 : ℚ) * (u - (1 - w)) ≤ (c1 : ℚ) * (1 / 2 ^ 53) :=
            mul_le_mul_of_nonneg_left heu.2 hc1n
        _ ≤ 2 ^ 32 * (1 / 2 ^ 53) := mul_le_mul_of_nonneg_right hc1q (by positivity)
    have q2 : -(2 ^ 32 * (1 / 2 ^ 53)) ≤ (c1 : ℚ) * (u - (1 - w)) := by
      have : (c1 : ℚ) * (-(u - (1 - w))) ≤ (c1 : ℚ) * (1 / 2 ^ 53) :=
        mul_le_mul_of_nonneg_left (by linarith [heu.1]) hc1n
      have : (c1 : ℚ) * (1 / 2 ^ 53) ≤ 2 ^ 32 * (1 / 2 ^ 53) :=
        mul_le_mul_of_nonneg_right hc1q (by positivity)
      linarith
    have e19 : (1 : ℚ) / 2 ^ 21 + 1 / 2 ^ 22 + 1 / 2 ^ 22 + 1 / 2 ^ 21 ≤ 1 / 2 ^ 19 := by
      norm_num
    rw [abs_le]
    constructor
    · linarith [hae.1, hbe.1, hev.1]
    · linarith [hae.2, hbe.2, hev.2]
  refine ⟨roundQ (a + b), ?_, hv.2.1, hv.2.2, hacc, roundQ_nonneg _ (by linarith), ?_⟩
  · rw [ofInt_uint32 c1 h1, ofInt_uint32 c2 h2, F64.sub_fin, hu.1, ha, hb, F64.add_fin]
    exact hv.1
  · intro h0
    have e1 : u = 1 := by
      rw [hu_def, h0, sub_zero]
      exact (roundQ_of_round64 1 round64_one).1
    rw [ha_def, hb_def, e1, h0, mul_one, mul_zero, roundQ_zero, add_zero, roundQ_natCast c1 h1,
      roundQ_natCast c1 h1]

/-- The blend `c1*(1-mu2) + c2*mu2` of line 141 for two `uint32` values and an eased weight
in `[0, 1]`: a finite value within `2 ^ -20` of the interval spanned by `c1` and `c2`, equal
to `c1` for the weight 0. -/
theorem blend64 (c1 c2 : Nat) (h1 : c1 < 2 ^ 32) (h2 : c2 < 2 ^ 32) (w : ℚ) (hw0 : 0 ≤ w)
    (hw1 : w ≤ 1) :
    ∃ v : ℚ,
      F64.add (F64.mul (F64.ofInt (c1 : Int)) (F64.sub (.fin 1) (.fin w)))
        (F64.mul (F64.ofInt (c2 : Int)) (.fin w)) = .fin v ∧
      ((min c1 c2 : Nat) : ℚ) - 1 / 2 ^ 20 ≤ v ∧ v ≤ ((max c1 c2 : Nat) : ℚ) + 1 / 2 ^ 20 ∧
      |v - ((c1 : ℚ) * (1 - w) + (c2 : ℚ) * w)| ≤ 1 / 2 ^ 19 ∧
      0 ≤ v ∧ (w = 0 → v = (c1 : ℚ)) :=
  blend64_between c1 c2 (min c1 c2) (max c1 c2) (min_le_left _ _) (min_le_right _ _)
    (le_max_left _ _) (le_max_right _ _) (max_lt h1 h2) w hw0 hw1

/-- The conversion `uint32(f)` of a value in `[0, 2^32)` is its floor, whatever the
library. -/
theorem MathLib.toUint32_of_range (lib : MathLib) (v : ℚ) (h0 : 0 ≤ v) (h1 : v < 2 ^ 32) :
    lib.toUint32 (.fin v) = ⌊v⌋.toNat := by
  have hfl := trunc_eq_floor v h0
  have hnn : (0 : Int) ≤ ⌊v⌋ := Int.floor_nonneg.mpr h0
  have hlt : ⌊v⌋ < 2 ^ 32 := by
    have : ((⌊v⌋ : Int) : ℚ) < 2 ^ 32 := lt_of_le_of_lt (Int.floor_le v) h1
    exact_mod_cast this
  simp only [MathLib.toUint32, hfl]
  rw [if_pos ⟨hnn, hlt⟩]

/-- One round of the bracket loop in binary64, with the four slice reads in range and the
progress value inside the bracket: the converted blend is appended. -/
theorem bracketStep64_eval (lib : MathLib) (steps : List F64) (cols : List Nat) (p : ℚ)
    (interpolated : List Nat) (j : Nat) (sj sj1 : ℚ) (cj cj1 : Nat)
    (hsj : steps[j]? = some (.fin sj)) (hsj1 : steps[j + 1]? = some (.fin sj1))
    (hcj : cols[j]? = some cj) (hcj1 : cols[j + 1]? = some cj1)
    (hlo : sj ≤ p) (hhi : p < sj1) :
    bracketStep64 lib steps cols (.fin p) interpolated j =
      Except.ok (interpolated ++ [lib.toUint32 (cosineInterpolation64 lib (F64.ofInt (cj1 : Int))
        (F64.ofInt (cj : Int))
        (F64.div (F64.sub (.fin p) (.fin sj)) (F64.sub (.fin sj1) (.fin sj))))]) := by
  unfold bracketStep64
  rw [index_natCast steps j _ hsj, index_natCast_succ steps j _ hsj1,
    index_natCast cols j cj hcj, index_natCast_succ cols j cj1 hcj1]
  simp [bind, Except.bind, pure, Except.pure, F64.le, F64.lt, hlo, hhi]

/-- C19 (counterexample): with stops at the positions `0, 0.3, 1` and `N = 10`, the loop
counter of line 58 after ten additions of `0.1` is `1 - 2^-53`, so an eleventh round runs;
its progress value matches the bracket `[0.3, 1)`, and both `i - min` and `max - min` round
to `0.7`: the weight `mu` is exactly 1, not in `[0, 1)`. With stops at `0, 1` the same round
has `mu = 1 - 2^-53 < 1`, Go's cosine of `mu * Pi` is exactly `-1`, and the eased weight is
exactly 1, not in `[0, 1)`. -/
theorem bracket64_weight_reaches_one :
    progress64 (F64.div (.fin 1) (.fin 10)) 10 = .fin (1 - 1 / 2 ^ 53) ∧
    F64.le (progress64 (F64.div (.fin 1) (.fin 10)) 10) (.fin 1) = true ∧
    (F64.le (round64 (3 / 10)) (.fin (1 - 1 / 2 ^ 53)) = true ∧
      F64.lt (.fin (1 - 1 / 2 ^ 53)) (.fin 1) = true ∧
      F64.div (F64.sub (.fin (1 - 1 / 2 ^ 53)) (round64 (3 / 10)))
        (F64.sub (.fin 1) (round64 (3 / 10))) = .fin 1) ∧
    (F64.le (.fin 0) (.fin (1 - 1 / 2 ^ 53)) = true ∧
      F64.lt (.fin (1 - 1 / 2 ^ 53)) (.fin 1) = true ∧
      F64.div (F64.sub (.fin (1 - 1 / 2 ^ 53)) (.fin 0)) (F64.sub (.fin 1) (.fin 0)) =
        .fin (1 - 1 / 2 ^ 53) ∧
      mathCos (F64.mul (.fin (1 - 1 / 2 ^ 53)) mathPi) = .fin (-1) ∧
      F64.div (F64.sub (.fin 1) (mathCos (F64.mul (.fin (1 - 1 / 2 ^ 53)) mathPi))) (.fin 2) =
        .fin 1) := by
  decide!

/-- C19 (amended): in binary64, when a progress value `p` matches the bracket `j`
(`p >= position_j` and `p < position_{j+1}`) of two `float64` positions whose difference
does not overflow, the divisor `position_{j+1} - position_j` is finite and strictly positive
and the weight `mu` is a finite value in the closed interval `[0, 1]`; when the cosine returned for `mu * Pi` lies in
`[-1, 1]`, the eased weight `w` lies in the closed interval `[0, 1]`, the interpolated value
is within `2^-19` of the exact blend `c_{j+1} * (1 - w) + c_j * w` and within `2^-20` of the
interval spanned by the two packed colours, hence in `[0, 2^32)`, so that its conversion to
`uint32` is its floor whatever the library; the round appends this floor, which is at most
the larger packed colour and at least the smaller one minus 1. At `p = position_j`, when
the cosine of 0 is 1, the appended value is exactly the packed colour of stop `j+1`. -/
theorem bracket64_match (lib : MathLib) (steps : List F64) (cols : List Nat)
    (interpolated : List Nat) (j : Nat) (p sj sj1 c : ℚ) (cj cj1 : Nat)
    (hsj : steps[j]? = some (.fin sj)) (hsj1 : steps[j + 1]? = some (.fin sj1))
    (hcj : cols[j]? = some cj) (hcj1 : cols[j + 1]? = some cj1)
    (hrj : round64 sj = .fin sj) (hrj1 : round64 sj1 = .fin sj1)
    (hfin : F64.sub (.fin sj1) (.fin sj) ≠ .posInf) (hlo : sj ≤ p) (hhi : p < sj1)
    (hc1 : cj < 2 ^ 32) (hc2 : cj1 < 2 ^ 32)
    (hcos : lib.Cos (F64.mul (F64.div (F64.sub (.fin p) (.fin sj))
      (F64.sub (.fin sj1) (.fin sj))) mathPi) = .fin c)
    (hcb1 : -1 ≤ c) (hcb2 : c ≤ 1) :
    ∃ d mu w v : ℚ,
      (F64.sub (.fin sj1) (.fin sj) = .fin d ∧ 0 < d) ∧
      (F64.div (F64.sub (.fin p) (.fin sj)) (F64.sub (.fin sj1) (.fin sj)) = .fin mu ∧
        0 ≤ mu ∧ mu ≤ 1) ∧
      (F64.div (F64.sub (.fin 1) (lib.Cos (F64.mul (.fin mu) mathPi))) (.fin 2) = .fin w ∧
        0 ≤ w ∧ w ≤ 1) ∧
      (cosineInterpolation64 lib (F64.ofInt (cj1 : Int)) (F64.ofInt (cj : Int)) (.fin mu) =
          .fin v ∧
        |v - ((cj1 : ℚ) * (1 - w) + (cj : ℚ) * w)| ≤ 1 / 2 ^ 19 ∧
        ((min cj1 cj : Nat) : ℚ) - 1 / 2 ^ 20 ≤ v ∧ v ≤ ((max cj1 cj : Nat) : ℚ) + 1 / 2 ^ 20 ∧
        0 ≤ v ∧ v < 2 ^ 32) ∧
      (bracketStep64 lib steps cols (.fin p) interpolated j =
          Except.ok (interpolated ++ [⌊v⌋.toNat]) ∧
        ⌊v⌋.toNat < 2 ^ 32 ∧ min cj1 cj ≤ ⌊v⌋.toNat + 1 ∧ ⌊v⌋.toNat ≤ max cj1 cj) ∧
      (p = sj → c = 1 → mu = 0 ∧ w = 0 ∧ v = (cj1 : ℚ) ∧
        bracketStep64 lib steps cols (.fin p) interpolated j =
          Except.ok (interpolated ++ [cj1])) := by
  obtain ⟨hd, hdpos, hmu, hmu0, hmu1, hmuz⟩ := bracketWeight64 p sj sj1 hrj hrj1 hfin hlo hhi
  rw [hmu] at hcos
  obtain ⟨hw, hw0, hw1, hwz⟩ := eased64_weight c hcb1 hcb2
  obtain ⟨v, hv, hvlo, hvhi, hvacc, hv0, hvz⟩ :=
    blend64 cj1 cj hc2 hc1 (roundQ (roundQ (1 - c) / 2)) hw0 hw1
  have hMlt : max cj1 cj < 2 ^ 32 := max_lt hc2 hc1
  have hMq : ((max cj1 cj : Nat) : ℚ) + 1 ≤ 2 ^ 32 := by
    have : ((max cj1 cj + 1 : Nat) : ℚ) ≤ ((2 ^ 32 : Nat) : ℚ) := by exact_mod_cast hMlt
    have e : ((2 ^ 32 : Nat) : ℚ) = 2 ^ 32 := by norm_num
    rw [e] at this
    rw [Nat.cast_add, Nat.cast_one] at this
    exact this
  have hsmall : (1 : ℚ) / 2 ^ 20 < 1 := by norm_num
  have hv32 : v < 2 ^ 32 := by linarith
  have hblend : cosineInterpolation64 lib (F64.ofInt (cj1 : Int)) (F64.ofInt (cj : Int))
      (.fin (roundQ (roundQ (p - sj) / roundQ (sj1 - sj)))) = .fin v := by
    unfold cosineInterpolation64
    simp only
    rw [hcos, hw]
    exact hv
  have hstep := bracketStep64_eval lib steps cols p interpolated j sj sj1 cj cj1 hsj hsj1 hcj
    hcj1 hlo hhi
  rw [hmu, hblend, MathLib.toUint32_of_range lib v hv0 hv32] at hstep
  have hfl0 : (0 : Int) ≤ ⌊v⌋ := Int.floor_nonneg.mpr hv0
  have hflM : ⌊v⌋ ≤ ((max cj1 cj : Nat) : Int) := by
    have : ⌊v⌋ < ((max cj1 cj : Nat) : Int) + 1 := by
      rw [Int.floor_lt, Int.cast_add, Int.cast_one, Int.cast_natCast]
      linarith
    omega
  have hflm : ((min cj1 cj : Nat) : Int) - 1 ≤ ⌊v⌋ := by
    rw [Int.le_floor, Int.cast_sub, Int.cast_one, Int.cast_natCast]
    linarith
  refine ⟨_, _, _, v, ⟨hd, hdpos⟩, ⟨hmu, hmu0, hmu1⟩, ⟨?_, hw0, hw1⟩,
    ⟨hblend, hvacc, hvlo, hvhi, hv0, hv32⟩, ⟨hstep, ?_, ?_, ?_⟩, ?_⟩
  · rw [hcos]
    exact hw
  · omega
  · omega
  · omega
  · intro hp hc
    have hw' := hwz hc
    have hv' := hvz hw'
    refine ⟨hmuz hp, hw', hv', ?_⟩
    rw [hstep, hv']
    simp

theorem bracket64_match_witness :
    ([F64.fin 0, F64.fin 1] : List F64)[0]? = some (.fin 0) ∧
    ([F64.fin 0, F64.fin 1] : List F64)[0 + 1]? = some (.fin 1) ∧
    ([0x101, 0x01010101] : List Nat)[0]? = some 0x101 ∧
    ([0x101, 0x01010101] : List Nat)[0 + 1]? = some 0x01010101 ∧
    round64 0 = .fin 0 ∧ round64 1 = .fin 1 ∧ F64.sub (.fin 1) (.fin 0) ≠ .posInf ∧
    (0 : ℚ) ≤ 1 / 4 ∧ (1 / 4 : ℚ) < 1 ∧ 0x101 < 2 ^ 32 ∧ 0x01010101 < 2 ^ 32 ∧
    goLib.Cos (F64.mul (F64.div (F64.sub (.fin (1 / 4)) (.fin 0))
      (F64.sub (.fin 1) (.fin 0))) mathPi) = .fin (6369051672525773 / 9007199254740992) ∧
    (-1 : ℚ) ≤ 6369051672525773 / 9007199254740992 ∧
    (6369051672525773 / 9007199254740992 : ℚ) ≤ 1 ∧
    ∃ d mu w v : ℚ,
      (F64.sub (.fin 1) (.fin 0) = .fin d ∧ 0 < d) ∧
      (F64.div (F64.sub (.fin (1 / 4)) (.fin 0)) (F64.sub (.fin 1) (.fin 0)) = .fin mu ∧
        0 ≤ mu ∧ mu ≤ 1) ∧
      (F64.div (F64.sub (.fin 1) (goLib.Cos (F64.mul (.fin mu) mathPi))) (.fin 2) = .fin w ∧
        0 ≤ w ∧ w ≤ 1) ∧
      (cosineInterpolation64 goLib (F64.ofInt ((0x01010101 : Nat) : Int))
          (F64.ofInt ((0x101 : Nat) : Int)) (.fin mu) = .fin v ∧
        |v - (((0x01010101 : Nat) : ℚ) * (1 - w) + ((0x101 : Nat) : ℚ) * w)| ≤ 1 / 2 ^ 19 ∧
        ((min 0x01010101 0x101 : Nat) : ℚ) - 1 / 2 ^ 20 ≤ v ∧
        v ≤ ((max 0x01010101 0x101 : Nat) : ℚ) + 1 / 2 ^ 20 ∧
        0 ≤ v ∧ v < 2 ^ 32) ∧
      (bracketStep64 goLib [.fin 0, .fin 1] [0x101, 0x01010101] (.fin (1 / 4)) [] 0 =
          Except.ok ([] ++ [⌊v⌋.toNat]) ∧
        ⌊v⌋.toNat < 2 ^ 32 ∧ min 0x01010101 0x101 ≤ ⌊v⌋.toNat + 1 ∧
        ⌊v⌋.toNat ≤ max 0x01010101 0x101) ∧
      ((1 / 4 : ℚ) = 0 → (6369051672525773 / 9007199254740992 : ℚ) = 1 →
        mu = 0 ∧ w = 0 ∧ v = ((0x01010101 : Nat) : ℚ) ∧
        bracketStep64 goLib [.fin 0, .fin 1] [0x101, 0x01010101] (.fin (1 / 4)) [] 0 =
          Except.ok ([] ++ [0x01010101])) :=
  ⟨rfl, rfl, rfl, rfl, by decide!, by decide!, by decide!, by norm_num,
    by norm_num, by norm_num, by norm_num, by decide!, by norm_num, by norm_num,
    bracket64_match goLib [.fin 0, .fin 1] [0x101, 0x01010101] [] 0 (1 / 4) 0 1
      (6369051672525773 / 9007199254740992) 0x101 0x01010101 rfl rfl rfl rfl (by decide!)
      (by decide!) (by decide!) (by norm_num) (by norm_num) (by norm_num)
      (by norm_num) (by decide!) (by norm_num) (by norm_num)⟩

/-! ## Gradient expansion: the sampling loop -/

theorem getElem?_getD {α : Type} (l : List α) (j : Nat) (d : α) (h : j < l.length) :
    l[j]? = some (l.getD j d) := by
  rw [List.getD_eq_getElem?_getD, List.getElem?_eq_getElem h]
  rfl

theorem roundSamples_succ (env : FloatEnv) (steps : List ℚ) (cols : List Nat) (m : Nat)
    (p : ℚ) :
    roundSamples env steps cols (m + 1) p =
      roundSamples env steps cols m p ++
        (if steps.getD m 0 ≤ p ∧ p < steps.getD (m + 1) 0 then [sampleAt env steps cols p m]
         else []) := by
  unfold roundSamples
  rw [List.range_succ, List.filter_append, List.map_append]
  congr 1
  by_cases hb : steps.getD m 0 ≤ p ∧ p < steps.getD (m + 1) 0
  · have hin : inBracket steps p m = true := by
      unfold inBracket
      exact decide_eq_true hb
    rw [if_pos hb, List.filter_cons_of_pos hin]
    rfl
  · have hin : ¬ inBracket steps p m = true := by
      unfold inBracket
      simpa using hb
    rw [if_neg hb, List.filter_cons_of_neg hin]
    rfl

/-- The bracket loop over the first `m` brackets appends the samples of the matching ones. -/
theorem bracketLoop_eval (env : FloatEnv) (steps : List ℚ) (cols : List Nat) (p : ℚ)
    (hlen : cols.length = steps.length) :
    ∀ (m : Nat) (interpolated : List Nat), m + 1 ≤ steps.length →
      (List.range m).foldlM (bracketStep env steps cols p) interpolated =
        Except.ok (interpolated ++ roundSamples env steps cols m p) := by
  intro m
  induction m with
  | zero =>
    intro interpolated _
    simp [roundSamples]
    rfl
  | succ m ih =>
    intro interpolated hm
    have hstep := bracketStep_eval env steps cols p
      (interpolated ++ roundSamples env steps cols m p) m
      (steps.getD m 0) (steps.getD (m + 1) 0) (cols.getD m 0) (cols.getD (m + 1) 0)
      (getElem?_getD steps m 0 (by omega)) (getElem?_getD steps (m + 1) 0 (by omega))
      (getElem?_getD cols m 0 (by omega)) (getElem?_getD cols (m + 1) 0 (by omega))
    rw [List.range_succ, List.foldlM_append, ih interpolated (by omega), roundSamples_succ]
    have hfold : ∀ acc : List Nat,
        List.foldlM (bracketStep env steps cols p) acc [m] = bracketStep env steps cols p acc m := by
      intro acc
      rw [List.foldlM_cons]
      cases bracketStep env steps cols p acc m <;> rfl
    have hbind : ∀ (acc : List Nat) (f : List Nat → Except Fault (List Nat)),
        (Except.ok acc >>= f) = f acc := fun _ _ => rfl
    rw [hbind, hfold, hstep]
    by_cases hb : steps.getD m 0 ≤ p ∧ p < steps.getD (m + 1) 0
    · rw [if_pos hb, if_pos hb, List.append_assoc]
      rfl
    · rw [if_neg hb, if_neg hb, List.append_nil]

/-- The sampling loop with step `1/N`, entered at progress value `k/N` with `r` rounds left
up to `N/N = 1`, appends the samples of those rounds and returns. -/
theorem sampleLoop_eval (env : FloatEnv) (steps : List ℚ) (cols : List Nat) (len N : Nat)
    (hN : 1 ≤ N) (hlen : cols.length = steps.length) (hl : len = steps.length)
    (hl1 : 1 ≤ len) :
    ∀ (r k fuel : Nat) (interpolated : List Nat), k + r = N + 1 → r ≤ fuel →
      sampleLoop env steps cols len (.fin (1 / (N : ℚ))) fuel ((k : ℚ) / (N : ℚ)) interpolated =
        Except.ok (interpolated ++ gradientSamples env steps cols (len - 1) (N : ℚ) k r) := by
  have hNpos : (0 : ℚ) < (N : ℚ) := by exact_mod_cast (by omega : 0 < N)
  intro r
  induction r with
  | zero =>
    intro k fuel interpolated hk _
    have hgt : ¬ (k : ℚ) / (N : ℚ) ≤ 1 := by
      rw [not_le, lt_div_iff₀ hNpos]
      have : (N : ℚ) < (k : ℚ) := by exact_mod_cast (by omega : N < k)
      linarith
    cases fuel <;> simp [sampleLoop, hgt, gradientSamples]
  | succ r ih =>
    intro k fuel interpolated hk hf
    obtain ⟨f, rfl⟩ : ∃ f, fuel = f + 1 := ⟨fuel - 1, by omega⟩
    have hle : (k : ℚ) / (N : ℚ) ≤ 1 := by
      rw [div_le_one hNpos]
      exact_mod_cast (by omega : k ≤ N)
    have hnext : (k : ℚ) / (N : ℚ) + 1 / (N : ℚ) = ((k + 1 : Nat) : ℚ) / (N : ℚ) := by
      push_cast
      ring
    have hround := bracketLoop_eval env steps cols ((k : ℚ) / (N : ℚ)) hlen (len - 1)
      interpolated (by omega)
    have hbind : ∀ (acc : List Nat) (g : List Nat → Except Fault (List Nat)),
        (Except.ok acc >>= g) = g acc := fun _ _ => rfl
    rw [sampleLoop, if_pos hle, hround, hbind]
    simp only [hnext]
    rw [ih (k + 1) f _ (by omega) (by omega), gradientSamples, List.append_assoc]

/-! ## Gradient expansion: one bracket per progress value -/

theorem filter_range_unique (P : Nat → Bool) (j0 : Nat) :
    ∀ m : Nat, (∀ j, j < m → P j = true → j = j0) →
      (List.range m).filter P = if j0 < m ∧ P j0 = true then [j0] else [] := by
  intro m
  induction m with
  | zero => intro _; simp
  | succ m ih =>
    intro h
    rw [List.range_succ, List.filter_append, ih (fun j hj hP => h j (by omega) hP)]
    by_cases hPm : P m = true
    · have hm : m = j0 := h m (by omega) hPm
      subst hm
      rw [List.filter_cons_of_pos hPm, if_neg (by omega), if_pos ⟨by omega, hPm⟩]
      rfl
    · rw [List.filter_cons_of_neg hPm, List.filter_nil, List.append_nil]
      by_cases hc : j0 < m ∧ P j0 = true
      · rw [if_pos hc, if_pos ⟨by omega, hc.2⟩]
      · rw [if_neg hc, if_neg]
        rintro ⟨h1, h2⟩
        by_cases hjm : j0 = m
        · subst hjm; exact hPm h2
        · exact hc ⟨by omega, h2⟩

/-- For non-decreasing positions from 0 to 1 and a progress value in `[0, 1)`, exactly one
bracket matches. -/
theorem bracket_unique (steps : List ℚ) (hs : List.Sorted (· ≤ ·) steps)
    (h2 : 2 ≤ steps.length) (hfirst : steps.getD 0 0 = 0)
    (hlast : steps.getD (steps.length - 1) 0 = 1) (p : ℚ) (hp0 : 0 ≤ p) (hp1 : p < 1) :
    ∃ j0 : Nat, j0 + 1 < steps.length ∧ inBracket steps p j0 = true ∧
      (∀ j, j + 1 < steps.length → inBracket steps p j = true → j = j0) ∧
      (List.range (steps.length - 1)).filter (inBracket steps p) = [j0] := by
  classical
  have hP0 : steps.getD 0 0 ≤ p := by rw [hfirst]; exact hp0
  have hspec : steps.getD (Nat.findGreatest (fun j => steps.getD j 0 ≤ p) (steps.length - 1)) 0 ≤ p :=
    Nat.findGreatest_spec (P := fun j => steps.getD j 0 ≤ p) (Nat.zero_le _) hP0
  have hle : Nat.findGreatest (fun j => steps.getD j 0 ≤ p) (steps.length - 1) ≤
      steps.length - 1 := Nat.findGreatest_le _
  set j0 := Nat.findGreatest (fun j => steps.getD j 0 ≤ p) (steps.length - 1) with hj0
  have hne : j0 ≠ steps.length - 1 := by
    intro h
    rw [h, hlast] at hspec
    linarith
  have hlt : j0 + 1 < steps.length := by omega
  have hnext : p < steps.getD (j0 + 1) 0 := by
    have := Nat.findGreatest_is_greatest (P := fun j => steps.getD j 0 ≤ p)
      (n := steps.length - 1) (k := j0 + 1) (by omega) (by omega)
    exact not_le.mp this
  have hin : inBracket steps p j0 = true := by
    unfold inBracket
    exact decide_eq_true ⟨hspec, hnext⟩
  have huniq : ∀ j, j + 1 < steps.length → inBracket steps p j = true → j = j0 := by
    intro j hj hjin
    unfold inBracket at hjin
    have hjb := of_decide_eq_true hjin
    by_contra hne2
    rcases Nat.lt_or_gt_of_ne hne2 with h | h
    · have := sorted_getD steps hs (j + 1) j0 (by omega) (by omega)
      linarith [hjb.2]
    · have := sorted_getD steps hs (j0 + 1) j (by omega) (by omega)
      linarith [hjb.1]
  refine ⟨j0, hlt, hin, huniq, ?_⟩
  rw [filter_range_unique (inBracket steps p) j0 (steps.length - 1)
    (fun j hj hP => huniq j (by omega) hP), if_pos ⟨by omega, hin⟩]

/-- For non-decreasing positions ending at 1, no bracket matches a progress value `>= 1`. -/
theorem bracket_none (steps : List ℚ) (hs : List.Sorted (· ≤ ·) steps)
    (hlast : steps.getD (steps.length - 1) 0 = 1) (p : ℚ) (hp : 1 ≤ p) :
    (∀ j, j + 1 < steps.length → inBracket steps p j = false) ∧
      (List.range (steps.length - 1)).filter (inBracket steps p) = [] := by
  have hnone : ∀ j, j + 1 < steps.length → inBracket steps p j = false := by
    intro j hj
    unfold inBracket
    apply decide_eq_false
    rintro ⟨_, h2⟩
    have := sorted_getD steps hs (j + 1) (steps.length - 1) (by omega) (by omega)
    rw [hlast] at this
    linarith
  refine ⟨hnone, ?_⟩
  rw [List.filter_eq_nil_iff]
  intro j hj
  rw [List.mem_range] at hj
  rw [hnone j (by omega)]
  simp

/-- For non-decreasing positions from 0 to 1, the rounds `k/N, ..., N/N` of the sampling
loop yield one sample for every progress value below 1 and none for 1. -/
theorem gradientSamples_sorted (env : FloatEnv) (steps : List ℚ) (cols : List Nat) (N : Nat)
    (hN : 1 ≤ N) (hs : List.Sorted (· ≤ ·) steps) (h2 : 2 ≤ steps.length)
    (hfirst : steps.getD 0 0 = 0) (hlast : steps.getD (steps.length - 1) 0 = 1) :
    ∀ (r k : Nat), k + r = N →
      gradientSamples env steps cols (steps.length - 1) (N : ℚ) k (r + 1) =
        (List.range' k r).map (fun k' : Nat =>
          sampleAt env steps cols ((k' : ℚ) / (N : ℚ)) (bracketIndex steps ((k' : ℚ) / (N : ℚ)))) := by
  have hNpos : (0 : ℚ) < (N : ℚ) := by exact_mod_cast (by omega : 0 < N)
  intro r
  induction r with
  | zero =>
    intro k hk
    have hk' : k = N := by omega
    subst hk'
    have hone : ((k : ℚ) / (k : ℚ)) = 1 := div_self (ne_of_gt hNpos)
    have hnone := (bracket_none steps hs hlast ((k : ℚ) / (k : ℚ)) (by rw [hone])).2
    simp [gradientSamples, roundSamples, hnone]
  | succ r ih =>
    intro k hk
    have hp0 : (0 : ℚ) ≤ (k : ℚ) / (N : ℚ) := div_nonneg (Nat.cast_nonneg _) hNpos.le
    have hp1 : (k : ℚ) / (N : ℚ) < 1 := by
      rw [div_lt_one hNpos]
      exact_mod_cast (by omega : k < N)
    obtain ⟨j0, _, _, _, hfilter⟩ :=
      bracket_unique steps hs h2 hfirst hlast ((k : ℚ) / (N : ℚ)) hp0 hp1
    have hidx : bracketIndex steps ((k : ℚ) / (N : ℚ)) = j0 := by
      unfold bracketIndex
      rw [hfilter]
      rfl
    rw [gradientSamples, ih (k + 1) (by omega)]
    simp only [roundSamples, hfilter, List.map_cons, List.map_nil, List.range'_succ, hidx,
      List.singleton_append]

/-- The state after the round of the registry loop for a matching palette with `N >= 1`
samples, entered with empty slices. -/
theorem paletteStep_match (env : FloatEnv) (fuel : Nat) (v : Palette) (N : Nat) (hN : 1 ≤ N)
    (hf : N + 1 ≤ fuel) (h1 : 1 ≤ v.Colors.length) :
    ∃ st : Slices,
      paletteStep env fuel (some v.Keyword) (N : ℚ) ⟨[], [], [], []⟩ v = Except.ok st ∧
      st.interpolatedColors =
        (gradientSamples env (effectivePositions env v.Colors) (packedColors env v.Colors)
          (v.Colors.length - 1) (N : ℚ) 0 (N + 1)).map uint32ToRgba := by
  have hNq : (N : ℚ) ≠ 0 := by
    have : (0 : ℚ) < (N : ℚ) := by exact_mod_cast (by omega : 0 < N)
    exact ne_of_gt this
  have hsl := effectivePositions_length env v.Colors
  have hcl := packedColors_length env v.Colors
  have hrest := stopLoop_rest env v.Colors.length v.Colors 0 ⟨[], [], [], []⟩
  have hloop := sampleLoop_eval env (effectivePositions env v.Colors)
    (packedColors env v.Colors) v.Colors.length N hN (by rw [hsl, hcl]) hsl.symm h1
    (N + 1) 0 fuel [] (by omega) hf
  simp only [Nat.cast_zero, zero_div, List.nil_append] at hloop
  simp only [effectivePositions, packedColors] at hloop hsl hcl ⊢
  refine ⟨⟨(stopLoop env v.Colors.length v.Colors 0 ⟨[], [], [], []⟩).steps,
    (stopLoop env v.Colors.length v.Colors 0 ⟨[], [], [], []⟩).cols,
    gradientSamples env (stopLoop env v.Colors.length v.Colors 0 ⟨[], [], [], []⟩).steps
      (stopLoop env v.Colors.length v.Colors 0 ⟨[], [], [], []⟩).cols
      (v.Colors.length - 1) (N : ℚ) 0 (N + 1),
    (gradientSamples env (stopLoop env v.Colors.length v.Colors 0 ⟨[], [], [], []⟩).steps
      (stopLoop env v.Colors.length v.Colors 0 ⟨[], [], [], []⟩).cols
      (v.Colors.length - 1) (N : ℚ) 0 (N + 1)).map uint32ToRgba⟩, ?_, rfl⟩
  unfold paletteStep
  simp only [ne_eq, not_true_eq_false, if_false, hNq, hsl, hcl, and_self, if_true,
    hrest.1, hrest.2, hloop]
  rfl

theorem getD_zero_of_head? (steps : List ℚ) (x : ℚ) (h : steps.head? = some x) :
    steps.getD 0 0 = x := by
  cases steps with
  | nil => cases h
  | cons a rest =>
    simp only [List.head?_cons, Option.some.injEq] at h
    subst h
    rfl

theorem getD_last_of_getLast? (steps : List ℚ) (x : ℚ) (h : steps.getLast? = some x) :
    steps.getD (steps.length - 1) 0 = x := by
  rw [List.getLast?_eq_getElem?] at h
  rw [List.getD_eq_getElem?_getD, h]
  rfl

/-- `InterpolateColors` on a registry in which exactly the palette `v` has the requested
keyword, for `N >= 1` samples: the gradient is the unpacked list of samples of the rounds
`0/N, ..., N/N`. -/
theorem InterpolateColors_match (env : FloatEnv) (fuel : Nat) (pre post : List Palette)
    (v : Palette) (N : Nat)
    (hpre : ∀ w ∈ pre, w.Keyword ≠ v.Keyword) (hpost : ∀ w ∈ post, w.Keyword ≠ v.Keyword)
    (h1 : 1 ≤ v.Colors.length) (hN : 1 ≤ N) (hf : N + 1 ≤ fuel) :
    InterpolateColors env fuel (pre ++ v :: post) (some v.Keyword) (N : ℚ) =
      Except.ok ((gradientSamples env (effectivePositions env v.Colors)
        (packedColors env v.Colors) (v.Colors.length - 1) (N : ℚ) 0 (N + 1)).map
          uint32ToRgba) := by
  obtain ⟨st, hst, hcolors⟩ := paletteStep_match env fuel v N hN hf h1
  have hbind : ∀ (a : Slices) (g : Slices → Except Fault Slices),
      (Except.ok a >>= g) = g a := fun _ _ => rfl
  unfold InterpolateColors
  rw [List.foldlM_append, foldlM_paletteStep_no_match env fuel v.Keyword (N : ℚ) pre _ hpre,
    hbind, List.foldlM_cons, hst, hbind,
    foldlM_paletteStep_no_match env fuel v.Keyword (N : ℚ) post st hpost, ← hcolors]
  rfl

/-- C15: for a palette of at least two stops whose effective positions are non-decreasing
from 0 to 1, matched by exactly one registry entry, and an integer sample count `N >= 1`,
`InterpolateColors` returns the gradient whose `k`-th entry, `k = 0..N-1`, is the one sample
of the progress value `k/N` (taken in its only matching bracket); the round of `p = 1` yields
no sample, so the gradient has exactly `N` entries. -/
theorem InterpolateColors_samples (env : FloatEnv) (fuel : Nat) (pre post : List Palette)
    (v : Palette) (N : Nat)
    (hpre : ∀ w ∈ pre, w.Keyword ≠ v.Keyword) (hpost : ∀ w ∈ post, w.Keyword ≠ v.Keyword)
    (h2 : 2 ≤ v.Colors.length)
    (hs : List.Sorted (· ≤ ·) (effectivePositions env v.Colors))
    (hfirst : (effectivePositions env v.Colors).head? = some 0)
    (hlast : (effectivePositions env v.Colors).getLast? = some 1)
    (hN : 1 ≤ N) (hf : N + 1 ≤ fuel) :
    InterpolateColors env fuel (pre ++ v :: post) (some v.Keyword) (N : ℚ) =
      Except.ok ((List.range N).map (fun k : Nat =>
        uint32ToRgba (sampleAt env (effectivePositions env v.Colors) (packedColors env v.Colors)
          ((k : ℚ) / (N : ℚ)) (bracketIndex (effectivePositions env v.Colors) ((k : ℚ) / (N : ℚ)))))) ∧
    (∀ gradient : List RGBA,
      InterpolateColors env fuel (pre ++ v :: post) (some v.Keyword) (N : ℚ) = Except.ok gradient →
        gradient.length = N) ∧
    (∀ k : Nat, k < N →
      roundSamples env (effectivePositions env v.Colors) (packedColors env v.Colors)
          (v.Colors.length - 1) ((k : ℚ) / (N : ℚ)) =
        [sampleAt env (effectivePositions env v.Colors) (packedColors env v.Colors)
          ((k : ℚ) / (N : ℚ)) (bracketIndex (effectivePositions env v.Colors) ((k : ℚ) / (N : ℚ)))]) ∧
    roundSamples env (effectivePositions env v.Colors) (packedColors env v.Colors)
      (v.Colors.length - 1) 1 = [] := by
  have hlen := effectivePositions_length env v.Colors
  have h2' : 2 ≤ (effectivePositions env v.Colors).length := by omega
  have hf0 := getD_zero_of_head? _ _ hfirst
  have hl1 := getD_last_of_getLast? _ _ hlast
  have hNpos : (0 : ℚ) < (N : ℚ) := by exact_mod_cast (by omega : 0 < N)
  have hgrad := gradientSamples_sorted env (effectivePositions env v.Colors)
    (packedColors env v.Colors) N hN hs h2' hf0 hl1 N 0 (by omega)
  rw [hlen] at hgrad
  have hmain := InterpolateColors_match env fuel pre post v N hpre hpost (by omega) hN hf
  rw [hgrad, ← List.range_eq_range', List.map_map] at hmain
  refine ⟨hmain, ?_, ?_, ?_⟩
  · intro gradient hg
    rw [hmain] at hg
    simp only [Except.ok.injEq] at hg
    subst hg
    simp
  · intro k hk
    have hp0 : (0 : ℚ) ≤ (k : ℚ) / (N : ℚ) := div_nonneg (Nat.cast_nonneg _) hNpos.le
    have hp1 : (k : ℚ) / (N : ℚ) < 1 := by
      rw [div_lt_one hNpos]
      exact_mod_cast hk
    obtain ⟨j0, _, _, _, hfilter⟩ := bracket_unique (effectivePositions env v.Colors) hs h2'
      hf0 hl1 ((k : ℚ) / (N : ℚ)) hp0 hp1
    rw [hlen] at hfilter
    simp only [roundSamples, bracketIndex, hlen, hfilter, List.map_cons, List.map_nil,
      List.headD_cons]
  · have hnone := (bracket_none (effectivePositions env v.Colors) hs hl1 1 (le_refl _)).2
    rw [hlen] at hnone
    simp only [roundSamples, hnone, List.map_nil]

theorem InterpolateColors_samples_witness :
    (∀ w ∈ ([] : List Palette), w.Keyword ≠ blackWhite.Keyword) ∧
    2 ≤ blackWhite.Colors.length ∧
    List.Sorted (· ≤ ·) (effectivePositions roughEnv blackWhite.Colors) ∧
    (effectivePositions roughEnv blackWhite.Colors).head? = some 0 ∧
    (effectivePositions roughEnv blackWhite.Colors).getLast? = some 1 ∧
    (∀ gradient : List RGBA,
      InterpolateColors roughEnv 5 ([] ++ blackWhite :: []) (some blackWhite.Keyword)
          ((4 : Nat) : ℚ) = Except.ok gradient →
        gradient.length = 4) :=
  have hnil : ∀ w ∈ ([] : List Palette), w.Keyword ≠ blackWhite.Keyword := by
    intro w hw
    cases hw
  have hsteps : effectivePositions roughEnv blackWhite.Colors = [0, 1] := by
    rw [effectivePositions_eq]
    norm_num [blackWhite, effectiveFrom, effectivePosition]
  have hs : List.Sorted (· ≤ ·) (effectivePositions roughEnv blackWhite.Colors) := by
    rw [hsteps]
    norm_num [List.Sorted]
  have hfirst : (effectivePositions roughEnv blackWhite.Colors).head? = some 0 := by
    rw [hsteps]
    rfl
  have hlast : (effectivePositions roughEnv blackWhite.Colors).getLast? = some 1 := by
    rw [hsteps]
    rfl
  have h2 : 2 ≤ blackWhite.Colors.length := by decide
  ⟨hnil, h2, hs, hfirst, hlast,
    (InterpolateColors_samples roughEnv 5 [] [] blackWhite 4 hnil hnil h2 hs hfirst hlast
      (by norm_num) (by norm_num)).2.1⟩

/-! ## Row tasks: disjoint writes and the completion barrier -/

theorem runInvariant_initial (W H : Nat) : RunInvariant W H RunState.initial where
  rows := by intro n t h; simp [RunState.initial] at h
  count := by simp [RunState.initial]
  parent := by simp [parentOk, RunState.initial]
  writes := by intro e he; simp [RunState.initial] at he

theorem runInvariant_stepParent (W H : Nat) (s : RunState) (h : RunInvariant W H s) :
    RunInvariant W H (stepParent H s) := by
  obtain ⟨hrows, hcount, hparent, hwrites⟩ := h
  unfold stepParent
  unfold parentOk at hparent
  cases hp : s.parent with
  | spawning iy =>
    rw [hp] at hparent
    simp only
    by_cases hlt : iy < H
    · rw [if_pos hlt]
      refine ⟨?_, ?_, ?_, ?_⟩
      · intro n t hn
        simp only at hn
        by_cases hnl : n < s.tasks.length
        · rw [List.getElem?_append_left hnl] at hn
          exact hrows n t hn
        · rw [List.getElem?_append_right (by omega)] at hn
          have hn0 : n - s.tasks.length = 0 := by
            by_contra hne
            rw [List.getElem?_eq_none (by simp; omega)] at hn
            cases hn
          rw [hn0] at hn
          simp only [List.getElem?_cons_zero, Option.some.injEq] at hn
          subst hn
          refine ⟨?_, Nat.zero_le _, ?_⟩
          · show iy = n
            omega
          · intro hf
            cases hf
      · simp only [List.countP_append, hcount]
        simp
      · simp only [parentOk, List.length_append, List.length_singleton]
        omega
      · intro e he
        obtain ⟨h1, h2, h3⟩ := hwrites e he
        refine ⟨h1, ?_, h3⟩
        simp only [List.length_append, List.length_singleton]
        omega
    · rw [if_neg hlt]
      refine ⟨hrows, hcount, ?_, hwrites⟩
      simp only [parentOk]
      omega
  | waiting =>
    rw [hp] at hparent
    simp only
    by_cases hz : s.wg = 0
    · rw [if_pos hz]
      exact ⟨hrows, hcount, by simp only [parentOk]; exact ⟨hparent, hz⟩, hwrites⟩
    · rw [if_neg hz]
      exact ⟨hrows, hcount, by simp only [parentOk, hp]; exact hparent, hwrites⟩
  | encoding =>
    rw [hp] at hparent
    exact ⟨hrows, hcount, by simp only [parentOk, hp]; exact hparent, hwrites⟩

theorem countP_unfinished_pos (tasks : List RowTask) (n : Nat) (t : RowTask)
    (hn : tasks[n]? = some t) (hf : t.finished = false) :
    0 < tasks.countP (fun t => !t.finished) := by
  rw [List.countP_pos_iff]
  exact ⟨t, List.getElem?_mem hn, by simp [hf]⟩

theorem runInvariant_stepTask (W H : Nat) (sets : Nat → Nat → Bool) (n : Nat) (s : RunState)
    (h : RunInvariant W H s) : RunInvariant W H (stepTask W sets n s) := by
  obtain ⟨hrows, hcount, hparent, hwrites⟩ := h
  unfold stepTask
  cases hn : s.tasks[n]? with
  | none => exact ⟨hrows, hcount, hparent, hwrites⟩
  | some t =>
    simp only
    obtain ⟨hlt, hget⟩ := List.getElem?_eq_some.mp hn
    obtain ⟨hiy, hix, _⟩ := hrows n t hn
    by_cases hfin : t.finished = true
    · rw [if_pos hfin]
      exact ⟨hrows, hcount, hparent, hwrites⟩
    · rw [if_neg hfin]
      have hfalse : t.finished = false := by simpa using hfin
      have hpos := countP_unfinished_pos s.tasks n t hn hfalse
      by_cases hcol : t.ix < W
      · rw [if_pos hcol]
        refine ⟨?_, ?_, ?_, ?_⟩
        · intro m u hm
          simp only [List.getElem?_set] at hm
          by_cases hnm : n = m
          · rw [if_pos hnm, if_pos hlt] at hm
            simp only [Option.some.injEq] at hm
            subst hm
            subst hnm
            refine ⟨hiy, by show t.ix + 1 ≤ W; omega, ?_⟩
            intro hf
            exact absurd hf hfin
          · rw [if_neg hnm] at hm
            exact hrows m u hm
        · simp only
          rw [List.countP_set _ _ _ _ hlt, hget, hcount]
          simp only [hfalse, Bool.not_false, if_true]
          congr 1
          omega
        · unfold parentOk at hparent ⊢
          simp only [List.length_set]
          exact hparent
        · intro e he
          simp only [List.length_set]
          by_cases hset : sets t.ix t.iy = true
          · simp only [hset, if_true, List.mem_append, List.mem_singleton] at he
            rcases he with he | he
            · exact hwrites e he
            · subst he
              exact ⟨hiy, hlt, hcol⟩
          · simp only [hset, if_false] at he
            exact hwrites e he
      · rw [if_neg hcol]
        refine ⟨?_, ?_, ?_, ?_⟩
        · intro m u hm
          simp only [List.getElem?_set] at hm
          by_cases hnm : n = m
          · rw [if_pos hnm, if_pos hlt] at hm
            simp only [Option.some.injEq] at hm
            subst hm
            subst hnm
            exact ⟨hiy, hix, fun _ => by show t.ix = W; omega⟩
          · rw [if_neg hnm] at hm
            exact hrows m u hm
        · simp only
          rw [List.countP_set _ _ _ _ hlt, hget, hcount]
          simp only [hfalse, Bool.not_false, if_true, Bool.not_true, Bool.false_eq_true,
            if_false, Nat.add_zero]
          omega
        · unfold parentOk at hparent ⊢
          simp only [List.length_set]
          cases hp : s.parent with
          | spawning iy => rw [hp] at hparent; exact hparent
          | waiting => rw [hp] at hparent; exact hparent
          | encoding =>
            rw [hp] at hparent
            exfalso
            have := hparent.2
            rw [hcount] at this
            omega
        · intro e he
          simp only [List.length_set]
          exact hwrites e he

/-- Every state of a run satisfies the invariant. -/
theorem runInvariant_run (W H : Nat) (sets : Nat → Nat → Bool) (schedule : List Move) :
    RunInvariant W H (run W H sets schedule) := by
  unfold run
  have hgen : ∀ (moves : List Move) (s : RunState), RunInvariant W H s →
      RunInvariant W H (moves.foldl (step W H sets) s) := by
    intro moves
    induction moves with
    | nil => intro s hs; exact hs
    | cons m rest ih =>
      intro s hs
      rw [List.foldl_cons]
      apply ih
      cases m with
      | parent => exact runInvariant_stepParent W H s hs
      | task n => exact runInvariant_stepTask W H sets n s hs
  exact hgen schedule _ (runInvariant_initial W H)

theorem run_tasks_le (W H : Nat) (sets : Nat → Nat → Bool) (schedule : List Move) :
    (run W H sets schedule).tasks.length ≤ H := by
  have h := (runInvariant_run W H sets schedule).parent
  unfold parentOk at h
  cases hp : (run W H sets schedule).parent with
  | spawning iy => rw [hp] at h; omega
  | waiting => rw [hp] at h; omega
  | encoding => rw [hp] at h; omega

/-- A schedule of a 2 x 2 run under which every cell is written and the parent passes the
barrier. -/
theorem run_example :
    (run 2 2 (fun _ _ => true)
      [.parent, .task 0, .parent, .task 1, .task 0, .parent, .task 0, .task 1, .task 1,
        .parent]).parent = Parent.encoding ∧
    (run 2 2 (fun _ _ => true)
      [.parent, .task 0, .parent, .task 1, .task 0, .parent, .task 0, .task 1, .task 1,
        .parent]).writes = [⟨0, 0, 0⟩, ⟨1, 0, 1⟩, ⟨0, 1, 0⟩, ⟨1, 1, 1⟩] := by
  decide

/-- C14: in every run of `Render` with its row tasks, under every schedule, each write to the
buffer is made by the task started for the row of the written cell, so two writes to the
same cell come from the same task; and when the parent is past `WG.Wait()`, passing the
buffer on, all `H` row tasks have been started and every one has finished its column loop
and run `WG.Done()`. -/
theorem Render_rows_disjoint (W H : Nat) (sets : Nat → Nat → Bool) (schedule : List Move) :
    (∀ e ∈ (run W H sets schedule).writes, e.y = e.task ∧ e.task < H ∧ e.x < W) ∧
    (∀ e1 ∈ (run W H sets schedule).writes, ∀ e2 ∈ (run W H sets schedule).writes,
      e1.x = e2.x → e1.y = e2.y → e1.task = e2.task) ∧
    ((run W H sets schedule).parent = Parent.encoding →
      (run W H sets schedule).tasks.length = H ∧
      (∀ iy : Nat, iy < H → ∃ t : RowTask, (run W H sets schedule).tasks[iy]? = some t ∧
        t.iy = iy ∧ t.ix = W ∧ t.finished = true)) := by
  have hinv := runInvariant_run W H sets schedule
  have hle := run_tasks_le W H sets schedule
  refine ⟨?_, ?_, ?_⟩
  · intro e he
    obtain ⟨h1, h2, h3⟩ := hinv.writes e he
    exact ⟨h1, by omega, h3⟩
  · intro e1 he1 e2 he2 _ hy
    have h1 := (hinv.writes e1 he1).1
    have h2 := (hinv.writes e2 he2).1
    omega
  · intro hp
    have hpar := hinv.parent
    unfold parentOk at hpar
    rw [hp] at hpar
    obtain ⟨hlen, hwg⟩ := hpar
    refine ⟨hlen, ?_⟩
    intro iy hiy
    have hlt : iy < (run W H sets schedule).tasks.length := by omega
    refine ⟨(run W H sets schedule).tasks[iy], List.getElem?_eq_getElem hlt, ?_⟩
    obtain ⟨hrow, _, hfinix⟩ := hinv.rows iy _ (List.getElem?_eq_getElem hlt)
    have hcount := hinv.count
    rw [hwg] at hcount
    have hzero : (run W H sets schedule).tasks.countP (fun t => !t.finished) = 0 := by
      exact_mod_cast hcount.symm
    have hfin : (run W H sets schedule).tasks[iy].finished = true := by
      have := List.countP_eq_zero.mp hzero _ (List.getElem_mem hlt)
      simpa using this
    exact ⟨hrow, hfinix hfin, hfin⟩

end Gobrot
